import Mathlib

/-!
# Verification of the rebalancer allocation engine

A shallow embedding of the portfolio-rebalancing core (the two allocation
strategies `calculateRebalance` and `calculateRebalanceMinTrades`, the
whole-share converter `convertToWholeShares`, and the trade generator
`generateTrades`), translated from the TypeScript source.  JavaScript
numbers are modelled as exact rationals (`ℚ`); JavaScript `Map`s are
modelled as insertion-ordered association lists; the stable JavaScript
`Array.prototype.sort` is modelled by `List.mergeSort`.
-/

unseal Rat.mul Rat.add Rat.sub Rat.inv

unseal List.merge List.mergeSort

set_option maxRecDepth 100000

namespace Rebalancer

/-- A tradable instrument (`Symbol` in `types.ts`): `name`, `price`
(dollars per share) and the optional `targetPercent`.  The descriptive
weight maps and `beta` are ignored by the allocation core. -/
structure Sym where
  name : String
  price : ℚ
  targetPercent : Option ℚ := none
deriving DecidableEq, Repr

/-- A custody account (`Account` in `types.ts`); only the name matters to
the allocation math. -/
structure Account where
  name : String
deriving DecidableEq, Repr

/-- A (symbol, account) position (`Holding` in `types.ts`). -/
structure Holding where
  account : String
  symbol : String
  shares : ℚ
  price : ℚ
  amount : ℚ
  targetShares : Option ℚ := none
  targetAmount : Option ℚ := none
deriving DecidableEq, Repr

/-- Buy/sell marker for a `Trade`. -/
inductive TradeType where
  | buy
  | sell
deriving DecidableEq, Repr

/-- A buy or sell instruction (`Trade` in `types.ts`). -/
structure Trade where
  account : String
  symbol : String
  type : TradeType
  shares : ℚ
  amount : ℚ
deriving DecidableEq, Repr

/-- JavaScript `reduce((sum, x) => sum + x, 0)`. -/
def qsum (l : List ℚ) : ℚ :=
  l.foldl (· + ·) 0

/-- JavaScript `Math.round`: round half toward positive infinity. -/
def jsRound (x : ℚ) : ℤ :=
  (x + 1 / 2).floor

/-- JavaScript `Map.prototype.set`: update the value in place when the key
exists (keeping its insertion position), otherwise append. -/
def mapSet {α β : Type} [DecidableEq α] : List (α × β) → α → β → List (α × β)
  | [], k, v => [(k, v)]
  | (k', v') :: rest, k, v =>
      if k' = k then (k, v) :: rest else (k', v') :: mapSet rest k v

/-- JavaScript `Map.prototype.get`. -/
def mapGet {α β : Type} [DecidableEq α] (m : List (α × β)) (k : α) : Option β :=
  (m.find? (fun e => decide (e.1 = k))).map (·.2)

/-- The keys of a JavaScript `Map` built by inserting a list of keys in
order: first occurrences, in order of first appearance. -/
def dedupFirst : List String → List String
  | [] => []
  | s :: rest => s :: (dedupFirst rest).filter (fun t => decide (t ≠ s))

/-! ## Whole-share converter (`convertToWholeShares`) -/

/-- One element of the `ideals` array built per symbol group: the source
holding, its ideal fractional share count, the floor of the ideal, and the
fractional remainder. -/
structure IdealItem where
  holding : Holding
  ideal : ℚ
  floored : ℤ
  remainder : ℚ
deriving DecidableEq, Repr

/-- Ideal fractional shares of a holding at a given group price:
`targetAmount / price` when `targetAmount` is set, else the current
`shares` ("don't touch"). -/
def idealOf (price : ℚ) (h : Holding) : ℚ :=
  match h.targetAmount with
  | some ta => ta / price
  | none => h.shares

/-- A working row of the converter's `result` array: the source holding
together with its integer `targetShares` (`t`), its recomputed
`targetAmount` (`ta`), and the parallel `floorOfIdeal` entry (`fl`). -/
structure RRow where
  base : Holding
  t : ℤ
  ta : ℚ
  fl : ℤ
deriving DecidableEq, Repr

/-- Render a working row back to a `Holding`, as the converter's
`result.push({...h, targetShares, targetAmount})`. -/
def RRow.out (r : RRow) : Holding :=
  { r.base with targetShares := some (r.t : ℚ), targetAmount := some r.ta }

/-- Largest-remainder conversion of one symbol group: compute ideals,
floors and remainders, sort by remainder descending (stable), and award
one extra share to each of the first `extraShares` rows, where
`extraShares = round(totalIdeal) - totalFloored`. -/
def convertGroup (group : List Holding) : List RRow :=
  match group with
  | [] => []
  | g0 :: _ =>
    let price := g0.price
    let ideals := group.map (fun h =>
      let ideal := idealOf price h
      ({ holding := h, ideal := ideal, floored := ideal.floor,
         remainder := ideal - ideal.floor } : IdealItem))
    let totalIdeal := qsum (ideals.map (·.ideal))
    let totalFloored := (ideals.map (·.floored)).foldl (· + ·) 0
    let extraShares := jsRound totalIdeal - totalFloored
    let sorted := ideals.mergeSort (fun a b => decide (b.remainder ≤ a.remainder))
    let bumped := (sorted.take extraShares.toNat).map
        (fun i => { i with floored := i.floored + 1 }) ++ sorted.drop extraShares.toNat
    bumped.map (fun i =>
      ({ base := i.holding, t := i.floored, ta := (i.floored : ℚ) * price,
         fl := i.ideal.floor } : RRow))

/-- The per-account total of the converter's working result:
`(targetShares ?? shares) * price` summed over the account's rows
(`targetShares` is always set on working rows). -/
def accountTargetOf (rows : List RRow) (a : String) : ℚ :=
  qsum ((rows.filter (fun r => decide (r.base.account = a))).map
    (fun r => (r.t : ℚ) * r.base.price))

/-- The original dollar total of an account (`accountBudget`). -/
def accountBudgetOf (holdings : List Holding) (a : String) : ℚ :=
  qsum ((holdings.filter (fun h => decide (h.account = a))).map (·.amount))

/-- The pre-rounding target total of an account (`accountPreRounding`):
`targetAmount ?? amount` summed over the account's input holdings. -/
def accountPreRoundingOf (holdings : List Holding) (a : String) : ℚ :=
  qsum ((holdings.filter (fun h => decide (h.account = a))).map
    (fun h => h.targetAmount.getD h.amount))

/-- The repair pass's search for the best holding of an over-budget
account to decrement: scan the working rows; skip rows of other accounts
and rows with `targetShares ≤ 0`; prefer rounded-up rows
(`targetShares > floorOfIdeal`), and within the same tier prefer the
smallest price.  The initial state (`bestIdx = -1`,
`bestPrice = Infinity`, `bestWasRoundedUp = false`) is modelled by
`none`: the first eligible row is always taken. -/
def findBest (rows : List RRow) (a : String) : Option ℕ :=
  (rows.enum.foldl
    (fun (best : Option (ℕ × ℚ × Bool)) (ir : ℕ × RRow) =>
      if ¬(ir.2.base.account = a) ∨ ir.2.t ≤ 0 then best
      else
        let wasUp := decide (ir.2.fl < ir.2.t)
        match best with
        | none => some (ir.1, ir.2.base.price, wasUp)
        | some (bi, bp, bup) =>
          if wasUp = true ∧ bup = false then some (ir.1, ir.2.base.price, wasUp)
          else if wasUp = bup ∧ ir.2.base.price < bp then some (ir.1, ir.2.base.price, wasUp)
          else some (bi, bp, bup))
    none).map (·.1)

/-- Decrement the working row at index `i` by one share and recompute its
`targetAmount` from its own price. -/
def decAt (rows : List RRow) (i : ℕ) : List RRow :=
  match rows.get? i with
  | none => rows
  | some r => rows.set i { r with t := r.t - 1, ta := ((r.t - 1 : ℤ) : ℚ) * r.base.price }

/-- One iteration of the repair `while` loop: compute each account's
current target total from the pass-start rows, then walk the accounts in
order; for each account whose pre-rounding total was within budget but
whose target total exceeds budget, decrement the best eligible holding
and set the `changed` flag. -/
def onePass (accounts : List String) (budget pre : String → ℚ) (rows : List RRow) :
    List RRow × Bool :=
  let target := fun a => accountTargetOf rows a
  accounts.foldl
    (fun (st : List RRow × Bool) a =>
      if pre a > budget a + 1 / 100 then st
      else if target a > budget a + 1 / 100 then
        match findBest st.1 a with
        | some i => (decAt st.1 i, true)
        | none => st
      else st)
    (rows, false)

/-- The repair `while (changed)` loop, with explicit fuel (the source loop
is unbounded; termination is proved separately). -/
def repairLoop (accounts : List String) (budget pre : String → ℚ) :
    ℕ → List RRow → List RRow
  | 0, rows => rows
  | fuel + 1, rows =>
    let step := onePass accounts budget pre rows
    if step.2 then repairLoop accounts budget pre fuel step.1 else step.1

/-- Termination measure for the repair loop: the sum of the positive
parts of the working `targetShares`. -/
def sharesMeasure (rows : List RRow) : ℕ :=
  (rows.map (fun r => r.t.toNat)).sum

/-- The grouped, largest-remainder-rounded working rows (the `result`
array as it stands before the budget-repair loop): groups in order of
first appearance of each symbol, each group rounded by `convertGroup`. -/
def roundedRows (holdings : List Holding) : List RRow :=
  (dedupFirst (holdings.map (·.symbol))).flatMap
    (fun s => convertGroup (holdings.filter (fun h => decide (h.symbol = s))))

/-- `convertToWholeShares`: group holdings by symbol, convert each group
to whole shares by the largest-remainder method, then run the per-account
budget-repair loop. -/
def convertToWholeShares (holdings : List Holding) : List Holding :=
  let rows := roundedRows holdings
  let accounts := dedupFirst (holdings.map (·.account))
  (repairLoop accounts (accountBudgetOf holdings) (accountPreRoundingOf holdings)
    (sharesMeasure rows + 1) rows).map RRow.out

/-! ## Consolidate strategy (`calculateRebalance`) -/

/-- Association-list state threaded through the Consolidate allocation
loop: the `allocations` map keyed by (symbol name, account name) and the
`accountCapacity` map. -/
abbrev AllocMap := List ((String × String) × ℚ)

/-- The greedy allocation of one symbol in the Consolidate strategy: walk
the accounts in descending order of remaining capacity (positive
capacities only) and assign `min(remaining, capacity)` to each until the
symbol's dollar need is exhausted (the `break` on `remaining ≤ 0` is a
skip of the remaining iterations). -/
def consolidateSymbol (allAccounts : List String) (st : AllocMap × List (String × ℚ))
    (sv : String × ℚ) : AllocMap × List (String × ℚ) :=
  let abc := ((allAccounts.map (fun n => (n, (mapGet st.2 n).getD 0))).filter
      (fun x => decide (0 < x.2))).mergeSort (fun x y => decide (y.2 ≤ x.2))
  let inner := abc.foldl
    (fun (st2 : AllocMap × List (String × ℚ) × ℚ) (ac : String × ℚ) =>
      if st2.2.2 ≤ 0 then st2
      else
        let can := min st2.2.2 ac.2
        if 0 < can then
          (mapSet st2.1 (sv.1, ac.1) can, mapSet st2.2.1 ac.1 (ac.2 - can), st2.2.2 - can)
        else st2)
    (st.1, st.2, sv.2)
  (inner.1, inner.2.1)

/-- The output rows both strategies build for one account: one row per
symbol with a defined `targetPercent` (target amount looked up in the
allocation map, existing shares/amount carried over, price from the price
map defaulting to 1), followed by one full-liquidation row
(`targetAmount = 0`) per holding of the account whose symbol has no
defined `targetPercent` (or is missing from the symbol list). -/
def resultRowsFor (symbols : List Sym) (holdings : List Holding)
    (priceMap : List (String × ℚ)) (alloc : AllocMap) (aName : String) : List Holding :=
  (symbols.filterMap (fun sym =>
    match sym.targetPercent with
    | some _ =>
      let ta := (mapGet alloc (sym.name, aName)).getD 0
      let ex := holdings.find? (fun h => decide (h.symbol = sym.name ∧ h.account = aName))
      some { symbol := sym.name, account := aName,
             shares := (ex.map (·.shares)).getD 0,
             price := (mapGet priceMap sym.name).getD 1,
             amount := (ex.map (·.amount)).getD 0,
             targetAmount := some ta }
    | none => none))
  ++ holdings.filterMap (fun h =>
    if h.account = aName then
      match symbols.find? (fun s => decide (s.name = h.symbol)) with
      | some sym =>
        match sym.targetPercent with
        | some _ => none
        | none => some { symbol := h.symbol, account := aName, shares := h.shares,
                         price := h.price, amount := h.amount, targetAmount := some 0 }
      | none => some { symbol := h.symbol, account := aName, shares := h.shares,
                       price := h.price, amount := h.amount, targetAmount := some 0 }
    else none)

/-- The price map both strategies build from the symbol list. -/
def priceMapOf (symbols : List Sym) : List (String × ℚ) :=
  symbols.foldl (fun m s => mapSet m s.name s.price) []

/-- The accounts appearing in the holdings, in order of first appearance
(the key order of the `accountTotals` map); the strategies derive their
account universe from the holdings, not from the `accounts` argument. -/
def allAccountsOf (holdings : List Holding) : List String :=
  dedupFirst (holdings.map (·.account))

/-- `calculateRebalance` (Consolidate): compute each symbol's dollar
target `totalValue * targetPercent / 100` (symbols with defined
`targetPercent > 0` only), process symbols in descending order of target,
greedily filling accounts in descending order of remaining capacity, then
emit the output rows. The `accounts` argument is unused (as in the
source, `_accounts`). -/
def calculateRebalance (symbols : List Sym) (accounts : List Account)
    (holdings : List Holding) : List Holding :=
  let _ := accounts
  let totalValue := qsum (holdings.map (·.amount))
  let priceMap := priceMapOf symbols
  let allAccounts := allAccountsOf holdings
  let symbolTargets := symbols.foldl (fun m s =>
      match s.targetPercent with
      | some p => if 0 < p then mapSet m s.name (totalValue * (p / 100)) else m
      | none => m) ([] : List (String × ℚ))
  let capacity0 : List (String × ℚ) :=
    allAccounts.map (fun a => (a, accountBudgetOf holdings a))
  let symbolsWithTargets := symbolTargets.mergeSort (fun x y => decide (y.2 ≤ x.2))
  let alloc := (symbolsWithTargets.foldl (consolidateSymbol allAccounts) ([], capacity0)).1
  allAccounts.flatMap (resultRowsFor symbols holdings priceMap alloc)

/-- `calculateTargetPercentSum`: sum of the defined target percentages
(`targetPercent || 0`). -/
def calculateTargetPercentSum (symbols : List Sym) : ℚ :=
  symbols.foldl (fun sum s => sum + (s.targetPercent.getD 0)) 0

/-- `isTargetPercentValid`: the target percentages sum to 100 within the
given tolerance (default 0.01). -/
def isTargetPercentValid (symbols : List Sym) (tolerance : ℚ := 1 / 100) : Bool :=
  decide (|calculateTargetPercentSum symbols - 100| < tolerance)

/-! ## Minimize-Trades strategy (`calculateRebalanceMinTrades`) -/

/-- Dollars already allocated to an account across all symbols: the sum
of the allocation-map values whose key ends with `:account` (names are
modelled as composite keys, so this is the second component). -/
def usedOf (alloc : AllocMap) (a : String) : ℚ :=
  qsum ((alloc.filter (fun e => decide (e.1.2 = a))).map (·.2))

/-- Dollars currently allocated to a symbol across all accounts: the sum
of the allocation-map values whose key starts with `symbol:`. -/
def symTotalOf (alloc : AllocMap) (s : String) : ℚ :=
  qsum ((alloc.filter (fun e => decide (e.1.1 = s))).map (·.2))

/-- One entry of the `symbolHoldings` working array of the
Minimize-Trades symbol pass. -/
structure SymHolding where
  account : String
  amount : ℚ
deriving DecidableEq, Repr

/-- The selling branch of the Minimize-Trades symbol pass: remove
`|delta|` from the symbol's holdings, smallest first, capping at each
holding's amount. -/
def minTradesSell (symbolName : String) (symbolHoldings : List SymHolding)
    (alloc : AllocMap) (delta : ℚ) : AllocMap :=
  (symbolHoldings.foldl
    (fun (st : AllocMap × ℚ) (sh : SymHolding) =>
      if st.2 ≤ 0 then st
      else
        let toRemove := min st.2 sh.amount
        (mapSet st.1 (symbolName, sh.account) (sh.amount - toRemove), st.2 - toRemove))
    (alloc, |delta|)).1

/-- The buying branch of the Minimize-Trades symbol pass: add to accounts
already holding the symbol (largest holding first, capped by the
account's remaining capacity, capacities of at most 1 treated as
exhausted), then spill any remainder above 1 into the other accounts in
descending remaining-capacity order. -/
def minTradesBuy (allAccounts : List String) (accountTotal : String → ℚ)
    (symbolName : String) (symbolHoldings : List SymHolding)
    (alloc : AllocMap) (delta : ℚ) : AllocMap :=
  let sortedHoldings := symbolHoldings.mergeSort (fun x y => decide (y.amount ≤ x.amount))
  let phase1 := sortedHoldings.foldl
    (fun (st : AllocMap × ℚ) (sh : SymHolding) =>
      if st.2 ≤ 0 then st
      else
        let availableCapacity := accountTotal sh.account - usedOf st.1 sh.account
        if 1 < availableCapacity then
          let canAdd := min st.2 availableCapacity
          (mapSet st.1 (symbolName, sh.account) (sh.amount + canAdd), st.2 - canAdd)
        else st)
    (alloc, delta)
  if 1 < phase1.2 then
    let accountsWithCapacity := ((allAccounts.map
        (fun n => (n, accountTotal n - usedOf phase1.1 n))).filter
        (fun x => decide (1 < x.2))).mergeSort (fun x y => decide (y.2 ≤ x.2))
    (accountsWithCapacity.foldl
      (fun (st : AllocMap × ℚ) (ac : String × ℚ) =>
        if st.2 ≤ 0 then st
        else
          let currentAmount := (mapGet st.1 (symbolName, ac.1)).getD 0
          let availableCapacity := accountTotal ac.1 - usedOf st.1 ac.1
          if 1 < availableCapacity then
            let canAdd := min st.2 availableCapacity
            (mapSet st.1 (symbolName, ac.1) (currentAmount + canAdd), st.2 - canAdd)
          else st)
      (phase1.1, phase1.2)).1
  else phase1.1

/-- One symbol of the Minimize-Trades delta pass: skip when `|delta|` is
below `max(symbolPrice, totalValue * 0.0002)` (the noise threshold),
otherwise sell or buy the difference. -/
def minTradesSymbolPass (allAccounts : List String) (accountTotal : String → ℚ)
    (priceMap : List (String × ℚ)) (totalValue : ℚ) (holdings : List Holding)
    (alloc : AllocMap) (sv : String × ℚ) : AllocMap :=
  let symbolHoldings := ((holdings.filter
      (fun h => decide (h.symbol = sv.1 ∧ 0 < h.amount))).map
      (fun h => ({ account := h.account, amount := h.amount } : SymHolding))).mergeSort
      (fun x y => decide (x.amount ≤ y.amount))
  let currentTotal := qsum (symbolHoldings.map (·.amount))
  let delta := sv.2 - currentTotal
  let symbolPrice := (mapGet priceMap sv.1).getD 1
  let noiseThreshold := totalValue * (2 / 10000)
  if |delta| < max symbolPrice noiseThreshold then alloc
  else if delta < 0 then minTradesSell sv.1 symbolHoldings alloc delta
  else minTradesBuy allAccounts accountTotal sv.1 symbolHoldings alloc delta

/-- The per-account reconciliation pass of Minimize-Trades: for each
account whose allocated total differs from its original total by at least
1 dollar, redistribute the difference proportionally over the account's
positive allocations, clamping each at zero. -/
def minTradesReconcile (accountTotal : String → ℚ) (alloc : AllocMap)
    (account : String) : AllocMap :=
  let targetTotal := accountTotal account
  let currentTotal := usedOf alloc account
  let delta := targetTotal - currentTotal
  if |delta| < 1 then alloc
  else
    let accountSymbols := alloc.filter (fun e => decide (e.1.2 = account ∧ 0 < e.2))
    if accountSymbols = [] then alloc
    else
      let accountSymbolTotal := qsum (accountSymbols.map (·.2))
      accountSymbols.foldl
        (fun al e =>
          let proportion := e.2 / accountSymbolTotal
          let adjustment := delta * proportion
          mapSet al e.1 (max 0 (e.2 + adjustment)))
        alloc

/-- The new-symbol pass of Minimize-Trades: any target symbol whose
current allocation total is below 1 dollar gets its full target allocated
across accounts in descending remaining-capacity order (capacities of at
most 1 excluded). -/
def minTradesNewSymbol (allAccounts : List String) (accountTotal : String → ℚ)
    (alloc : AllocMap) (sv : String × ℚ) : AllocMap :=
  let currentTotal := symTotalOf alloc sv.1
  if currentTotal < 1 then
    let accountsWithCapacity := ((allAccounts.map
        (fun n => (n, accountTotal n - usedOf alloc n))).filter
        (fun x => decide (1 < x.2))).mergeSort (fun x y => decide (y.2 ≤ x.2))
    (accountsWithCapacity.foldl
      (fun (st : AllocMap × ℚ) (ac : String × ℚ) =>
        if st.2 ≤ 0 then st
        else
          let canAllocate := min st.2 ac.2
          (mapSet st.1 (sv.1, ac.1) canAllocate, st.2 - canAllocate))
      (alloc, sv.2)).1
  else alloc

/-- `calculateRebalanceMinTrades` (Minimize Trades): start from the
current allocations of every holding whose symbol has a defined
`targetPercent`, process symbols in ascending order of
`target - current` (selling first), then reconcile each account's total
and allocate any symbol still missing entirely, and emit the output
rows.  The `accounts` argument is unused (as in the source,
`_accounts`). -/
def calculateRebalanceMinTrades (symbols : List Sym) (accounts : List Account)
    (holdings : List Holding) : List Holding :=
  let _ := accounts
  let totalValue := qsum (holdings.map (·.amount))
  let priceMap := priceMapOf symbols
  let allAccounts := allAccountsOf holdings
  let accountTotal := accountBudgetOf holdings
  let symbolTargets := symbols.foldl (fun m s =>
      match s.targetPercent with
      | some p => mapSet m s.name (totalValue * (p / 100))
      | none => m) ([] : List (String × ℚ))
  let alloc0 := holdings.foldl (fun m h =>
      match symbols.find? (fun s => decide (s.name = h.symbol)) with
      | some s => match s.targetPercent with
                  | some _ => mapSet m (h.symbol, h.account) h.amount
                  | none => m
      | none => m) ([] : AllocMap)
  let symbolDeltas := (symbolTargets.map (fun sv =>
      let currentTotal := qsum ((holdings.filter
        (fun h => decide (h.symbol = sv.1))).map (·.amount))
      (sv.1, sv.2, sv.2 - currentTotal))).mergeSort
      (fun x y => decide (x.2.2 ≤ y.2.2))
  let alloc1 := symbolDeltas.foldl
    (fun al sd => minTradesSymbolPass allAccounts accountTotal priceMap totalValue
      holdings al (sd.1, sd.2.1)) alloc0
  let alloc2 := allAccounts.foldl (minTradesReconcile accountTotal) alloc1
  let alloc3 := symbolTargets.foldl (minTradesNewSymbol allAccounts accountTotal) alloc2
  allAccounts.flatMap (resultRowsFor symbols holdings priceMap alloc3)

/-! ## Trade generator (`generateTrades`) -/

/-- `generateTrades`: for each holding with a defined `targetShares`,
compute `deltaShares = round(targetShares - shares)`; skip when zero,
otherwise emit a buy (positive) or sell (negative) of `|deltaShares|`
shares with dollar amount `round(|deltaShares| * price * 100) / 100`. -/
def generateTrades (holdings : List Holding) : List Trade :=
  holdings.foldl
    (fun trades h =>
      match h.targetShares with
      | none => trades
      | some t =>
        let deltaShares := jsRound (t - h.shares)
        if deltaShares = 0 then trades
        else
          let absShares : ℚ := (deltaShares.natAbs : ℚ)
          trades ++ [{ account := h.account, symbol := h.symbol,
                       type := if 0 < deltaShares then TradeType.buy else TradeType.sell,
                       shares := absShares,
                       amount := ((jsRound (absShares * h.price * 100) : ℚ)) / 100 }])
    []

/-! ## Basic lemmas about the JS-semantics helpers -/

theorem qsum_eq_sum (l : List ℚ) : qsum l = l.sum := by
  simp [qsum, List.sum_eq_foldl]

theorem qsum_nil : qsum [] = 0 := rfl

theorem qsum_cons (x : ℚ) (l : List ℚ) : qsum (x :: l) = x + qsum l := by
  simp [qsum_eq_sum]

theorem qsum_append (l₁ l₂ : List ℚ) : qsum (l₁ ++ l₂) = qsum l₁ + qsum l₂ := by
  simp [qsum_eq_sum]

theorem qsum_perm {l₁ l₂ : List ℚ} (h : l₁.Perm l₂) : qsum l₁ = qsum l₂ := by
  simp [qsum_eq_sum, h.sum_eq]

theorem qsum_nonneg {l : List ℚ} (h : ∀ x ∈ l, 0 ≤ x) : 0 ≤ qsum l := by
  rw [qsum_eq_sum]; exact List.sum_nonneg h

/-- Fold of an option-append step is `filterMap`. -/
theorem foldl_optAppend_eq_filterMap {α β : Type} (f : α → Option β) (l : List α)
    (acc : List β) :
    l.foldl (fun ts x => ts ++ (f x).toList) acc = acc ++ l.filterMap f := by
  induction l generalizing acc with
  | nil => simp
  | cons x xs ih =>
    cases hfx : f x <;> simp [List.foldl_cons, hfx, ih]

/-! ## C5: the trade generator emits exactly the per-holding trades -/

/-- The per-holding trade formula as the specification states it: for a
holding with a defined `targetShares`, the rounded share delta, skipped
when zero, otherwise a buy/sell of the absolute delta at
`round(|delta| * price, 2 decimals)`. -/
def tradeRule (h : Holding) : Option Trade :=
  match h.targetShares with
  | none => none
  | some t =>
    let deltaShares := jsRound (t - h.shares)
    if deltaShares = 0 then none
    else some { account := h.account, symbol := h.symbol,
                type := if 0 < deltaShares then TradeType.buy else TradeType.sell,
                shares := (deltaShares.natAbs : ℚ),
                amount := ((jsRound ((deltaShares.natAbs : ℚ) * h.price * 100) : ℚ)) / 100 }

theorem generateTrades_eq_filterMap (holdings : List Holding) :
    generateTrades holdings = holdings.filterMap tradeRule := by
  have hstep : generateTrades holdings
      = holdings.foldl (fun ts h => ts ++ (tradeRule h).toList) [] := by
    unfold generateTrades
    congr 1
    funext ts h
    cases ht : h.targetShares with
    | none => simp [tradeRule, ht]
    | some t =>
      by_cases hz : jsRound (t - h.shares) = 0 <;>
        simp [tradeRule, ht, hz]
  rw [hstep, foldl_optAppend_eq_filterMap]
  simp

/-- C5: for every holdings list, `generateTrades` emits exactly one trade
per holding with a defined `targetShares` and nonzero rounded share
delta — a buy when positive, a sell when negative, of `|deltaShares|`
shares and `|deltaShares| * price` dollars rounded to cents — and no
trade for holdings with undefined `targetShares` or zero delta; in
particular `{shares:6, price:250, targetShares:10}` yields
`{type:buy, shares:4, amount:1000}` and `{shares:10, price:250,
targetShares:6}` yields `{type:sell, shares:4, amount:1000}`. -/
theorem C5_generateTrades_per_holding (holdings : List Holding) :
    generateTrades holdings = holdings.filterMap tradeRule
    ∧ generateTrades
        [{ account := "a", symbol := "S", shares := 6, price := 250, amount := 1500,
           targetShares := some 10 }]
      = [{ account := "a", symbol := "S", type := TradeType.buy, shares := 4,
           amount := 1000 }]
    ∧ generateTrades
        [{ account := "a", symbol := "S", shares := 10, price := 250, amount := 2500,
           targetShares := some 6 }]
      = [{ account := "a", symbol := "S", type := TradeType.sell, shares := 4,
           amount := 1000 }] :=
  ⟨generateTrades_eq_filterMap holdings, by decide, by decide⟩

/-! ## Output aggregation helpers used by the conservation claims -/

/-- Sum of `targetAmount` (0 when unset) over an account's output rows. -/
def outAccountSum (rows : List Holding) (a : String) : ℚ :=
  qsum ((rows.filter (fun h => decide (h.account = a))).map (fun h => h.targetAmount.getD 0))

/-- Sum of `targetAmount` (0 when unset) over a symbol's output rows. -/
def outSymbolSum (rows : List Holding) (s : String) : ℚ :=
  qsum ((rows.filter (fun h => decide (h.symbol = s))).map (fun h => h.targetAmount.getD 0))

/-- Sum of `targetShares * price` over an account's output rows
(`targetShares` taken as 0 when unset). -/
def outShareValueSum (rows : List Holding) (a : String) : ℚ :=
  qsum ((rows.filter (fun h => decide (h.account = a))).map
    (fun h => h.targetShares.getD 0 * h.price))

/-! ## Concrete inputs used by the counterexamples -/

/-- Symbols of the Minimize-Trades conservation counterexample: two
symbols at price 1 whose target percentages sum to exactly 100. -/
def cxSyms1 : List Sym :=
  [{ name := "X", price := 1, targetPercent := some (9400 / 209) },
   { name := "Y", price := 1, targetPercent := some (11500 / 209) }]

/-- Holdings of the Minimize-Trades conservation counterexample: account
a1 holds 0.9 of X, a2 holds 10 of X, a3 holds 10 of Y. -/
def cxHolds1 : List Holding :=
  [{ account := "a1", symbol := "X", shares := 9 / 10, price := 1, amount := 9 / 10 },
   { account := "a2", symbol := "X", shares := 10, price := 1, amount := 10 },
   { account := "a3", symbol := "Y", shares := 10, price := 1, amount := 10 }]

/-- Symbols of the Minimize-Trades symbol-conservation counterexample:
50/50 targets over a $1000 portfolio. -/
def cxSyms2 : List Sym :=
  [{ name := "A", price := 100, targetPercent := some 50 },
   { name := "B", price := 1, targetPercent := some 50 }]

/-- Holdings of the Minimize-Trades symbol-conservation counterexample:
one account holding $450 of A and $550 of B. -/
def cxHolds2 : List Holding :=
  [{ account := "a1", symbol := "A", shares := 9 / 2, price := 100, amount := 450 },
   { account := "a1", symbol := "B", shares := 550, price := 1, amount := 550 }]

/-- Symbols of the noise-threshold counterexample (percentages sum to
100). -/
def cxSyms3 : List Sym :=
  [{ name := "A", price := 100, targetPercent := some (50000 / 910) },
   { name := "B", price := 200, targetPercent := some (41000 / 910) }]

/-- Holdings of the noise-threshold counterexample: A held at 4.5 shares
(a half-share position), B at 2.3 shares. -/
def cxHolds3 : List Holding :=
  [{ account := "a1", symbol := "A", shares := 9 / 2, price := 100, amount := 450 },
   { account := "a1", symbol := "B", shares := 23 / 10, price := 200, amount := 460 }]

/-- C1, counterexample: with target percentages summing to exactly 100
and non-negative amounts, the Minimize-Trades strategy leaves account a1
of `cxHolds1` with an output `targetAmount` total of 0 against an input
total of 0.9 — an error of 0.9, far beyond the 0.01 tolerance (the buy
demand of symbol Y finds no account with remaining capacity above 1, and
the reconciliation pass skips account deltas below 1 dollar). -/
theorem C1_counterexample_minTrades :
    calculateTargetPercentSum cxSyms1 = 100
    ∧ (∀ h ∈ cxHolds1, 0 ≤ h.amount)
    ∧ ¬ (|outAccountSum (calculateRebalanceMinTrades cxSyms1 [] cxHolds1) "a1"
          - accountBudgetOf cxHolds1 "a1"| ≤ 1 / 100) := by
  refine ⟨by decide, by decide, by decide⟩

/-- C4, counterexample: with target percentages summing to exactly 100,
after Minimize-Trades the symbol A of `cxSyms2` (targetPercent 50,
portfolio $1000, so target $500) holds 9000/19 ≈ $473.68 — an error of
500/19, far beyond the 0.01 tolerance (A's own delta of $50 is below its
$100 noise threshold so it is skipped, and the reconciliation pass then
moves A's allocation). -/
theorem C4_counterexample_minTrades :
    calculateTargetPercentSum cxSyms2 = 100
    ∧ ¬ (|outSymbolSum (calculateRebalanceMinTrades cxSyms2 [] cxHolds2) "A"
          - qsum (cxHolds2.map (·.amount)) * 50 / 100| ≤ 1 / 100) := by
  refine ⟨by decide, by decide⟩

/-- C6, counterexample: symbol A of `cxSyms3` has delta $50 (target $500
versus current $450), below its noise threshold
`max(100, 910 * 0.0002)`, so the Minimize-Trades delta pass skips it —
yet the downstream whole-share converter rounds its 4.5-share position
up to 5 shares and the trade generator emits a buy of one share for A. -/
theorem C6_counterexample_skip_trade :
    (|(500 : ℚ) - 450| < max (100 : ℚ) (qsum (cxHolds3.map (·.amount)) * (2 / 10000)))
    ∧ ((generateTrades (convertToWholeShares
          (calculateRebalanceMinTrades cxSyms3 [] cxHolds3))).filter
        (fun t => decide (t.symbol = "A"))) ≠ [] := by
  refine ⟨by decide, by decide⟩

/-- C7, counterexample: the `accounts` argument is ignored by
`calculateRebalance` (the source binds it as `_accounts`); with symbols
`[A (targetPercent 100)]`, accounts `[X]` and a single holding of A in
account Y, the claim predicts exactly one row for the pair (A, X), but
the output contains no row for account X at all (its only row is for
account Y). -/
theorem C7_counterexample_accounts_argument :
    ((calculateRebalance
        [{ name := "A", price := 1, targetPercent := some 100 }]
        [{ name := "X" }]
        [{ account := "Y", symbol := "A", shares := 5, price := 1, amount := 5 }]).filter
      (fun h => decide (h.account = "X"))).length = 0 := by
  decide

/-! ## Generic fold and map lemmas -/

/-- A fold preserves any invariant its steps preserve. -/
theorem foldl_inv {σ α : Type} (P : σ → Prop) (f : σ → α → σ) (l : List α) (init : σ)
    (h0 : P init) (hstep : ∀ st a, a ∈ l → P st → P (f st a)) : P (l.foldl f init) := by
  induction l generalizing init with
  | nil => exact h0
  | cons x xs ih =>
    exact ih (f init x) (hstep init x (List.mem_cons_self x xs) h0)
      (fun st a ha => hstep st a (List.mem_cons_of_mem x ha))

theorem mapGet_nil {α β : Type} [DecidableEq α] (k : α) :
    mapGet ([] : List (α × β)) k = none := rfl

theorem mapGet_cons {α β : Type} [DecidableEq α] (e : α × β) (m : List (α × β)) (k : α) :
    mapGet (e :: m) k = if e.1 = k then some e.2 else mapGet m k := by
  by_cases h : e.1 = k <;> simp [mapGet, List.find?, h]

theorem mapSet_cons {α β : Type} [DecidableEq α] (e : α × β) (m : List (α × β))
    (k : α) (v : β) :
    mapSet (e :: m) k v = if e.1 = k then (k, v) :: m else e :: mapSet m k v := by
  rcases e with ⟨a, b⟩
  rfl

theorem mapGet_mapSet_self {α β : Type} [DecidableEq α] (m : List (α × β)) (k : α) (v : β) :
    mapGet (mapSet m k v) k = some v := by
  induction m with
  | nil => simp [mapSet, mapGet_cons, mapGet_nil]
  | cons e rest ih =>
    rw [mapSet_cons]
    by_cases h : e.1 = k
    · simp [h, mapGet_cons]
    · simp [h, mapGet_cons, ih]

theorem mapGet_mapSet_ne {α β : Type} [DecidableEq α] (m : List (α × β)) (k k' : α) (v : β)
    (h : k' ≠ k) : mapGet (mapSet m k v) k' = mapGet m k' := by
  induction m with
  | nil => simp [mapSet, mapGet_cons, mapGet_nil, Ne.symm h]
  | cons e rest ih =>
    rw [mapSet_cons]
    by_cases he : e.1 = k
    · have he' : ¬ e.1 = k' := fun hh => h (hh ▸ he)
      simp [he, mapGet_cons, he', Ne.symm h]
    · by_cases he' : e.1 = k'
      · simp [he, mapGet_cons, he', h]
      · simp [he, mapGet_cons, he', ih]

/-- Setting a key that is not present appends the binding. -/
theorem mapSet_eq_append {α β : Type} [DecidableEq α] (m : List (α × β)) (k : α) (v : β)
    (h : k ∉ m.map (·.1)) : mapSet m k v = m ++ [(k, v)] := by
  induction m with
  | nil => simp [mapSet]
  | cons e rest ih =>
    simp only [List.map_cons, List.mem_cons] at h
    push_neg at h
    rw [mapSet_cons, if_neg (fun he => h.1 he.symm), ih h.2, List.cons_append]

/-- Setting a key whose first component misses `s` does not change the
sub-map of keys whose first component is `s`. -/
theorem mapSet_filter_fst_ne {β : Type} (m : List ((String × String) × β))
    (k : String × String) (v : β) (s : String) (h : ¬ k.1 = s) :
    (mapSet m k v).filter (fun e => decide (e.1.1 = s))
      = m.filter (fun e => decide (e.1.1 = s)) := by
  induction m with
  | nil => simp [mapSet, h]
  | cons e rest ih =>
    rw [mapSet_cons]
    by_cases he : e.1 = k
    · have hes : ¬ e.1.1 = s := by rw [he]; exact h
      simp [he, h, hes]
    · by_cases hes : e.1.1 = s <;> simp [he, hes, ih]

/-! ## C6 amended: the delta pass leaves a below-threshold symbol alone -/

/-- The noise-threshold skip condition of the Minimize-Trades delta pass
for one symbol entry, exactly as the pass computes it (current total over
the symbol's positive-amount holdings). -/
abbrev belowNoiseThreshold (priceMap : List (String × ℚ)) (totalValue : ℚ)
    (holdings : List Holding) (sv : String × ℚ) : Prop :=
  |sv.2 - qsum ((((holdings.filter
      (fun h => decide (h.symbol = sv.1 ∧ 0 < h.amount))).map
      (fun h => ({ account := h.account, amount := h.amount } : SymHolding))).mergeSort
      (fun x y => decide (x.amount ≤ y.amount))).map (·.amount))|
    < max ((mapGet priceMap sv.1).getD 1) (totalValue * (2 / 10000))

theorem symbolPass_skip (allAccounts : List String) (accountTotal : String → ℚ)
    (priceMap : List (String × ℚ)) (totalValue : ℚ) (holdings : List Holding)
    (al : AllocMap) (sv : String × ℚ)
    (h : belowNoiseThreshold priceMap totalValue holdings sv) :
    minTradesSymbolPass allAccounts accountTotal priceMap totalValue holdings al sv = al := by
  unfold belowNoiseThreshold at h
  simp only [minTradesSymbolPass]
  rw [if_pos h]

/-- `minTradesSell` for symbol `sn` does not change the sub-map of
another symbol `s`. -/
theorem sell_filter_other (sn : String) (shs : List SymHolding) (al : AllocMap) (d : ℚ)
    (s : String) (hne : ¬ sn = s) :
    (minTradesSell sn shs al d).filter (fun e => decide (e.1.1 = s))
      = al.filter (fun e => decide (e.1.1 = s)) := by
  unfold minTradesSell
  refine foldl_inv
    (fun st : AllocMap × ℚ => st.1.filter (fun e => decide (e.1.1 = s))
      = al.filter (fun e => decide (e.1.1 = s)))
    _ shs (al, |d|) rfl ?_
  intro st a _ hst
  by_cases hr : st.2 ≤ 0
  · simpa [hr] using hst
  · simpa [hr, mapSet_filter_fst_ne _ (sn, a.account) _ s hne] using hst

/-- `minTradesBuy` for symbol `sn` does not change the sub-map of
another symbol `s`. -/
theorem buy_filter_other (allAccounts : List String) (accountTotal : String → ℚ)
    (sn : String) (shs : List SymHolding) (al : AllocMap) (d : ℚ)
    (s : String) (hne : ¬ sn = s) :
    (minTradesBuy allAccounts accountTotal sn shs al d).filter (fun e => decide (e.1.1 = s))
      = al.filter (fun e => decide (e.1.1 = s)) := by
  have hstep1 : ∀ (st : AllocMap × ℚ) (a : SymHolding),
      st.1.filter (fun e => decide (e.1.1 = s)) = al.filter (fun e => decide (e.1.1 = s)) →
      ((if st.2 ≤ 0 then st
        else
          let availableCapacity := accountTotal a.account - usedOf st.1 a.account
          if 1 < availableCapacity then
            let canAdd := min st.2 availableCapacity
            (mapSet st.1 (sn, a.account) (a.amount + canAdd), st.2 - canAdd)
          else st) : AllocMap × ℚ).1.filter (fun e => decide (e.1.1 = s))
        = al.filter (fun e => decide (e.1.1 = s)) := by
    intro st a hst
    by_cases hr : st.2 ≤ 0
    · simpa [hr] using hst
    · by_cases hc : 1 < accountTotal a.account - usedOf st.1 a.account
      · simpa [hr, hc, mapSet_filter_fst_ne _ (sn, a.account) _ s hne] using hst
      · simpa [hr, hc] using hst
  have hstep2 : ∀ (st : AllocMap × ℚ) (a : String × ℚ),
      st.1.filter (fun e => decide (e.1.1 = s)) = al.filter (fun e => decide (e.1.1 = s)) →
      ((if st.2 ≤ 0 then st
        else
          let currentAmount := (mapGet st.1 (sn, a.1)).getD 0
          let availableCapacity := accountTotal a.1 - usedOf st.1 a.1
          if 1 < availableCapacity then
            let canAdd := min st.2 availableCapacity
            (mapSet st.1 (sn, a.1) (currentAmount + canAdd), st.2 - canAdd)
          else st) : AllocMap × ℚ).1.filter (fun e => decide (e.1.1 = s))
        = al.filter (fun e => decide (e.1.1 = s)) := by
    intro st a hst
    by_cases hr : st.2 ≤ 0
    · simpa [hr] using hst
    · by_cases hc : 1 < accountTotal a.1 - usedOf st.1 a.1
      · simpa [hr, hc, mapSet_filter_fst_ne _ (sn, a.1) _ s hne] using hst
      · simpa [hr, hc] using hst
  simp only [minTradesBuy]
  split
  · refine foldl_inv
      (fun st : AllocMap × ℚ => st.1.filter (fun e => decide (e.1.1 = s))
        = al.filter (fun e => decide (e.1.1 = s)))
      _ _ _ ?_ (fun st a _ hst => hstep2 st a hst)
    exact foldl_inv
      (fun st : AllocMap × ℚ => st.1.filter (fun e => decide (e.1.1 = s))
        = al.filter (fun e => decide (e.1.1 = s)))
      _ _ (al, d) rfl (fun st a _ hst => hstep1 st a hst)
  · exact foldl_inv
      (fun st : AllocMap × ℚ => st.1.filter (fun e => decide (e.1.1 = s))
        = al.filter (fun e => decide (e.1.1 = s)))
      _ _ (al, d) rfl (fun st a _ hst => hstep1 st a hst)

/-- One step of the delta pass for a different symbol does not change
symbol `s`'s sub-map. -/
theorem symbolPass_filter_other (allAccounts : List String) (accountTotal : String → ℚ)
    (priceMap : List (String × ℚ)) (totalValue : ℚ) (holdings : List Holding)
    (al : AllocMap) (sv : String × ℚ) (s : String) (hne : ¬ sv.1 = s) :
    (minTradesSymbolPass allAccounts accountTotal priceMap totalValue holdings al sv).filter
        (fun e => decide (e.1.1 = s))
      = al.filter (fun e => decide (e.1.1 = s)) := by
  simp only [minTradesSymbolPass]
  split
  · rfl
  · split
    · exact sell_filter_other sv.1 _ al _ s hne
    · exact buy_filter_other allAccounts accountTotal sv.1 _ al _ s hne

/-- Symbols of the noise-threshold positive example: a $100,000
portfolio with targets 9.95% and 90.05%. -/
def cxSyms4 : List Sym :=
  [{ name := "A", price := 100, targetPercent := some (995 / 100) },
   { name := "B", price := 100, targetPercent := some (9005 / 100) }]

/-- Holdings of the noise-threshold positive example: one account with 99
whole shares of A ($9,900) and 901 whole shares of B ($90,100). -/
def cxHolds4 : List Holding :=
  [{ account := "a1", symbol := "A", shares := 99, price := 100, amount := 9900 },
   { account := "a1", symbol := "B", shares := 901, price := 100, amount := 90100 }]

/-- C6, amended: a symbol whose delta is below the noise threshold
`max(symbolPrice, totalValue * 0.0002)` is skipped by the Minimize-Trades
delta pass, which therefore leaves that symbol's allocations unchanged;
the later reconciliation and new-symbol passes and the whole-share
converter may still alter the symbol's position (see the counterexample),
but in the particular example — totalValue $100,000, symbol price $100,
delta exactly $50, whole current shares, balanced account — zero trades
are generated. -/
theorem C6_noise_threshold_amended :
    (∀ (allAccounts : List String) (accountTotal : String → ℚ)
       (priceMap : List (String × ℚ)) (totalValue : ℚ) (holdings : List Holding)
       (al : AllocMap) (name : String) (sds : List (String × ℚ × ℚ)),
       (∀ sd ∈ sds, sd.1 = name →
          belowNoiseThreshold priceMap totalValue holdings (sd.1, sd.2.1)) →
       (sds.foldl (fun al sd => minTradesSymbolPass allAccounts accountTotal priceMap
           totalValue holdings al (sd.1, sd.2.1)) al).filter
           (fun e => decide (e.1.1 = name))
         = al.filter (fun e => decide (e.1.1 = name)))
    ∧ belowNoiseThreshold (priceMapOf cxSyms4) (qsum (cxHolds4.map (·.amount))) cxHolds4
        ("A", qsum (cxHolds4.map (·.amount)) * ((995 / 100) / 100))
    ∧ generateTrades (convertToWholeShares
        (calculateRebalanceMinTrades cxSyms4 [] cxHolds4)) = [] := by
  refine ⟨?_, by decide, by decide⟩
  intro allAccounts accountTotal priceMap totalValue holdings al name sds hskip
  refine foldl_inv
    (fun al' : AllocMap => al'.filter (fun e => decide (e.1.1 = name))
      = al.filter (fun e => decide (e.1.1 = name)))
    _ sds al rfl ?_
  intro st sd hsd hst
  by_cases hn : sd.1 = name
  · rw [symbolPass_skip allAccounts accountTotal priceMap totalValue holdings st
      (sd.1, sd.2.1) (hskip sd hsd hn)]
    exact hst
  · rw [symbolPass_filter_other allAccounts accountTotal priceMap totalValue holdings st
      (sd.1, sd.2.1) name hn]
    exact hst

/-- Witness for C6 (amended): the fold hypothesis holds at a concrete
input and the theorem applies there. -/
theorem C6_noise_threshold_amended_witness :
    (∀ sd ∈ [(("A", (1 / 2 : ℚ), (0 : ℚ)))], sd.1 = "A" →
       belowNoiseThreshold [] 0 [] (sd.1, sd.2.1))
    ∧ ([(("A", (1 / 2 : ℚ), (0 : ℚ)))].foldl
        (fun al sd => minTradesSymbolPass [] (fun _ => 0) [] 0 [] al (sd.1, sd.2.1))
        []).filter (fun e => decide (e.1.1 = "A"))
      = ([] : AllocMap).filter (fun e => decide (e.1.1 = "A")) :=
  ⟨by decide, C6_noise_threshold_amended.1 [] (fun _ => 0) [] 0 [] [] "A"
    [(("A", (1 / 2 : ℚ), (0 : ℚ)))] (by decide)⟩

/-! ## C7: output shape of the Consolidate strategy -/

theorem mem_dedupFirst {l : List String} {a : String} : a ∈ dedupFirst l ↔ a ∈ l := by
  induction l with
  | nil => simp [dedupFirst]
  | cons x xs ih =>
    simp only [dedupFirst, List.mem_cons, List.mem_filter]
    constructor
    · rintro (rfl | ⟨h1, _⟩)
      · exact Or.inl rfl
      · exact Or.inr (ih.mp h1)
    · rintro (rfl | h)
      · exact Or.inl rfl
      · by_cases hax : a = x
        · exact Or.inl hax
        · exact Or.inr ⟨ih.mpr h, by simpa using hax⟩

theorem dedupFirst_nodup (l : List String) : (dedupFirst l).Nodup := by
  induction l with
  | nil => simp [dedupFirst]
  | cons x xs ih =>
    simp only [dedupFirst]
    refine List.nodup_cons.mpr ⟨?_, ih.filter _⟩
    intro hx
    have := (List.mem_filter.mp hx).2
    simp at this

theorem sum_map_eq_single {α : Type} (l : List α) (f : α → ℕ) (a : α) (ha : a ∈ l)
    (hn : l.Nodup) (h0 : ∀ b ∈ l, b ≠ a → f b = 0) : (l.map f).sum = f a := by
  induction l with
  | nil => cases ha
  | cons x xs ih =>
    rcases List.mem_cons.mp ha with rfl | hmem
    · have hz : ∀ b ∈ xs, f b = 0 := fun b hb =>
        h0 b (List.mem_cons_of_mem a hb)
          (fun hba => (List.nodup_cons.mp hn).1 (hba ▸ hb))
      have : (xs.map f).sum = 0 :=
        List.sum_eq_zero (fun y hy => by
          obtain ⟨b, hb, rfl⟩ := List.mem_map.mp hy
          exact hz b hb)
      simp [this]
    · have hx0 : f x = 0 :=
        h0 x (List.mem_cons_self x xs)
          (fun hxa => (List.nodup_cons.mp hn).1 (hxa ▸ hmem))
      have := ih hmem (List.nodup_cons.mp hn).2
        (fun b hb => h0 b (List.mem_cons_of_mem x hb))
      simp [hx0, this]

theorem filterMap_eq_map_filter {α β : Type} (f : α → Option β) (p : α → Bool) (g : α → β)
    (hf : ∀ x, f x = if p x then some (g x) else none) (l : List α) :
    l.filterMap f = (l.filter p).map g := by
  induction l with
  | nil => rfl
  | cons x xs ih =>
    by_cases hp : p x <;> simp [List.filterMap_cons, hf x, hp, ih]

theorem filter_key_eq_singleton {α β : Type} [DecidableEq β] {l : List α} (f : α → β)
    {a : α} (ha : a ∈ l) (hn : (l.map f).Nodup) :
    l.filter (fun x => decide (f x = f a)) = [a] := by
  induction l with
  | nil => cases ha
  | cons x xs ih =>
    rw [List.map_cons] at hn
    rcases List.mem_cons.mp ha with rfl | hmem
    · have hxs : ∀ b ∈ xs, ¬ (f b = f a) := fun b hb heq =>
        (List.nodup_cons.mp hn).1 (heq ▸ List.mem_map_of_mem f hb)
      have hnil : xs.filter (fun y => decide (f y = f a)) = [] :=
        List.filter_eq_nil.mpr (fun b hb => by simpa using hxs b hb)
      simp [List.filter_cons, hnil]
    · have hxa : ¬ (f x = f a) := fun heq =>
        (List.nodup_cons.mp hn).1 (heq ▸ List.mem_map_of_mem f hmem)
      simp [List.filter_cons, hxa, ih hmem (List.nodup_cons.mp hn).2]

theorem find?_name_eq {l : List Sym} {s : Sym} (hs : s ∈ l)
    (hn : (l.map (·.name)).Nodup) :
    l.find? (fun x => decide (x.name = s.name)) = some s := by
  induction l with
  | nil => cases hs
  | cons x xs ih =>
    rw [List.map_cons] at hn
    rcases List.mem_cons.mp hs with rfl | hmem
    · simp [List.find?]
    · have hxs : ¬ (x.name = s.name) := fun heq =>
        (List.nodup_cons.mp hn).1 (heq ▸ List.mem_map_of_mem (·.name) hmem)
      have hb : (decide (x.name = s.name)) = false := by simpa using hxs
      rw [List.find?_cons]
      simp only [hb]
      exact ih hmem (List.nodup_cons.mp hn).2

/-- The liquidation condition of the result-row builders: the holding's
symbol is missing from the symbol list, or has no defined
`targetPercent`. -/
def liqB (symbols : List Sym) (h : Holding) : Bool :=
  match symbols.find? (fun s => decide (s.name = h.symbol)) with
  | some s => s.targetPercent.isNone
  | none => true

/-- The target row emitted for a symbol with defined `targetPercent` in a
given account. -/
def targetRowOf (symbols : List Sym) (holdings : List Holding)
    (priceMap : List (String × ℚ)) (alloc : AllocMap) (aName : String) (sym : Sym) :
    Holding :=
  { symbol := sym.name, account := aName,
    shares := (((holdings.find?
        (fun h => decide (h.symbol = sym.name ∧ h.account = aName))).map (·.shares)).getD 0),
    price := (mapGet priceMap sym.name).getD 1,
    amount := (((holdings.find?
        (fun h => decide (h.symbol = sym.name ∧ h.account = aName))).map (·.amount)).getD 0),
    targetAmount := some ((mapGet alloc (sym.name, aName)).getD 0) }

/-- The liquidation row emitted for a holding whose symbol has no defined
target. -/
def liqRowOf (aName : String) (h : Holding) : Holding :=
  { symbol := h.symbol, account := aName, shares := h.shares,
    price := h.price, amount := h.amount, targetAmount := some 0 }

/-- The result rows of one account, written as plain filters and maps. -/
theorem resultRowsFor_eq (symbols : List Sym) (holdings : List Holding)
    (priceMap : List (String × ℚ)) (alloc : AllocMap) (a : String) :
    resultRowsFor symbols holdings priceMap alloc a
      = ((symbols.filter (fun s => s.targetPercent.isSome)).map
          (targetRowOf symbols holdings priceMap alloc a))
        ++ ((holdings.filter (fun h => decide (h.account = a) && liqB symbols h)).map
          (liqRowOf a)) := by
  unfold resultRowsFor
  congr 1
  · refine filterMap_eq_map_filter _ _ _ ?_ symbols
    intro sym
    cases htp : sym.targetPercent <;>
      simp [htp, targetRowOf]
  · refine filterMap_eq_map_filter _ _ _ ?_ holdings
    intro h
    by_cases hacc : h.account = a
    · cases hfind : symbols.find? (fun s => decide (s.name = h.symbol)) with
      | none => simp [hacc, liqB, hfind, liqRowOf]
      | some sym =>
        cases htp : sym.targetPercent <;> simp [hacc, liqB, hfind, htp, liqRowOf]
    · simp [hacc]

/-- Counting holdings account by account over a duplicate-free account
list that covers them partitions any count. -/
theorem sum_countP_partition (accs : List String) (hn : accs.Nodup) (l : List Holding)
    (p : Holding → Bool) (hmem : ∀ h ∈ l, h.account ∈ accs) :
    (accs.map (fun a => l.countP (fun h => decide (h.account = a) && p h))).sum
      = l.countP p := by
  induction l with
  | nil => simp
  | cons h t ih =>
    have hrw : (accs.map (fun a => (h :: t).countP (fun x => decide (x.account = a) && p x)))
        = accs.map (fun a => t.countP (fun x => decide (x.account = a) && p x)
            + if decide (h.account = a) && p h then 1 else 0) := by
      refine List.map_congr_left (fun a _ => ?_)
      rw [List.countP_cons]
    rw [hrw, List.sum_map_add, List.countP_cons,
      ih (fun x hx => hmem x (List.mem_cons_of_mem h hx))]
    congr 1
    by_cases hp : p h
    · have : (accs.map (fun a => if decide (h.account = a) && p h then 1 else 0))
          = accs.map (fun a => if h.account = a then 1 else 0) := by
        refine List.map_congr_left (fun a _ => ?_)
        simp [hp]
      rw [this, sum_map_eq_single accs _ h.account (hmem h (List.mem_cons_self h t)) hn
        (fun b _ hb => by simp [Ne.symm hb])]
      simp [hp]
    · simp [hp]

/-- The result list of both strategies, as one flat map over the accounts
appearing in the holdings. -/
theorem calculateRebalance_eq_flatMap (symbols : List Sym) (accounts : List Account)
    (holdings : List Holding) :
    ∃ alloc, calculateRebalance symbols accounts holdings
      = (allAccountsOf holdings).flatMap
          (resultRowsFor symbols holdings (priceMapOf symbols) alloc) :=
  ⟨_, rfl⟩

theorem calculateRebalanceMinTrades_eq_flatMap (symbols : List Sym)
    (accounts : List Account) (holdings : List Holding) :
    ∃ alloc, calculateRebalanceMinTrades symbols accounts holdings
      = (allAccountsOf holdings).flatMap
          (resultRowsFor symbols holdings (priceMapOf symbols) alloc) :=
  ⟨_, rfl⟩

/-- The count of rows matching a (symbol name, account) pair inside one
account's result rows. -/
theorem countP_resultRowsFor (symbols : List Sym) (holdings : List Holding)
    (priceMap : List (String × ℚ)) (alloc : AllocMap) (b : String) (sname a : String) :
    (resultRowsFor symbols holdings priceMap alloc b).countP
        (fun h => decide (h.symbol = sname ∧ h.account = a))
      = (symbols.filter (fun s => s.targetPercent.isSome)).countP
          (fun sym => decide (sym.name = sname ∧ b = a))
        + (holdings.filter (fun h => decide (h.account = b) && liqB symbols h)).countP
          (fun h => decide (h.symbol = sname ∧ b = a)) := by
  have e1 : (((symbols.filter (fun s => s.targetPercent.isSome)).map
        (targetRowOf symbols holdings priceMap alloc b)).countP
        (fun h => decide (h.symbol = sname ∧ h.account = a)))
      = (symbols.filter (fun s => s.targetPercent.isSome)).countP
          (fun sym => decide (sym.name = sname ∧ b = a)) := by
    rw [List.countP_map]
    exact List.countP_congr (fun sym _ => by simp [targetRowOf])
  have e2 : (((holdings.filter (fun h => decide (h.account = b) && liqB symbols h)).map
        (liqRowOf b)).countP (fun h => decide (h.symbol = sname ∧ h.account = a)))
      = (holdings.filter (fun h => decide (h.account = b) && liqB symbols h)).countP
          (fun h => decide (h.symbol = sname ∧ b = a)) := by
    rw [List.countP_map]
    exact List.countP_congr (fun h _ => by simp [liqRowOf])
  rw [resultRowsFor_eq, List.countP_append, e1, e2]

/-- C7, amended: for every input with duplicate-free symbol names and
duplicate-free (symbol, account) pairs, `calculateRebalance` returns
exactly one output row for each pair of a symbol with defined
`targetPercent` and an account APPEARING IN THE HOLDINGS (the `accounts`
argument is ignored by the source, which binds it `_accounts`), plus
exactly one row with `targetAmount = 0` for each existing holding whose
symbol has no defined `targetPercent` (or is absent from the symbol
list), and no other rows. -/
theorem C7_consolidate_output_shape (symbols : List Sym) (accounts : List Account)
    (holdings : List Holding)
    (hS : (symbols.map (·.name)).Nodup)
    (hH : (holdings.map (fun h => (h.symbol, h.account))).Nodup) :
    (∀ s ∈ symbols, s.targetPercent.isSome → ∀ a ∈ allAccountsOf holdings,
       (calculateRebalance symbols accounts holdings).countP
         (fun h => decide (h.symbol = s.name ∧ h.account = a)) = 1)
    ∧ (∀ h0 ∈ holdings, liqB symbols h0 →
       (calculateRebalance symbols accounts holdings).countP
           (fun h => decide (h.symbol = h0.symbol ∧ h.account = h0.account)) = 1
       ∧ ∀ h ∈ calculateRebalance symbols accounts holdings,
           h.symbol = h0.symbol → h.account = h0.account → h.targetAmount = some 0)
    ∧ (calculateRebalance symbols accounts holdings).length
        = (symbols.filter (fun s => s.targetPercent.isSome)).length
            * (allAccountsOf holdings).length
          + (holdings.filter (liqB symbols)).length := by
  obtain ⟨alloc, hre⟩ := calculateRebalance_eq_flatMap symbols accounts holdings
  have haccn : (allAccountsOf holdings).Nodup := dedupFirst_nodup _
  have haccmem : ∀ h ∈ holdings, h.account ∈ allAccountsOf holdings := fun h hh =>
    mem_dedupFirst.mpr (List.mem_map_of_mem (·.account) hh)
  have hdefn : ((symbols.filter (fun s => s.targetPercent.isSome)).map (·.name)).Nodup :=
    ((List.filter_sublist symbols).map (·.name)).nodup hS
  -- a holding whose symbol carries a defined target is never a liquidation row
  have hliq_of_def : ∀ (s : Sym), s ∈ symbols → s.targetPercent.isSome →
      ∀ (h : Holding), h.symbol = s.name → liqB symbols h = false := by
    intro s hs hsp h hsym
    unfold liqB
    rw [hsym, find?_name_eq hs hS]
    cases htp : s.targetPercent with
    | none => rw [htp] at hsp; simp at hsp
    | some p => simp [htp]
  refine ⟨?_, ?_, ?_⟩
  · intro s hs hsp a ha
    rw [hre, List.countP_flatMap]
    rw [sum_map_eq_single (allAccountsOf holdings) _ a ha haccn ?side]
    case side =>
      intro b _ hba
      simp only [Function.comp]
      rw [countP_resultRowsFor]
      have h1 : (symbols.filter (fun s => s.targetPercent.isSome)).countP
          (fun sym => decide (sym.name = s.name ∧ b = a)) = 0 :=
        List.countP_eq_zero.mpr (fun sym _ => by simp [hba])
      have h2 : (holdings.filter (fun h => decide (h.account = b) && liqB symbols h)).countP
          (fun h => decide (h.symbol = s.name ∧ b = a)) = 0 :=
        List.countP_eq_zero.mpr (fun h _ => by simp [hba])
      rw [h1, h2]
    simp only [Function.comp]
    rw [countP_resultRowsFor]
    have hsdef : s ∈ symbols.filter (fun s => s.targetPercent.isSome) :=
      List.mem_filter.mpr ⟨hs, hsp⟩
    have h1 : (symbols.filter (fun s => s.targetPercent.isSome)).countP
        (fun sym => decide (sym.name = s.name ∧ a = a)) = 1 := by
      have hcongr : (symbols.filter (fun s => s.targetPercent.isSome)).countP
          (fun sym => decide (sym.name = s.name ∧ a = a))
          = (symbols.filter (fun s => s.targetPercent.isSome)).countP
            (fun sym => decide (sym.name = s.name)) :=
        List.countP_congr (fun sym _ => by simp)
      rw [hcongr, List.countP_eq_length_filter,
        filter_key_eq_singleton (fun x : Sym => x.name) hsdef hdefn]
      rfl
    have h2 : (holdings.filter (fun h => decide (h.account = a) && liqB symbols h)).countP
        (fun h => decide (h.symbol = s.name ∧ a = a)) = 0 := by
      refine List.countP_eq_zero.mpr (fun h hh => ?_)
      have hl := (List.mem_filter.mp hh).2
      intro hps
      simp only [decide_eq_true_eq] at hps
      have := hliq_of_def s hs hsp h hps.1
      rw [this] at hl
      simp at hl
    rw [h1, h2]
  · intro h0 hh0 hliq
    constructor
    · rw [hre, List.countP_flatMap]
      rw [sum_map_eq_single (allAccountsOf holdings) _ h0.account
        (haccmem h0 hh0) haccn ?side2]
      case side2 =>
        intro b _ hba
        simp only [Function.comp]
        rw [countP_resultRowsFor]
        have h1 : (symbols.filter (fun s => s.targetPercent.isSome)).countP
            (fun sym => decide (sym.name = h0.symbol ∧ b = h0.account)) = 0 :=
          List.countP_eq_zero.mpr (fun sym _ => by simp [hba])
        have h2 : (holdings.filter
              (fun h => decide (h.account = b) && liqB symbols h)).countP
            (fun h => decide (h.symbol = h0.symbol ∧ b = h0.account)) = 0 :=
          List.countP_eq_zero.mpr (fun h _ => by simp [hba])
        rw [h1, h2]
      simp only [Function.comp]
      rw [countP_resultRowsFor]
      have h1 : (symbols.filter (fun s => s.targetPercent.isSome)).countP
          (fun sym => decide (sym.name = h0.symbol ∧ h0.account = h0.account)) = 0 := by
        refine List.countP_eq_zero.mpr (fun sym hsym => ?_)
        intro hps
        simp only [decide_eq_true_eq] at hps
        have hmem := (List.mem_filter.mp hsym).1
        have hsp := (List.mem_filter.mp hsym).2
        have := hliq_of_def sym hmem hsp h0 hps.1.symm
        rw [this] at hliq
        cases hliq
      have h2 : (holdings.filter
            (fun h => decide (h.account = h0.account) && liqB symbols h)).countP
          (fun h => decide (h.symbol = h0.symbol ∧ h0.account = h0.account)) = 1 := by
        have hcongr : ∀ l : List Holding, l.countP
            (fun h => decide (h.symbol = h0.symbol ∧ h0.account = h0.account))
            = l.countP (fun h => decide (h.symbol = h0.symbol)) := fun l =>
          List.countP_congr (fun h _ => by simp)
        rw [hcongr, List.countP_filter, List.countP_eq_length_filter]
        have hpair : holdings.filter (fun h => decide (h.symbol = h0.symbol)
              && (decide (h.account = h0.account) && liqB symbols h))
            = [h0] := by
          have hone : holdings.filter
              (fun h => decide ((h.symbol, h.account) = (h0.symbol, h0.account))) = [h0] :=
            filter_key_eq_singleton (fun h : Holding => (h.symbol, h.account)) hh0 hH
          have hsplit : ∀ h : Holding, (decide (h.symbol = h0.symbol)
                && (decide (h.account = h0.account) && liqB symbols h))
              = (liqB symbols h
                && decide ((h.symbol, h.account) = (h0.symbol, h0.account))) := by
            intro h
            by_cases hs1 : h.symbol = h0.symbol <;>
              by_cases hs2 : h.account = h0.account <;> simp [hs1, hs2]
          rw [List.filter_congr (fun h _ => hsplit h), ← List.filter_filter, hone]
          simp [hliq]
        rw [hpair]
        rfl
      rw [h1, h2]
    · intro h hmemout hsym hacc
      rw [hre] at hmemout
      obtain ⟨b, _, hrow⟩ := List.mem_flatMap.mp hmemout
      rw [resultRowsFor_eq] at hrow
      rcases List.mem_append.mp hrow with htr | hlr
      · obtain ⟨sym, hsymmem, rfl⟩ := List.mem_map.mp htr
        have hmem := (List.mem_filter.mp hsymmem).1
        have hsp := (List.mem_filter.mp hsymmem).2
        have hname : sym.name = h0.symbol := hsym
        have := hliq_of_def sym hmem hsp h0 hname.symm
        rw [this] at hliq
        cases hliq
      · obtain ⟨h1, _, rfl⟩ := List.mem_map.mp hlr
        rfl
  · rw [hre, List.length_flatMap]
    have hlen : ∀ b, ((resultRowsFor symbols holdings (priceMapOf symbols) alloc b).length)
        = (symbols.filter (fun s => s.targetPercent.isSome)).length
          + (holdings.filter (fun h => decide (h.account = b) && liqB symbols h)).length := by
      intro b
      rw [resultRowsFor_eq, List.length_append, List.length_map, List.length_map]
    have hmapeq : (allAccountsOf holdings).map
          (List.length ∘ resultRowsFor symbols holdings (priceMapOf symbols) alloc)
        = (allAccountsOf holdings).map (fun b =>
            (symbols.filter (fun s => s.targetPercent.isSome)).length
            + (holdings.filter (fun h => decide (h.account = b) && liqB symbols h)).length) :=
      List.map_congr_left (fun b _ => hlen b)
    rw [hmapeq, List.sum_map_add]
    congr 1
    · rw [List.map_const', List.sum_replicate, smul_eq_mul, Nat.mul_comm]
    · have : ∀ b, (holdings.filter
            (fun h => decide (h.account = b) && liqB symbols h)).length
          = holdings.countP (fun h => decide (h.account = b) && liqB symbols h) := by
        intro b
        rw [List.countP_eq_length_filter]
      rw [List.map_congr_left (fun b _ => this b),
        sum_countP_partition _ haccn _ _ haccmem, List.countP_eq_length_filter]

/-- Concrete input for the C7 witness. -/
def cxSyms5 : List Sym := [{ name := "A", price := 1, targetPercent := some 100 }]

/-- Concrete input for the C7 witness. -/
def cxHolds5 : List Holding :=
  [{ account := "Y", symbol := "A", shares := 5, price := 1, amount := 5 }]

/-- Witness for C7 (amended): the shape theorem applies to a concrete
input with duplicate-free names. -/
theorem C7_consolidate_output_shape_witness :
    (cxSyms5.map (·.name)).Nodup
    ∧ (cxHolds5.map (fun h => (h.symbol, h.account))).Nodup
    ∧ (calculateRebalance cxSyms5 [] cxHolds5).length
        = (cxSyms5.filter (fun s => s.targetPercent.isSome)).length
            * (allAccountsOf cxHolds5).length
          + (cxHolds5.filter (liqB cxSyms5)).length :=
  ⟨by decide, by decide,
    (C7_consolidate_output_shape cxSyms5 [] cxHolds5 (by decide) (by decide)).2.2⟩

/-! ## C3: largest-remainder conversion of one symbol group -/

theorem ratFloor_eq (q : ℚ) : q.floor = ⌊q⌋ := rfl

theorem foldl_add_eq_sum {M : Type} [AddCommMonoid M] (l : List M) :
    l.foldl (· + ·) 0 = l.sum := by
  simp [List.sum_eq_foldl]

theorem cast_sum_map {α : Type} (l : List α) (f : α → ℤ) :
    (((l.map f).sum : ℤ) : ℚ) = (l.map (fun x => ((f x : ℤ) : ℚ))).sum := by
  induction l with
  | nil => simp
  | cons x xs ih => simp [List.sum_cons, ih]

theorem jsRound_int_add (n : ℤ) (x : ℚ) : jsRound ((n : ℚ) + x) = n + jsRound x := by
  unfold jsRound
  rw [ratFloor_eq, ratFloor_eq, add_assoc, Int.floor_int_add]

theorem sum_lt_length {l : List ℚ} (hne : l ≠ []) (hlt : ∀ x ∈ l, x < 1) :
    l.sum < (l.length : ℚ) := by
  induction l with
  | nil => cases hne rfl
  | cons x xs ih =>
    rcases List.eq_nil_or_concat' xs with rfl | h
    · simpa using hlt x (List.mem_cons_self x [])
    · have hxs : xs ≠ [] := by
        obtain ⟨ys, y, rfl⟩ := h
        simp
      have := ih hxs (fun y hy => hlt y (List.mem_cons_of_mem x hy))
      have hx := hlt x (List.mem_cons_self x xs)
      simp only [List.sum_cons, List.length_cons]
      push_cast
      linarith

/-- The `extraShares` value the converter computes for a symbol group
(the same expression `convertGroup` computes internally). -/
def extraOf (group : List Holding) : ℤ :=
  match group with
  | [] => 0
  | g0 :: _ =>
    let price := g0.price
    let ideals := group.map (fun h =>
      let ideal := idealOf price h
      ({ holding := h, ideal := ideal, floored := ideal.floor,
         remainder := ideal - ideal.floor } : IdealItem))
    jsRound (qsum (ideals.map (·.ideal))) - (ideals.map (·.floored)).foldl (· + ·) 0

/-- Core properties of the take/bump/append pipeline of `convertGroup`,
stated over an arbitrary item list satisfying the construction
invariants. -/
theorem convert_core (p : ℚ) (items : List IdealItem) (extra : ℤ)
    (hextra : extra = jsRound ((items.map (·.ideal)).sum) - (items.map (·.floored)).sum)
    (hinv : ∀ it ∈ items, it.floored = it.ideal.floor
      ∧ it.remainder = it.ideal - ((it.ideal.floor : ℤ) : ℚ)
      ∧ it.ideal = idealOf p it.holding)
    (hne : items ≠ [])
    (rows : List RRow)
    (hrows : rows = (((items.mergeSort
          (fun a b => decide (b.remainder ≤ a.remainder))).take extra.toNat).map
            (fun i : IdealItem => { i with floored := i.floored + 1 })
        ++ (items.mergeSort
          (fun a b => decide (b.remainder ≤ a.remainder))).drop extra.toNat).map
        (fun i : IdealItem => ({ base := i.holding, t := i.floored, ta := (i.floored : ℚ) * p, fl := i.ideal.floor } : RRow))) :
    rows.length = items.length
    ∧ (∀ r ∈ rows, r.fl = (idealOf p r.base).floor ∧ (r.t = r.fl ∨ r.t = r.fl + 1))
    ∧ 0 ≤ extra
    ∧ (rows.countP (fun r => decide (r.t = r.fl + 1)) : ℤ) = extra
    ∧ ((rows.map (·.t)).sum = jsRound ((items.map (·.ideal)).sum))
    ∧ (∀ r1 ∈ rows, ∀ r2 ∈ rows, r1.t = r1.fl + 1 → r2.t = r2.fl →
        idealOf p r2.base - r2.fl ≤ idealOf p r1.base - r1.fl) := by
  have htrans : ∀ a b c : IdealItem,
      (fun a b : IdealItem => decide (b.remainder ≤ a.remainder)) a b = true →
      (fun a b : IdealItem => decide (b.remainder ≤ a.remainder)) b c = true →
      (fun a b : IdealItem => decide (b.remainder ≤ a.remainder)) a c = true := by
    intro a b c hab hbc
    simp only [decide_eq_true_eq] at *
    exact le_trans hbc hab
  have htot : ∀ a b : IdealItem,
      ((fun a b : IdealItem => decide (b.remainder ≤ a.remainder)) a b
        || (fun a b : IdealItem => decide (b.remainder ≤ a.remainder)) b a) = true := by
    intro a b
    simpa using le_total b.remainder a.remainder
  set le := fun a b : IdealItem => decide (b.remainder ≤ a.remainder) with hle
  set sorted := items.mergeSort le with hsorted
  have hperm : sorted.Perm items := List.mergeSort_perm items le
  have hsortinv : ∀ it ∈ sorted, it.floored = it.ideal.floor
      ∧ it.remainder = it.ideal - ((it.ideal.floor : ℤ) : ℚ)
      ∧ it.ideal = idealOf p it.holding := fun it hit => hinv it (hperm.mem_iff.mp hit)
  have hpairwise : List.Pairwise (fun a b => le a b = true) sorted :=
    List.sorted_mergeSort htrans htot items
  -- remainder bounds
  have hrem0 : ∀ it ∈ items, 0 ≤ it.remainder := by
    intro it hit
    rw [(hinv it hit).2.1, ratFloor_eq]
    have := Int.floor_le it.ideal
    linarith
  have hrem1 : ∀ it ∈ items, it.remainder < 1 := by
    intro it hit
    rw [(hinv it hit).2.1, ratFloor_eq]
    have := Int.lt_floor_add_one it.ideal
    linarith
  -- the total ideal splits into floors plus remainders
  have hsplit : (items.map (·.ideal)).sum
      = (((items.map (·.floored)).sum : ℤ) : ℚ) + (items.map (·.remainder)).sum := by
    rw [cast_sum_map, ← List.sum_map_add]
    refine congrArg List.sum (List.map_congr_left (fun it hit => ?_))
    obtain ⟨h1, h2, _⟩ := hinv it hit
    rw [h2, h1]
    ring
  have hextra2 : extra = jsRound ((items.map (·.remainder)).sum) := by
    rw [hextra, hsplit, jsRound_int_add]
    ring
  have hextra_nonneg : 0 ≤ extra := by
    rw [hextra2]
    unfold jsRound
    rw [ratFloor_eq]
    refine Int.floor_nonneg.mpr ?_
    have : 0 ≤ (items.map (·.remainder)).sum :=
      List.sum_nonneg (fun x hx => by
        obtain ⟨it, hit, rfl⟩ := List.mem_map.mp hx
        exact hrem0 it hit)
    linarith
  have hextra_le : extra ≤ (items.length : ℤ) := by
    rw [hextra2]
    unfold jsRound
    rw [ratFloor_eq]
    have hlen : (items.map (·.remainder)) ≠ [] := by
      intro hcon
      exact hne (List.map_eq_nil.mp hcon)
    have hlt : (items.map (·.remainder)).sum < ((items.map (·.remainder)).length : ℚ) :=
      sum_lt_length hlen (fun x hx => by
        obtain ⟨it, hit, rfl⟩ := List.mem_map.mp hx
        exact hrem1 it hit)
    rw [List.length_map] at hlt
    have h2 : (items.map (·.remainder)).sum + 1 / 2
        < (((items.length : ℤ) + 1 : ℤ) : ℚ) := by
      push_cast
      linarith
    have h3 := Int.floor_lt.mpr h2
    omega
  have hkn : extra.toNat ≤ sorted.length := by
    rw [hperm.length_eq]
    omega
  have hlentake : (sorted.take extra.toNat).length = extra.toNat := by
    rw [List.length_take]
    omega
  refine ⟨?_, ?_, hextra_nonneg, ?_, ?_, ?_⟩
  · rw [hrows, List.length_map, List.length_append, List.length_map, List.length_take,
      List.length_drop, hperm.length_eq]
    omega
  · intro r hr
    rw [hrows] at hr
    obtain ⟨it, hit, rfl⟩ := List.mem_map.mp hr
    rcases List.mem_append.mp hit with htake | hdrop
    · obtain ⟨it0, hit0, rfl⟩ := List.mem_map.mp htake
      obtain ⟨h1, _, h3⟩ := hsortinv it0 (List.mem_of_mem_take hit0)
      exact ⟨by simp [h3], Or.inr (by simp [h1])⟩
    · obtain ⟨h1, _, h3⟩ := hsortinv it (List.mem_of_mem_drop hdrop)
      exact ⟨by simp [h3], Or.inl (by simp [h1])⟩
  · rw [hrows, List.map_append, List.countP_append]
    simp only [List.countP_map, Function.comp_def]
    have hc1 : (sorted.take extra.toNat).countP
        (fun i => decide ((i.floored + 1 : ℤ) = i.ideal.floor + 1))
        = (sorted.take extra.toNat).length :=
      List.countP_eq_length.mpr (fun it0 hit0 => by
        obtain ⟨h1, _, _⟩ := hsortinv it0 (List.mem_of_mem_take hit0)
        simp [h1])
    have hc2 : (sorted.drop extra.toNat).countP
        (fun i => decide ((i.floored : ℤ) = i.ideal.floor + 1)) = 0 :=
      List.countP_eq_zero.mpr (fun it0 hit0 => by
        obtain ⟨h1, _, _⟩ := hsortinv it0 (List.mem_of_mem_drop hit0)
        simp [h1])
    rw [hc1, hc2, hlentake]
    omega
  · rw [hrows]
    simp only [List.map_append, List.map_map, List.sum_append, Function.comp_def]
    have e1 : ((sorted.take extra.toNat).map (fun i : IdealItem => i.floored + 1)).sum
        = ((sorted.take extra.toNat).map (fun i : IdealItem => i.floored)).sum + extra := by
      rw [List.sum_map_add]
      have hone : ((sorted.take extra.toNat).map (fun _ : IdealItem => (1 : ℤ))).sum
          = (extra.toNat : ℤ) := by
        rw [List.map_const', List.sum_replicate, hlentake]
        simp
      rw [hone, Int.toNat_of_nonneg hextra_nonneg]
    have hsum : ((sorted.take extra.toNat).map (fun i : IdealItem => i.floored)).sum
        + ((sorted.drop extra.toNat).map (fun i : IdealItem => i.floored)).sum
        = (items.map (·.floored)).sum := by
      rw [← List.sum_append, ← List.map_append, List.take_append_drop]
      exact (hperm.map (·.floored)).sum_eq
    have hround : jsRound ((items.map (·.ideal)).sum)
        = (items.map (·.floored)).sum + extra := by
      rw [hsplit, jsRound_int_add, ← hextra2]
    rw [e1, hround]
    omega
  · intro r1 hr1 r2 hr2 hb1 hb2
    rw [hrows] at hr1 hr2
    obtain ⟨it1, hit1, rfl⟩ := List.mem_map.mp hr1
    obtain ⟨it2, hit2, rfl⟩ := List.mem_map.mp hr2
    rcases List.mem_append.mp hit1 with htake1 | hdrop1
    swap
    · obtain ⟨h1, _, _⟩ := hsortinv it1 (List.mem_of_mem_drop hdrop1)
      simp only [h1] at hb1
      omega
    obtain ⟨it1', hit1', rfl⟩ := List.mem_map.mp htake1
    rcases List.mem_append.mp hit2 with htake2 | hdrop2
    · obtain ⟨it2', hit2', rfl⟩ := List.mem_map.mp htake2
      obtain ⟨h1, _, _⟩ := hsortinv it2' (List.mem_of_mem_take hit2')
      simp only [h1] at hb2
      omega
    · have hcross : le it1' it2 = true := by
        have hp2 := hpairwise
        rw [← List.take_append_drop extra.toNat sorted, List.pairwise_append] at hp2
        exact hp2.2.2 it1' hit1' it2 hdrop2
      simp only [hle, decide_eq_true_eq] at hcross
      obtain ⟨ha1, ha2, ha3⟩ := hsortinv it1' (List.mem_of_mem_take hit1')
      obtain ⟨hc1, hc2, hc3⟩ := hsortinv it2 (List.mem_of_mem_drop hdrop2)
      show idealOf p it2.holding - ((it2.ideal.floor : ℤ) : ℚ)
        ≤ idealOf p it1'.holding - ((it1'.ideal.floor : ℤ) : ℚ)
      rw [← ha3, ← hc3]
      have e1 : it1'.ideal - ((it1'.ideal.floor : ℤ) : ℚ) = it1'.remainder := ha2.symm
      have e2 : it2.ideal - ((it2.ideal.floor : ℤ) : ℚ) = it2.remainder := hc2.symm
      rw [e1, e2]
      exact hcross

/-- The ideal-item list (the `ideals` array) `convertGroup` builds for a
symbol group. -/
def itemsOf (group : List Holding) : List IdealItem :=
  match group with
  | [] => []
  | g0 :: _ => group.map (fun h =>
      let ideal := idealOf g0.price h
      ({ holding := h, ideal := ideal, floored := ideal.floor,
         remainder := ideal - ideal.floor } : IdealItem))

/-- Spec-side comparison on input-position-tagged ideal items: a row
precedes another when its remainder is strictly larger, or the remainders
are equal and its input position is no later ("ties broken by original
input order").  Two distinct positions are never tied under this
relation, so a `specRemOrder`-sorted permutation is unique. -/
def specRemOrder (x y : ℕ × IdealItem) : Bool :=
  decide (y.2.remainder < x.2.remainder
    ∨ (x.2.remainder = y.2.remainder ∧ x.1 ≤ y.1))

/-- Pointwise, `specRemOrder` is the canonical stabilisation (`enumLE`) of
the converter's remainder-descending comparator. -/
theorem specRemOrder_eq_enumLE :
    specRemOrder
      = List.enumLE (fun a b : IdealItem => decide (b.remainder ≤ a.remainder)) := by
  funext x y
  simp only [specRemOrder, List.enumLE]
  by_cases h1 : y.2.remainder ≤ x.2.remainder
  · by_cases h2 : x.2.remainder ≤ y.2.remainder
    · simp [h1, h2, le_antisymm h2 h1]
    · simp [h1, h2, lt_of_le_not_le h1 h2]
  · have h3 : ¬y.2.remainder < x.2.remainder := fun h => h1 h.le
    have h4 : ¬x.2.remainder = y.2.remainder := fun h => h1 h.ge
    simp [h1, h3, h4]

/-- The converter's stable remainder-descending `mergeSort` equals the
canonical sort of the position-tagged items by `specRemOrder` (which
breaks remainder ties by input position), with the tags erased. -/
theorem mergeSort_remainder_spec (items : List IdealItem) :
    items.mergeSort (fun a b => decide (b.remainder ≤ a.remainder))
      = (items.enum.mergeSort specRemOrder).map (·.2) := by
  rw [specRemOrder_eq_enumLE]
  exact List.mergeSort_enum.symm

theorem specRemOrder_trans (a b c : ℕ × IdealItem)
    (hab : specRemOrder a b = true) (hbc : specRemOrder b c = true) :
    specRemOrder a c = true := by
  simp only [specRemOrder, decide_eq_true_eq] at *
  rcases hab with h | ⟨he, hi⟩ <;> rcases hbc with h' | ⟨he', hi'⟩
  · exact Or.inl (h'.trans h)
  · exact Or.inl (by rw [← he']; exact h)
  · exact Or.inl (by rw [he]; exact h')
  · exact Or.inr ⟨he.trans he', hi.trans hi'⟩

theorem specRemOrder_total (a b : ℕ × IdealItem) :
    (specRemOrder a b || specRemOrder b a) = true := by
  simp only [specRemOrder, Bool.or_eq_true, decide_eq_true_eq]
  rcases lt_trichotomy a.2.remainder b.2.remainder with h | h | h
  · exact Or.inr (Or.inl h)
  · rcases Nat.le_total a.1 b.1 with hi | hi
    · exact Or.inl (Or.inr ⟨h, hi⟩)
    · exact Or.inr (Or.inr ⟨h.symm, hi⟩)
  · exact Or.inl (Or.inl h)

/-- On the position-tagged item list `items.enum` the relation
`specRemOrder` is antisymmetric (distinct positions are never tied), so
any `specRemOrder`-sorted permutation of `items.enum` is exactly the
canonical sorted list: the order used in the `convertGroup`
characterisation is determined by the relation alone, independently of
the sorting algorithm. -/
theorem specSorted_unique (items : List IdealItem) (l : List (ℕ × IdealItem))
    (hperm : l.Perm items.enum)
    (hpair : l.Pairwise (fun a b => specRemOrder a b = true)) :
    l = items.enum.mergeSort specRemOrder := by
  have hanti : ∀ a b : ℕ × IdealItem, a ∈ l → b ∈ items.enum.mergeSort specRemOrder →
      specRemOrder a b = true → specRemOrder b a = true → a = b := by
    intro a b ha hb hab hba
    have ha2 : a ∈ items.enum := hperm.subset ha
    have hb2 : b ∈ items.enum := (List.mergeSort_perm items.enum specRemOrder).subset hb
    simp only [specRemOrder, decide_eq_true_eq] at hab hba
    have hidx : a.1 = b.1 := by
      rcases hab with h | ⟨he, hi⟩
      · rcases hba with h' | ⟨he', hi'⟩
        · exact absurd h' (lt_asymm h)
        · exact absurd h (by rw [he']; exact lt_irrefl _)
      · rcases hba with h' | ⟨he', hi'⟩
        · exact absurd h' (by rw [he]; exact lt_irrefl _)
        · omega
    obtain ⟨i, x⟩ := a
    obtain ⟨j, y⟩ := b
    simp only at hidx
    subst hidx
    rw [List.mk_mem_enum_iff_getElem?] at ha2 hb2
    rw [ha2] at hb2
    rw [Option.some.inj hb2]
  refine List.Perm.eq_of_sorted hanti hpair ?_ ?_
  · exact List.sorted_mergeSort specRemOrder_trans specRemOrder_total items.enum
  · exact hperm.trans (List.mergeSort_perm items.enum specRemOrder).symm

/-- Tied-remainder example for the stable sort: two holdings of one
symbol and account with ideal share counts 2.5 and 2.5 (equal fractional
remainders) and exactly one extra share to award; the stable sort bumps
the row that came first in the input. -/
def cxHolds3t : List Holding :=
  [{ account := "a1", symbol := "T", shares := 5 / 2, price := 100, amount := 300,
     targetAmount := some 250 },
   { account := "a1", symbol := "T", shares := 5 / 2, price := 100, amount := 200,
     targetAmount := some 250 }]

/-- The converter's concrete largest-remainder example: two same-symbol
holdings with dollar targets 740 and 330 at price 100 (ideal shares 7.4
and 3.3). -/
def cxHolds6 : List Holding :=
  [{ account := "a1", symbol := "S", shares := 8, price := 100, amount := 800,
     targetAmount := some 740 },
   { account := "a2", symbol := "S", shares := 33 / 10, price := 100, amount := 330,
     targetAmount := some 330 }]

/-- C3: per symbol group, `convertGroup` implements the largest-remainder
method — the output has one row per input row; each row's `targetShares`
is the floor of its ideal share count or that floor plus one;
`extraShares = round(totalIdeal) - totalFloored` is non-negative and is
exactly the number of rows awarded a bump; the total of `targetShares`
equals the rounded total of ideals; every bumped row has a fractional
remainder at least as large as every unbumped row's; the output is
exactly the canonical order "remainder descending, ties broken by
original input position" (`specRemOrder`) with the first `extraShares`
rows bumped — and that canonical order is the unique
`specRemOrder`-sorted permutation of the position-tagged items, so the
stable sort's tie-break by input order is fully determined; on the
concrete ideal shares 7.4 and 3.3 the resulting `targetShares` are 8 and
3; and on two rows with tied remainders (ideals 2.5 and 2.5, one extra
share) the earlier input row (amount 300) gets the bump. -/
theorem C3_largest_remainder :
    (∀ (g0 : Holding) (gs : List Holding),
      (convertGroup (g0 :: gs)).length = (g0 :: gs).length
      ∧ (∀ r ∈ convertGroup (g0 :: gs),
          r.fl = (idealOf g0.price r.base).floor ∧ (r.t = r.fl ∨ r.t = r.fl + 1))
      ∧ 0 ≤ extraOf (g0 :: gs)
      ∧ ((convertGroup (g0 :: gs)).countP (fun r => decide (r.t = r.fl + 1)) : ℤ)
          = extraOf (g0 :: gs)
      ∧ ((convertGroup (g0 :: gs)).map (·.t)).sum
          = jsRound (qsum ((g0 :: gs).map (fun h => idealOf g0.price h)))
      ∧ (∀ r1 ∈ convertGroup (g0 :: gs), ∀ r2 ∈ convertGroup (g0 :: gs),
          r1.t = r1.fl + 1 → r2.t = r2.fl →
          idealOf g0.price r2.base - r2.fl ≤ idealOf g0.price r1.base - r1.fl)
      ∧ convertGroup (g0 :: gs)
          = ((((itemsOf (g0 :: gs)).enum.mergeSort specRemOrder).map (·.2)).take
                (extraOf (g0 :: gs)).toNat).map
              (fun i => ({ base := i.holding, t := i.floored + 1,
                           ta := ((i.floored + 1 : ℤ) : ℚ) * g0.price,
                           fl := i.ideal.floor } : RRow))
            ++ ((((itemsOf (g0 :: gs)).enum.mergeSort specRemOrder).map (·.2)).drop
                (extraOf (g0 :: gs)).toNat).map
              (fun i => ({ base := i.holding, t := i.floored,
                           ta := ((i.floored : ℤ) : ℚ) * g0.price,
                           fl := i.ideal.floor } : RRow))
      ∧ (∀ l : List (ℕ × IdealItem),
          l.Perm ((itemsOf (g0 :: gs)).enum) →
          l.Pairwise (fun a b => specRemOrder a b = true) →
          (itemsOf (g0 :: gs)).enum.mergeSort specRemOrder = l))
    ∧ (convertToWholeShares cxHolds6).map (·.targetShares) = [some 8, some 3]
    ∧ (convertToWholeShares cxHolds3t).map (fun h => (h.amount, h.targetShares))
        = [(300, some 3), (200, some 2)] := by
  refine ⟨?_, by decide, by decide⟩
  intro g0 gs
  set p := g0.price with hp
  set items := (g0 :: gs).map (fun h =>
    let ideal := idealOf p h
    ({ holding := h, ideal := ideal, floored := ideal.floor,
       remainder := ideal - ideal.floor } : IdealItem)) with hitems
  have hmapid : items.map (·.ideal) = (g0 :: gs).map (fun h => idealOf p h) := by
    rw [hitems, List.map_map]
    rfl
  have hext : extraOf (g0 :: gs)
      = jsRound ((items.map (·.ideal)).sum) - (items.map (·.floored)).sum := by
    show jsRound (qsum (items.map (·.ideal)))
        - (items.map (·.floored)).foldl (· + ·) 0
      = jsRound ((items.map (·.ideal)).sum) - (items.map (·.floored)).sum
    rw [qsum_eq_sum, foldl_add_eq_sum]
  have hinv : ∀ it ∈ items, it.floored = it.ideal.floor
      ∧ it.remainder = it.ideal - ((it.ideal.floor : ℤ) : ℚ)
      ∧ it.ideal = idealOf p it.holding := by
    intro it hit
    rw [hitems] at hit
    obtain ⟨h, _, rfl⟩ := List.mem_map.mp hit
    exact ⟨rfl, rfl, rfl⟩
  have hne : items ≠ [] := by
    rw [hitems]
    simp
  have hr : convertGroup (g0 :: gs)
      = (((items.mergeSort (fun a b => decide (b.remainder ≤ a.remainder))).take
            (extraOf (g0 :: gs)).toNat).map
              (fun i : IdealItem => { i with floored := i.floored + 1 })
          ++ (items.mergeSort (fun a b => decide (b.remainder ≤ a.remainder))).drop
            (extraOf (g0 :: gs)).toNat).map
          (fun i : IdealItem =>
            ({ base := i.holding, t := i.floored, ta := (i.floored : ℚ) * p,
               fl := i.ideal.floor } : RRow)) := rfl
  have hio : itemsOf (g0 :: gs) = items := by
    rw [hitems, hp]
    rfl
  obtain ⟨c1, c2, c3, c4, c5, c6⟩ :=
    convert_core p items (extraOf (g0 :: gs)) hext hinv hne (convertGroup (g0 :: gs)) hr
  refine ⟨by rw [c1, hitems, List.length_map], c2, c3, c4, ?_, c6, ?_, ?_⟩
  · rw [c5, qsum_eq_sum, hmapid]
  · rw [hr, hio, ← mergeSort_remainder_spec, List.map_append, List.map_map]
    rfl
  · intro l hlp hlpair
    rw [hio] at hlp ⊢
    exact (specSorted_unique items l hlp hlpair).symm

/-- Concrete group member for the C3 witness. -/
def cxG0 : Holding :=
  { account := "a", symbol := "S", shares := 0, price := 1, amount := 0,
    targetAmount := some (3 / 2) }

/-- Concrete output row for the C3 witness. -/
def cxRow3 : RRow := { base := cxG0, t := 2, ta := 2, fl := 1 }

/-- Witness for C3: the group theorem applies to the singleton group of
`cxG0`, whose ideal share count 1.5 rounds up to 2 whole shares. -/
theorem C3_largest_remainder_witness :
    cxRow3 ∈ convertGroup [cxG0]
    ∧ (cxRow3.fl = (idealOf cxG0.price cxRow3.base).floor
       ∧ (cxRow3.t = cxRow3.fl ∨ cxRow3.t = cxRow3.fl + 1)) :=
  ⟨by decide, (C3_largest_remainder.1 cxG0 []).2.1 cxRow3 (by decide)⟩

/-! ## Grouping by symbol is a permutation -/

theorem flatMap_congr {α β : Type} {l : List α} {f g : α → List β}
    (h : ∀ a ∈ l, f a = g a) : l.flatMap f = l.flatMap g := by
  induction l with
  | nil => rfl
  | cons x xs ih =>
    simp only [List.flatMap_cons]
    rw [h x (List.mem_cons_self x xs), ih (fun a ha => h a (List.mem_cons_of_mem x ha))]

theorem flatMap_perm_congr {α β : Type} {l : List α} {f g : α → List β}
    (h : ∀ a ∈ l, (f a).Perm (g a)) : (l.flatMap f).Perm (l.flatMap g) := by
  induction l with
  | nil => exact List.Perm.refl _
  | cons x xs ih =>
    simp only [List.flatMap_cons]
    exact (h x (List.mem_cons_self x xs)).append
      (ih (fun a ha => h a (List.mem_cons_of_mem x ha)))

/-- `dedupFirst` commutes with removing one key. -/
theorem dedupFirst_filter (m : List String) (a : String) :
    (dedupFirst m).filter (fun t => decide (t ≠ a))
      = dedupFirst (m.filter (fun t => decide (t ≠ a))) := by
  induction m with
  | nil => rfl
  | cons s rest ih =>
    by_cases hsa : s = a
    · subst hsa
      have e1 : (s :: rest).filter (fun t => decide (t ≠ s))
          = rest.filter (fun t => decide (t ≠ s)) := by
        simp [List.filter_cons]
      have e2 : (dedupFirst (s :: rest)).filter (fun t => decide (t ≠ s))
          = ((dedupFirst rest).filter (fun t => decide (t ≠ s))).filter
              (fun t => decide (t ≠ s)) := by
        show (s :: (dedupFirst rest).filter (fun t => decide (t ≠ s))).filter
            (fun t => decide (t ≠ s)) = _
        simp [List.filter_cons]
      rw [e1, e2, List.filter_filter]
      have e3 : (dedupFirst rest).filter (fun x => decide (x ≠ s) && decide (x ≠ s))
          = (dedupFirst rest).filter (fun t => decide (t ≠ s)) :=
        List.filter_congr (fun x _ => by simp)
      rw [e3, ih]
    · have e1 : (s :: rest).filter (fun t => decide (t ≠ a))
          = s :: rest.filter (fun t => decide (t ≠ a)) := by
        simp [List.filter_cons, hsa]
      have e2 : (dedupFirst (s :: rest)).filter (fun t => decide (t ≠ a))
          = s :: ((dedupFirst rest).filter (fun t => decide (t ≠ s))).filter
              (fun t => decide (t ≠ a)) := by
        show (s :: (dedupFirst rest).filter (fun t => decide (t ≠ s))).filter
            (fun t => decide (t ≠ a)) = _
        simp [List.filter_cons, hsa]
      rw [e1, e2]
      have e3 : dedupFirst (s :: rest.filter (fun t => decide (t ≠ a)))
          = s :: (dedupFirst (rest.filter (fun t => decide (t ≠ a)))).filter
              (fun t => decide (t ≠ s)) := rfl
      rw [e3, ← ih, List.filter_filter, List.filter_filter]
      refine congrArg (s :: ·) (List.filter_congr (fun x _ => ?_))
      by_cases h1 : x = a <;> by_cases h2 : x = s <;> simp [h1, h2]

theorem perm_groupBy_aux {α : Type} (key : α → String) :
    ∀ (n : ℕ) (l : List α), l.length ≤ n →
    ((dedupFirst (l.map key)).flatMap
      (fun s => l.filter (fun x => decide (key x = s)))).Perm l := by
  intro n
  induction n with
  | zero =>
    intro l hl
    have : l = [] := List.eq_nil_of_length_eq_zero (Nat.le_zero.mp hl)
    subst this
    simp [dedupFirst]
  | succ n ih =>
    intro l hl
    cases l with
    | nil => simp [dedupFirst]
    | cons h t =>
      have hhead : dedupFirst ((h :: t).map key)
          = key h :: (dedupFirst (t.map key)).filter (fun s => decide (s ≠ key h)) := rfl
      rw [hhead, List.flatMap_cons]
      have hfirst : (h :: t).filter (fun x => decide (key x = key h))
          = h :: t.filter (fun x => decide (key x = key h)) := by
        simp [List.filter_cons]
      set t' := t.filter (fun x => decide (key x ≠ key h)) with ht'
      have hkeys : (dedupFirst (t.map key)).filter (fun s => decide (s ≠ key h))
          = dedupFirst (t'.map key) := by
        rw [dedupFirst_filter, ht', List.filter_map]
        exact congrArg dedupFirst (congrArg (List.map key)
          (List.filter_congr (fun y _ => rfl)))
      have htail : ((dedupFirst (t.map key)).filter (fun s => decide (s ≠ key h))).flatMap
            (fun s => (h :: t).filter (fun x => decide (key x = s)))
          = (dedupFirst (t'.map key)).flatMap
            (fun s => t'.filter (fun x => decide (key x = s))) := by
        rw [hkeys]
        refine flatMap_congr (fun s hs => ?_)
        have hsmem : s ∈ t'.map key := mem_dedupFirst.mp hs
        obtain ⟨x, hx, rfl⟩ := List.mem_map.mp hsmem
        have hxne : ¬ (key x = key h) := by
          have := (List.mem_filter.mp hx).2
          simpa using this
        have hstep : (h :: t).filter (fun y => decide (key y = key x))
            = t.filter (fun y => decide (key y = key x)) := by
          simp only [List.filter_cons]
          have : (decide (key h = key x)) = false := by
            simpa using fun hc => hxne hc.symm
          rw [this]
          simp
        rw [hstep, ht', List.filter_filter]
        refine List.filter_congr (fun y _ => ?_)
        by_cases hy : key y = key x
        · simp [hy, hxne]
        · simp [hy]
      rw [htail, hfirst, List.cons_append]
      refine List.Perm.cons h ?_
      have hlen : t'.length ≤ n := by
        have h1 : t'.length ≤ t.length := List.length_filter_le _ _
        have h2 : t.length ≤ n := by
          simpa using Nat.lt_succ_iff.mp (Nat.lt_of_lt_of_le (Nat.lt_succ_of_le le_rfl)
            (by simpa using hl))
        omega
      have hperm := ih t' hlen
      refine ((List.Perm.append_left _ hperm).trans ?_)
      have ht'' : t' = t.filter (fun x => !(decide (key x = key h))) := by
        rw [ht']
        exact List.filter_congr (fun y _ => by simp)
      rw [ht'']
      exact List.filter_append_perm _ t

/-- Concatenating the per-key groups (keys in first-appearance order,
rows in input order) is a permutation of the original list. -/
theorem perm_groupBy {α : Type} (key : α → String) (l : List α) :
    ((dedupFirst (l.map key)).flatMap
      (fun s => l.filter (fun x => decide (key x = s)))).Perm l :=
  perm_groupBy_aux key l.length l le_rfl

/-! ## C8: idempotence on whole-share input -/

theorem jsRound_intCast (n : ℤ) : jsRound ((n : ℤ) : ℚ) = n := by
  unfold jsRound
  rw [ratFloor_eq, Int.floor_int_add]
  have h2 : ⌊(1 / 2 : ℚ)⌋ = 0 := by
    rw [Int.floor_eq_zero_iff]
    constructor <;> norm_num
  rw [h2, add_zero]

/-- `mergeSort` does not move anything when the relation accepts every
pair (stability). -/
theorem mergeSort_of_all {α : Type} (le : α → α → Bool) (l : List α)
    (htrans : ∀ a b c : α, le a b = true → le b c = true → le a c = true)
    (htot : ∀ a b : α, (le a b || le b a) = true)
    (h : ∀ a ∈ l, ∀ b ∈ l, le a b = true) : l.mergeSort le = l := by
  have hpair : List.Pairwise (fun a b => le a b = true) l :=
    List.pairwise_of_forall_mem_list h
  have hsub : l.Sublist (l.mergeSort le) :=
    List.mergeSort_stable htrans htot hpair (List.Sublist.refl l)
  exact ((List.Sublist.eq_of_length hsub ((List.mergeSort_perm l le).length_eq).symm)).symm

/-- The annotated row the converter produces for a holding whose ideal
share count is already whole. -/
def annRow (h : Holding) : RRow :=
  { base := h, t := (idealOf h.price h).floor,
    ta := (((idealOf h.price h).floor : ℤ) : ℚ) * h.price,
    fl := (idealOf h.price h).floor }

/-- On a group whose ideal share counts are all integers, `convertGroup`
annotates every row with its own floor and performs no redistribution. -/
theorem convertGroup_integral (g0 : Holding) (gs : List Holding)
    (hint : ∀ h ∈ g0 :: gs, ∃ n : ℤ, idealOf g0.price h = (n : ℚ)) :
    convertGroup (g0 :: gs) = (g0 :: gs).map (fun h =>
      ({ base := h, t := (idealOf g0.price h).floor,
         ta := (((idealOf g0.price h).floor : ℤ) : ℚ) * g0.price,
         fl := (idealOf g0.price h).floor } : RRow)) := by
  set p := g0.price with hp
  set items := (g0 :: gs).map (fun h =>
    let ideal := idealOf p h
    ({ holding := h, ideal := ideal, floored := ideal.floor,
       remainder := ideal - ideal.floor } : IdealItem)) with hitems
  have hideal_int : ∀ it ∈ items, ((it.ideal.floor : ℤ) : ℚ) = it.ideal := by
    intro it hit
    rw [hitems] at hit
    obtain ⟨h, hh, rfl⟩ := List.mem_map.mp hit
    obtain ⟨n, hn⟩ := hint h hh
    show (((idealOf p h).floor : ℤ) : ℚ) = idealOf p h
    rw [hn, ratFloor_eq, Int.floor_intCast]
  have hrem : ∀ it ∈ items, it.remainder = 0 := by
    intro it hit
    have h2 := hideal_int it hit
    rw [hitems] at hit
    obtain ⟨h, hh, rfl⟩ := List.mem_map.mp hit
    show idealOf p h - (((idealOf p h).floor : ℤ) : ℚ) = 0
    rw [h2]
    ring
  have hsort : items.mergeSort (fun a b => decide (b.remainder ≤ a.remainder)) = items := by
    refine mergeSort_of_all _ items ?_ ?_ ?_
    · intro a b c hab hbc
      simp only [decide_eq_true_eq] at *
      exact le_trans hbc hab
    · intro a b
      simpa using le_total b.remainder a.remainder
    · intro a ha b hb
      rw [hrem a ha, hrem b hb]
      simp
  have hextra0 : extraOf (g0 :: gs) = 0 := by
    show jsRound (qsum (items.map (·.ideal)))
        - (items.map (·.floored)).foldl (· + ·) 0 = 0
    rw [qsum_eq_sum, foldl_add_eq_sum]
    have hmap : items.map (·.ideal) = items.map (fun it => ((it.floored : ℤ) : ℚ)) := by
      refine List.map_congr_left (fun it hit => ?_)
      have h2 := hideal_int it hit
      rw [hitems] at hit
      obtain ⟨h, hh, rfl⟩ := List.mem_map.mp hit
      exact h2.symm
    rw [hmap, ← cast_sum_map, jsRound_intCast]
    ring
  have hr : convertGroup (g0 :: gs)
      = (((items.mergeSort (fun a b => decide (b.remainder ≤ a.remainder))).take
            (extraOf (g0 :: gs)).toNat).map
              (fun i : IdealItem => { i with floored := i.floored + 1 })
          ++ (items.mergeSort (fun a b => decide (b.remainder ≤ a.remainder))).drop
            (extraOf (g0 :: gs)).toNat).map
          (fun i : IdealItem =>
            ({ base := i.holding, t := i.floored, ta := (i.floored : ℚ) * p,
               fl := i.ideal.floor } : RRow)) := rfl
  rw [hr, hextra0, hsort]
  simp only [Int.toNat_zero, List.take_zero, List.map_nil, List.drop_zero,
    List.nil_append]
  rw [hitems, List.map_map]
  rfl

/-- The repair pass makes no change when every account is within budget
or already exceeded budget before rounding. -/
theorem onePass_no_trigger (accounts : List String) (budget pre : String → ℚ)
    (rows : List RRow)
    (h : ∀ a ∈ accounts, budget a + 1 / 100 < pre a
      ∨ accountTargetOf rows a ≤ budget a + 1 / 100) :
    onePass accounts budget pre rows = (rows, false) := by
  unfold onePass
  refine foldl_inv (fun st : List RRow × Bool => st = (rows, false)) _ accounts
    (rows, false) rfl ?_
  intro st a ha hst
  subst hst
  by_cases hpre : pre a > budget a + 1 / 100
  · rw [if_pos hpre]
  · rcases h a ha with h1 | h2
    · exact absurd h1 hpre
    · have h3 : ¬ accountTargetOf rows a > budget a + 1 / 100 := not_lt.mpr h2
      rw [if_neg hpre, if_neg h3]

theorem repairLoop_of_noop (accounts : List String) (budget pre : String → ℚ)
    (fuel : ℕ) (rows : List RRow)
    (h : onePass accounts budget pre rows = (rows, false)) :
    repairLoop accounts budget pre fuel rows = rows := by
  cases fuel with
  | zero => rfl
  | succ n => simp [repairLoop, h]

/-- `convertToWholeShares`, unfolded to its three stages. -/
theorem convertToWholeShares_eq (holdings : List Holding) :
    convertToWholeShares holdings
      = (repairLoop (allAccountsOf holdings) (accountBudgetOf holdings)
          (accountPreRoundingOf holdings) (sharesMeasure (roundedRows holdings) + 1)
          (roundedRows holdings)).map RRow.out := rfl

/-- On whole-share input the grouped rounding annotates every holding
with its own (integral) ideal. -/
theorem roundedRows_integral (holdings : List Holding)
    (huni : ∀ h1 ∈ holdings, ∀ h2 ∈ holdings, h1.symbol = h2.symbol → h1.price = h2.price)
    (hint : ∀ h ∈ holdings, ∃ n : ℤ, idealOf h.price h = ((n : ℤ) : ℚ)) :
    roundedRows holdings
      = (dedupFirst (holdings.map (·.symbol))).flatMap
          (fun s => (holdings.filter (fun h => decide (h.symbol = s))).map annRow) := by
  unfold roundedRows
  refine flatMap_congr (fun s hs => ?_)
  obtain ⟨h0, hh0, hh0s⟩ := List.mem_map.mp (mem_dedupFirst.mp hs)
  cases hg : holdings.filter (fun h => decide (h.symbol = s)) with
  | nil =>
    exfalso
    have hmem : h0 ∈ holdings.filter (fun h => decide (h.symbol = s)) :=
      List.mem_filter.mpr ⟨hh0, by simp [hh0s]⟩
    rw [hg] at hmem
    cases hmem
  | cons g0 gs =>
    have hmemgrp : ∀ h ∈ g0 :: gs, h ∈ holdings ∧ h.symbol = s := by
      intro h hh
      rw [← hg] at hh
      have := List.mem_filter.mp hh
      exact ⟨this.1, by simpa using this.2⟩
    have hpeq : ∀ h ∈ g0 :: gs, g0.price = h.price := by
      intro h hh
      have h1 := hmemgrp g0 (List.mem_cons_self g0 gs)
      have h2 := hmemgrp h hh
      exact huni g0 h1.1 h h2.1 (h1.2.trans h2.2.symm)
    rw [convertGroup_integral g0 gs ?hintg]
    case hintg =>
      intro h hh
      rw [hpeq h hh]
      exact hint h (hmemgrp h hh).1
    refine List.map_congr_left (fun h hh => ?_)
    rw [hpeq h hh]
    rfl

/-- C8: on input whose ideal share counts are all whole (with the data
model's `amount = shares * price`, uniform per-symbol prices, and
positive prices wherever a dollar target is set), `convertToWholeShares`
returns every holding annotated with exactly its current ideal share
count — the conversion is idempotent, only regrouping rows by symbol. -/
theorem C8_idempotent_whole_share_conversion (holdings : List Holding)
    (huni : ∀ h1 ∈ holdings, ∀ h2 ∈ holdings, h1.symbol = h2.symbol → h1.price = h2.price)
    (hint : ∀ h ∈ holdings, ∃ n : ℤ, idealOf h.price h = ((n : ℤ) : ℚ))
    (hamt : ∀ h ∈ holdings, h.amount = h.shares * h.price)
    (hpz : ∀ h ∈ holdings, ∀ ta, h.targetAmount = some ta → h.price ≠ 0) :
    convertToWholeShares holdings
      = (dedupFirst (holdings.map (·.symbol))).flatMap
          (fun s => (holdings.filter (fun h => decide (h.symbol = s))).map
            (fun h => { h with
                          targetShares := some (idealOf h.price h),
                          targetAmount := some (idealOf h.price h * h.price) })) := by
  have hrowseq := roundedRows_integral holdings huni hint
  have hcast : ∀ h ∈ holdings, (((idealOf h.price h).floor : ℤ) : ℚ) = idealOf h.price h := by
    intro h hh
    obtain ⟨n, hn⟩ := hint h hh
    rw [hn, ratFloor_eq, Int.floor_intCast]
  have houtperm : (roundedRows holdings).Perm (holdings.map annRow) := by
    rw [hrowseq, ← List.map_flatMap]
    exact (perm_groupBy (·.symbol) holdings).map annRow
  have htarget_eq : ∀ a, accountTargetOf (roundedRows holdings) a
      = accountPreRoundingOf holdings a := by
    intro a
    unfold accountTargetOf accountPreRoundingOf
    have hp1 := (houtperm.filter (fun r => decide (r.base.account = a))).map
      (fun r => (r.t : ℚ) * r.base.price)
    rw [qsum_perm hp1, List.filter_map, List.map_map]
    have hpred : ((fun r : RRow => decide (r.base.account = a)) ∘ annRow)
        = (fun h : Holding => decide (h.account = a)) := by
      funext h
      rfl
    rw [hpred]
    refine congrArg qsum (List.map_congr_left (fun h hh => ?_))
    have hmem : h ∈ holdings := (List.mem_filter.mp hh).1
    show ((annRow h).t : ℚ) * (annRow h).base.price = h.targetAmount.getD h.amount
    have ht : ((annRow h).t : ℚ) = idealOf h.price h := hcast h hmem
    rw [show (annRow h).base.price = h.price from rfl, ht]
    cases hta : h.targetAmount with
    | none =>
      show idealOf h.price h * h.price = h.amount
      rw [show idealOf h.price h = h.shares by unfold idealOf; rw [hta]]
      exact (hamt h hmem).symm
    | some ta =>
      show idealOf h.price h * h.price = ta
      rw [show idealOf h.price h = ta / h.price by unfold idealOf; rw [hta]]
      exact div_mul_cancel₀ ta (hpz h hmem ta hta)
  have hnoop : onePass (allAccountsOf holdings) (accountBudgetOf holdings)
      (accountPreRoundingOf holdings) (roundedRows holdings)
      = (roundedRows holdings, false) := by
    refine onePass_no_trigger _ _ _ _ (fun a _ => ?_)
    by_cases hple : accountPreRoundingOf holdings a ≤ accountBudgetOf holdings a + 1 / 100
    · right
      rw [htarget_eq a]
      exact hple
    · left
      exact lt_of_not_le hple
  rw [convertToWholeShares_eq, repairLoop_of_noop _ _ _ _ _ hnoop, hrowseq,
    List.map_flatMap]
  refine flatMap_congr (fun s _ => ?_)
  rw [List.map_map]
  refine List.map_congr_left (fun h hh => ?_)
  have hmem : h ∈ holdings := (List.mem_filter.mp hh).1
  show RRow.out (annRow h) = _
  unfold RRow.out annRow
  have ht := hcast h hmem
  simp only []
  rw [ht]

/-- Concrete whole-share input for the C8 witness. -/
def cxHolds8 : List Holding :=
  [{ account := "a1", symbol := "S", shares := 7, price := 100, amount := 700,
     targetAmount := some 700 }]

/-- Witness for C8: the idempotence theorem applies to a one-row
whole-share portfolio. -/
theorem C8_idempotent_whole_share_conversion_witness :
    (∀ h ∈ cxHolds8, h.amount = h.shares * h.price)
    ∧ convertToWholeShares cxHolds8
        = (dedupFirst (cxHolds8.map (·.symbol))).flatMap
            (fun s => (cxHolds8.filter (fun h => decide (h.symbol = s))).map
              (fun h => { h with
                            targetShares := some (idealOf h.price h),
                            targetAmount := some (idealOf h.price h * h.price) })) :=
  ⟨by decide, C8_idempotent_whole_share_conversion cxHolds8
    (by
      intro h1 hh1 h2 hh2 _
      simp only [cxHolds8, List.mem_singleton] at hh1 hh2
      subst hh1
      subst hh2
      rfl)
    (by
      intro h hh
      simp only [cxHolds8, List.mem_singleton] at hh
      subst hh
      exact ⟨7, by decide⟩)
    (by decide)
    (by
      intro h hh ta hta
      simp only [cxHolds8, List.mem_singleton] at hh
      subst hh
      decide)⟩

/-! ## C10: termination of the budget-repair loop -/

/-- If the repair pass's search returns an index, the row at that index
belongs to the account and holds strictly positive working shares. -/
theorem findBest_some (rows : List RRow) (a : String) {i : ℕ}
    (h : findBest rows a = some i) :
    ∃ r, rows.get? i = some r ∧ r.base.account = a ∧ 0 < r.t := by
  have main := foldl_inv
    (fun (b : Option (ℕ × ℚ × Bool)) => ∀ q : ℕ × ℚ × Bool, b = some q →
      ∃ r, rows.get? q.1 = some r ∧ r.base.account = a ∧ 0 < r.t)
    (fun (best : Option (ℕ × ℚ × Bool)) (ir : ℕ × RRow) =>
      if ¬(ir.2.base.account = a) ∨ ir.2.t ≤ 0 then best
      else
        let wasUp := decide (ir.2.fl < ir.2.t)
        match best with
        | none => some (ir.1, ir.2.base.price, wasUp)
        | some (bi, bp, bup) =>
          if wasUp = true ∧ bup = false then some (ir.1, ir.2.base.price, wasUp)
          else if wasUp = bup ∧ ir.2.base.price < bp then some (ir.1, ir.2.base.price, wasUp)
          else some (bi, bp, bup))
    rows.enum none (fun q hq => by cases hq) ?step
  case step =>
    intro st x hx hst q hq
    obtain ⟨ix, rx⟩ := x
    have hx' : rows.get? ix = some rx := by
      rw [List.get?_eq_getElem?]
      exact List.mk_mem_enum_iff_getElem?.mp hx
    simp only [] at hq
    by_cases hskip : ¬(rx.base.account = a) ∨ rx.t ≤ 0
    · rw [if_pos hskip] at hq
      exact hst q hq
    · rw [if_neg hskip] at hq
      push_neg at hskip
      obtain ⟨hacc, hpos⟩ := hskip
      cases st with
      | none =>
        have hq2 : some ((ix, rx.base.price, decide (rx.fl < rx.t)) : ℕ × ℚ × Bool)
            = some q := hq
        obtain rfl : ((ix, rx.base.price, decide (rx.fl < rx.t)) : ℕ × ℚ × Bool) = q :=
          Option.some.inj hq2
        exact ⟨rx, hx', hacc, hpos⟩
      | some b =>
        obtain ⟨bi, bp, bup⟩ := b
        have hq2 :
            (if decide (rx.fl < rx.t) = true ∧ bup = false then
               some ((ix, rx.base.price, decide (rx.fl < rx.t)) : ℕ × ℚ × Bool)
             else if decide (rx.fl < rx.t) = bup ∧ rx.base.price < bp then
               some ((ix, rx.base.price, decide (rx.fl < rx.t)) : ℕ × ℚ × Bool)
             else some (bi, bp, bup)) = some q := hq
        split_ifs at hq2
        · obtain rfl := Option.some.inj hq2
          exact ⟨rx, hx', hacc, hpos⟩
        · obtain rfl := Option.some.inj hq2
          exact ⟨rx, hx', hacc, hpos⟩
        · obtain rfl := Option.some.inj hq2
          exact hst (bi, bp, bup) rfl
  · have h2 : (rows.enum.foldl
        (fun (best : Option (ℕ × ℚ × Bool)) (ir : ℕ × RRow) =>
          if ¬(ir.2.base.account = a) ∨ ir.2.t ≤ 0 then best
          else
            let wasUp := decide (ir.2.fl < ir.2.t)
            match best with
            | none => some (ir.1, ir.2.base.price, wasUp)
            | some (bi, bp, bup) =>
              if wasUp = true ∧ bup = false then some (ir.1, ir.2.base.price, wasUp)
              else if wasUp = bup ∧ ir.2.base.price < bp then
                some (ir.1, ir.2.base.price, wasUp)
              else some (bi, bp, bup))
        none).map (·.1) = some i := h
    rw [Option.map_eq_some'] at h2
    obtain ⟨p, hp, hpi⟩ := h2
    obtain ⟨r, hr, hra, hrt⟩ := main p hp
    exact ⟨r, hpi ▸ hr, hra, hrt⟩

/-- Decrementing a strictly positive row decreases the shares measure. -/
theorem decAt_measure (rows : List RRow) (i : ℕ) (r : RRow)
    (hget : rows.get? i = some r) (hpos : 0 < r.t) :
    sharesMeasure (decAt rows i) < sharesMeasure rows := by
  induction rows generalizing i with
  | nil => cases hget
  | cons x xs ih =>
    cases i with
    | zero =>
      obtain rfl : x = r := Option.some.inj hget
      have hd : decAt (x :: xs) 0
          = { x with t := x.t - 1, ta := ((x.t - 1 : ℤ) : ℚ) * x.base.price } :: xs := rfl
      rw [hd]
      simp only [sharesMeasure, List.map, List.sum_cons]
      have h1 : (x.t - 1).toNat < x.t.toNat := by omega
      omega
    | succ n =>
      have hget' : xs.get? n = some r := hget
      have hih := ih n hget'
      have hd : decAt (x :: xs) (n + 1) = x :: decAt xs n := by
        simp only [decAt]
        rw [show (x :: xs).get? (n + 1) = xs.get? n from rfl, hget']
        rfl
      rw [hd]
      simp only [sharesMeasure, List.map, List.sum_cons] at hih ⊢
      omega

/-- Decrementing a strictly positive row keeps all working share counts
non-negative. -/
theorem decAt_nonneg (rows : List RRow) (i : ℕ) (r : RRow)
    (hget : rows.get? i = some r) (hpos : 0 < r.t)
    (hall : ∀ r2 ∈ rows, 0 ≤ r2.t) :
    ∀ r2 ∈ decAt rows i, 0 ≤ r2.t := by
  unfold decAt
  rw [hget]
  intro r2 hr2
  rcases List.mem_or_eq_of_mem_set hr2 with hmem | heq
  · exact hall r2 hmem
  · subst heq
    show (0 : ℤ) ≤ r.t - 1
    omega

/-- One repair pass never increases the shares measure, and strictly
decreases it whenever it reports a change. -/
theorem onePass_measure (accounts : List String) (budget pre : String → ℚ)
    (rows : List RRow) :
    sharesMeasure (onePass accounts budget pre rows).1 ≤ sharesMeasure rows
    ∧ ((onePass accounts budget pre rows).2 = true →
        sharesMeasure (onePass accounts budget pre rows).1 < sharesMeasure rows) := by
  have main := foldl_inv
    (fun (st : List RRow × Bool) =>
      sharesMeasure st.1 ≤ sharesMeasure rows ∧
        (st.2 = true → sharesMeasure st.1 < sharesMeasure rows))
    (fun (st : List RRow × Bool) a =>
      if pre a > budget a + 1 / 100 then st
      else if accountTargetOf rows a > budget a + 1 / 100 then
        match findBest st.1 a with
        | some i => (decAt st.1 i, true)
        | none => st
      else st)
    accounts (rows, false) ⟨le_refl _, fun h => Bool.noConfusion h⟩ ?step
  case step =>
    intro st a ha hst
    simp only []
    by_cases h1 : pre a > budget a + 1 / 100
    · rw [if_pos h1]
      exact hst
    · rw [if_neg h1]
      by_cases h2 : accountTargetOf rows a > budget a + 1 / 100
      · rw [if_pos h2]
        cases hfb : findBest st.1 a with
        | none => exact hst
        | some i =>
          obtain ⟨r, hget, _, hpos⟩ := findBest_some st.1 a hfb
          have hdec := decAt_measure st.1 i r hget hpos
          exact ⟨le_of_lt (lt_of_lt_of_le hdec hst.1), fun _ => lt_of_lt_of_le hdec hst.1⟩
      · rw [if_neg h2]
        exact hst
  · exact main

/-- One repair pass keeps all working share counts non-negative. -/
theorem onePass_nonneg (accounts : List String) (budget pre : String → ℚ)
    (rows : List RRow) (hall : ∀ r ∈ rows, 0 ≤ r.t) :
    ∀ r ∈ (onePass accounts budget pre rows).1, 0 ≤ r.t := by
  have main := foldl_inv
    (fun (st : List RRow × Bool) => ∀ r ∈ st.1, 0 ≤ r.t)
    (fun (st : List RRow × Bool) a =>
      if pre a > budget a + 1 / 100 then st
      else if accountTargetOf rows a > budget a + 1 / 100 then
        match findBest st.1 a with
        | some i => (decAt st.1 i, true)
        | none => st
      else st)
    accounts (rows, false) hall ?step
  case step =>
    intro st a ha hst
    simp only []
    by_cases h1 : pre a > budget a + 1 / 100
    · rw [if_pos h1]
      exact hst
    · rw [if_neg h1]
      by_cases h2 : accountTargetOf rows a > budget a + 1 / 100
      · rw [if_pos h2]
        cases hfb : findBest st.1 a with
        | none => exact hst
        | some i =>
          obtain ⟨r, hget, _, hpos⟩ := findBest_some st.1 a hfb
          exact decAt_nonneg st.1 i r hget hpos hst
      · rw [if_neg h2]
        exact hst
  · exact main

/-- Once the fuel exceeds the shares measure, one more unit of fuel makes
no difference: the loop has already reached its fixpoint. -/
theorem repairLoop_stable (accounts : List String) (budget pre : String → ℚ) :
    ∀ (fuel : ℕ) (rows : List RRow), sharesMeasure rows < fuel →
      repairLoop accounts budget pre (fuel + 1) rows
        = repairLoop accounts budget pre fuel rows := by
  intro fuel
  induction fuel with
  | zero => intro rows h; omega
  | succ n ih =>
    intro rows h
    show (let step := onePass accounts budget pre rows
          if step.2 then repairLoop accounts budget pre (n + 1) step.1 else step.1)
        = (let step := onePass accounts budget pre rows
          if step.2 then repairLoop accounts budget pre n step.1 else step.1)
    cases hc : (onePass accounts budget pre rows).2 with
    | false =>
      show (if (onePass accounts budget pre rows).2 then _ else _)
          = (if (onePass accounts budget pre rows).2 then _ else _)
      rw [hc]
      simp
    | true =>
      show (if (onePass accounts budget pre rows).2 then
              repairLoop accounts budget pre (n + 1) (onePass accounts budget pre rows).1
            else (onePass accounts budget pre rows).1)
          = (if (onePass accounts budget pre rows).2 then
              repairLoop accounts budget pre n (onePass accounts budget pre rows).1
            else (onePass accounts budget pre rows).1)
      rw [hc]
      simp only [if_true]
      have hlt := (onePass_measure accounts budget pre rows).2 hc
      exact ih (onePass accounts budget pre rows).1 (by omega)

/-- Any fuel beyond the shares measure plus one gives the same result. -/
theorem repairLoop_fuel_ge (accounts : List String) (budget pre : String → ℚ)
    (rows : List RRow) (fuel : ℕ) (h : sharesMeasure rows < fuel) :
    ∀ k, repairLoop accounts budget pre (fuel + k) rows
        = repairLoop accounts budget pre fuel rows := by
  intro k
  induction k with
  | zero => rfl
  | succ m ih =>
    have h2 : sharesMeasure rows < fuel + m := by omega
    calc repairLoop accounts budget pre (fuel + (m + 1)) rows
        = repairLoop accounts budget pre ((fuel + m) + 1) rows := by
          rw [Nat.add_assoc]
      _ = repairLoop accounts budget pre (fuel + m) rows :=
          repairLoop_stable accounts budget pre (fuel + m) rows h2
      _ = repairLoop accounts budget pre fuel rows := ih

/-- Concrete input for the C10 example: two accounts share one symbol;
rounding bumps the first account over its budget, and one repair
iteration fixes it. -/
def cxHolds10 : List Holding :=
  [{ account := "a1", symbol := "X", shares := 2, price := 100, amount := 250,
     targetAmount := some 250 },
   { account := "a2", symbol := "X", shares := 3, price := 100, amount := 250,
     targetAmount := some 250 }]

/-- C10: the budget-repair loop terminates.  Every pass that reports a
change strictly decreases the total of the positive working share counts
(each such pass decrements one strictly positive targetShares by one),
share counts never go below zero, and any fuel beyond the initial measure
plus one leaves the result unchanged — so the fuelled embedding computes
the unbounded source loop's unique result.  Concretely, on a portfolio
where rounding pushes one account $50 over budget, the loop repairs it to
2 shares each. -/
theorem C10_repair_loop_terminates (accounts : List String)
    (budget pre : String → ℚ) (rows : List RRow) :
    ((onePass accounts budget pre rows).2 = true →
       sharesMeasure (onePass accounts budget pre rows).1 < sharesMeasure rows)
    ∧ ((∀ r ∈ rows, 0 ≤ r.t) → ∀ r ∈ (onePass accounts budget pre rows).1, 0 ≤ r.t)
    ∧ (∀ k, repairLoop accounts budget pre (sharesMeasure rows + 1 + k) rows
          = repairLoop accounts budget pre (sharesMeasure rows + 1) rows)
    ∧ (convertToWholeShares cxHolds10).map (fun h => (h.targetShares, h.targetAmount))
        = [(some 2, some 200), (some 2, some 200)] :=
  ⟨(onePass_measure accounts budget pre rows).2,
   fun hall => onePass_nonneg accounts budget pre rows hall,
   repairLoop_fuel_ge accounts budget pre rows (sharesMeasure rows + 1) (by omega),
   by decide⟩

/-- Witness for C10: the termination theorem applies at the concrete
repair example. -/
theorem C10_repair_loop_terminates_witness :
    repairLoop (dedupFirst (cxHolds10.map (fun h => h.account)))
        (accountBudgetOf cxHolds10) (accountPreRoundingOf cxHolds10)
        (sharesMeasure (roundedRows cxHolds10) + 1 + 3) (roundedRows cxHolds10)
      = repairLoop (dedupFirst (cxHolds10.map (fun h => h.account)))
        (accountBudgetOf cxHolds10) (accountPreRoundingOf cxHolds10)
        (sharesMeasure (roundedRows cxHolds10) + 1) (roundedRows cxHolds10)
    ∧ ∀ r ∈ (onePass (dedupFirst (cxHolds10.map (fun h => h.account)))
        (accountBudgetOf cxHolds10) (accountPreRoundingOf cxHolds10)
        (roundedRows cxHolds10)).1, 0 ≤ r.t := by
  have h := C10_repair_loop_terminates (dedupFirst (cxHolds10.map (fun h => h.account)))
      (accountBudgetOf cxHolds10) (accountPreRoundingOf cxHolds10)
      (roundedRows cxHolds10)
  obtain ⟨h1, h2, h3, h4⟩ := h
  exact ⟨h3 3, h2 (by decide)⟩

/-! ## C9: non-negativity -/

/-- All values of an association map are non-negative. -/
def valsNN {α : Type} (m : List (α × ℚ)) : Prop := ∀ e ∈ m, 0 ≤ e.2

theorem mapSet_valsNN {α : Type} [DecidableEq α] (m : List (α × ℚ)) (k : α) (v : ℚ)
    (hm : valsNN m) (hv : 0 ≤ v) : valsNN (mapSet m k v) := by
  induction m with
  | nil =>
    intro e he
    rcases List.mem_singleton.mp he with rfl
    exact hv
  | cons x xs ih =>
    obtain ⟨k2, v2⟩ := x
    intro e he
    rw [mapSet] at he
    by_cases hk : k2 = k
    · rw [if_pos hk] at he
      rcases List.mem_cons.mp he with rfl | hmem
      · exact hv
      · exact hm e (List.mem_cons_of_mem (k2, v2) hmem)
    · rw [if_neg hk] at he
      rcases List.mem_cons.mp he with rfl | hmem
      · exact hm (k2, v2) (List.mem_cons_self (k2, v2) xs)
      · exact ih (fun e2 he2 => hm e2 (List.mem_cons_of_mem (k2, v2) he2)) e hmem

theorem mapGet_getD_nonneg {α : Type} [DecidableEq α] (m : List (α × ℚ)) (k : α)
    (hm : valsNN m) : 0 ≤ (mapGet m k).getD 0 := by
  unfold mapGet
  cases hf : m.find? (fun e => decide (e.1 = k)) with
  | none => exact le_refl 0
  | some e => exact hm e (List.mem_of_find?_eq_some hf)

/-- The Consolidate greedy allocation only writes positive values into
the allocation map. -/
theorem consolidateSymbol_NN (allAccounts : List String)
    (st : AllocMap × List (String × ℚ)) (sv : String × ℚ)
    (h : valsNN st.1) : valsNN (consolidateSymbol allAccounts st sv).1 := by
  have main := foldl_inv
    (fun (st2 : AllocMap × List (String × ℚ) × ℚ) => valsNN st2.1)
    (fun (st2 : AllocMap × List (String × ℚ) × ℚ) (ac : String × ℚ) =>
      if st2.2.2 ≤ 0 then st2
      else
        if 0 < min st2.2.2 ac.2 then
          (mapSet st2.1 (sv.1, ac.1) (min st2.2.2 ac.2),
           mapSet st2.2.1 ac.1 (ac.2 - min st2.2.2 ac.2), st2.2.2 - min st2.2.2 ac.2)
        else st2)
    (((allAccounts.map (fun n => (n, (mapGet st.2 n).getD 0))).filter
      (fun x => decide (0 < x.2))).mergeSort (fun x y => decide (y.2 ≤ x.2)))
    (st.1, st.2, sv.2) h ?step
  case step =>
    intro st2 ac hac hst2
    simp only []
    by_cases h1 : st2.2.2 ≤ 0
    · rw [if_pos h1]
      exact hst2
    · rw [if_neg h1]
      by_cases h2 : 0 < min st2.2.2 ac.2
      · rw [if_pos h2]
        exact mapSet_valsNN _ _ _ hst2 (le_of_lt h2)
      · rw [if_neg h2]
        exact hst2
  · exact main

/-- Output rows built from a non-negative allocation map: `targetShares`
is never set and `targetAmount` is a non-negative value. -/
theorem resultRowsFor_NN (symbols : List Sym) (holdings : List Holding)
    (priceMap : List (String × ℚ)) (alloc : AllocMap) (aName : String)
    (hal : valsNN alloc) :
    ∀ r ∈ resultRowsFor symbols holdings priceMap alloc aName,
      r.targetShares = none ∧ ∃ x, r.targetAmount = some x ∧ 0 ≤ x := by
  intro r hr
  unfold resultRowsFor at hr
  rcases List.mem_append.mp hr with hr1 | hr2
  · obtain ⟨sym, hsym, hmap⟩ := List.mem_filterMap.mp hr1
    cases htp : sym.targetPercent with
    | none =>
      rw [htp] at hmap
      cases hmap
    | some p =>
      rw [htp] at hmap
      obtain rfl := Option.some.inj hmap
      exact ⟨rfl, (mapGet alloc (sym.name, aName)).getD 0, rfl,
        mapGet_getD_nonneg _ _ hal⟩
  · obtain ⟨h0, hh0, hmap⟩ := List.mem_filterMap.mp hr2
    by_cases hacc : h0.account = aName
    · rw [if_pos hacc] at hmap
      cases hfind : symbols.find? (fun s => decide (s.name = h0.symbol)) with
      | none =>
        rw [hfind] at hmap
        obtain rfl := Option.some.inj hmap
        exact ⟨rfl, 0, rfl, le_refl 0⟩
      | some sym =>
        rw [hfind] at hmap
        have hmap2 : (match sym.targetPercent with
            | some _ => (none : Option Holding)
            | none => some { symbol := h0.symbol, account := aName, shares := h0.shares,
                             price := h0.price, amount := h0.amount,
                             targetAmount := some 0 }) = some r := hmap
        cases htp : sym.targetPercent with
        | none =>
          rw [htp] at hmap2
          obtain rfl := Option.some.inj hmap2
          exact ⟨rfl, 0, rfl, le_refl 0⟩
        | some p =>
          rw [htp] at hmap2
          cases hmap2
    · rw [if_neg hacc] at hmap
      cases hmap

/-- Consolidate never produces a negative `targetAmount` and never sets
`targetShares` — unconditionally. -/
theorem calculateRebalance_NN (symbols : List Sym) (accounts : List Account)
    (holdings : List Holding) :
    ∀ r ∈ calculateRebalance symbols accounts holdings,
      r.targetShares = none ∧ ∃ x, r.targetAmount = some x ∧ 0 ≤ x := by
  intro r hr
  unfold calculateRebalance at hr
  simp only [] at hr
  obtain ⟨a, ha, hr2⟩ := List.mem_flatMap.mp hr
  refine resultRowsFor_NN _ _ _ _ _ ?_ r hr2
  refine foldl_inv (fun (st2 : AllocMap × List (String × ℚ)) => valsNN st2.1) _ _ _
    (fun e he => absurd he (List.not_mem_nil e)) ?_
  intro st2 sv hsv hst2
  exact consolidateSymbol_NN _ st2 sv hst2

/-- The Minimize-Trades sell branch keeps allocation values
non-negative: each write is `amount - min(remaining, amount) ≥ 0`. -/
theorem minTradesSell_NN (symbolName : String) (symbolHoldings : List SymHolding)
    (alloc : AllocMap) (delta : ℚ) (h : valsNN alloc) :
    valsNN (minTradesSell symbolName symbolHoldings alloc delta) := by
  have main := foldl_inv
    (fun (st : AllocMap × ℚ) => valsNN st.1)
    (fun (st : AllocMap × ℚ) (sh : SymHolding) =>
      if st.2 ≤ 0 then st
      else
        (mapSet st.1 (symbolName, sh.account) (sh.amount - min st.2 sh.amount),
         st.2 - min st.2 sh.amount))
    symbolHoldings (alloc, |delta|) h ?step
  case step =>
    intro st sh hsh hst
    simp only []
    by_cases h1 : st.2 ≤ 0
    · rw [if_pos h1]
      exact hst
    · rw [if_neg h1]
      refine mapSet_valsNN _ _ _ hst ?_
      have h2 := min_le_right st.2 sh.amount
      linarith
  · exact main

/-- The Minimize-Trades buy branch keeps allocation values non-negative,
given the symbol holdings have non-negative amounts. -/
theorem minTradesBuy_NN (allAccounts : List String) (accountTotal : String → ℚ)
    (symbolName : String) (symbolHoldings : List SymHolding)
    (alloc : AllocMap) (delta : ℚ) (h : valsNN alloc)
    (hsh : ∀ sh ∈ symbolHoldings, 0 ≤ sh.amount) :
    valsNN (minTradesBuy allAccounts accountTotal symbolName symbolHoldings alloc delta) := by
  have hphase1 := foldl_inv
    (fun (st : AllocMap × ℚ) => valsNN st.1)
    (fun (st : AllocMap × ℚ) (sh : SymHolding) =>
      if st.2 ≤ 0 then st
      else
        if 1 < accountTotal sh.account - usedOf st.1 sh.account then
          (mapSet st.1 (symbolName, sh.account)
             (sh.amount + min st.2 (accountTotal sh.account - usedOf st.1 sh.account)),
           st.2 - min st.2 (accountTotal sh.account - usedOf st.1 sh.account))
        else st)
    (symbolHoldings.mergeSort (fun x y => decide (y.amount ≤ x.amount)))
    (alloc, delta) h ?step1
  case step1 =>
    intro st sh hshm hst
    simp only []
    by_cases h1 : st.2 ≤ 0
    · rw [if_pos h1]
      exact hst
    · rw [if_neg h1]
      by_cases h2 : 1 < accountTotal sh.account - usedOf st.1 sh.account
      · rw [if_pos h2]
        refine mapSet_valsNN _ _ _ hst ?_
        have hm : 0 ≤ sh.amount := hsh sh (List.mem_mergeSort.mp hshm)
        have hmin : 0 ≤ min st.2 (accountTotal sh.account - usedOf st.1 sh.account) :=
          le_min (by linarith) (by linarith)
        linarith
      · rw [if_neg h2]
        exact hst
  have hspill : ∀ (lst : List (String × ℚ)) (start : AllocMap × ℚ), valsNN start.1 →
      valsNN ((lst.foldl
        (fun (st : AllocMap × ℚ) (ac : String × ℚ) =>
          if st.2 ≤ 0 then st
          else
            if 1 < accountTotal ac.1 - usedOf st.1 ac.1 then
              (mapSet st.1 (symbolName, ac.1)
                 ((mapGet st.1 (symbolName, ac.1)).getD 0
                   + min st.2 (accountTotal ac.1 - usedOf st.1 ac.1)),
               st.2 - min st.2 (accountTotal ac.1 - usedOf st.1 ac.1))
            else st)
        start).1) := by
    intro lst start hstart
    refine foldl_inv (fun (st : AllocMap × ℚ) => valsNN st.1) _ lst start hstart ?_
    intro st ac hac hst
    by_cases h1 : st.2 ≤ 0
    · rw [if_pos h1]
      exact hst
    · rw [if_neg h1]
      by_cases h2 : 1 < accountTotal ac.1 - usedOf st.1 ac.1
      · rw [if_pos h2]
        refine mapSet_valsNN _ _ _ hst ?_
        have hcur : 0 ≤ (mapGet st.1 (symbolName, ac.1)).getD 0 :=
          mapGet_getD_nonneg _ _ hst
        have hmin : 0 ≤ min st.2 (accountTotal ac.1 - usedOf st.1 ac.1) :=
          le_min (by linarith) (by linarith)
        linarith
      · rw [if_neg h2]
        exact hst
  unfold minTradesBuy
  simp only []
  split_ifs with hrem
  · exact hspill _ _ hphase1
  · exact hphase1

/-- One symbol pass of Minimize-Trades keeps allocation values
non-negative (the working holdings come from a `0 < amount` filter). -/
theorem minTradesSymbolPass_NN (allAccounts : List String) (accountTotal : String → ℚ)
    (priceMap : List (String × ℚ)) (totalValue : ℚ) (holdings : List Holding)
    (alloc : AllocMap) (sv : String × ℚ) (h : valsNN alloc) :
    valsNN (minTradesSymbolPass allAccounts accountTotal priceMap totalValue
      holdings alloc sv) := by
  unfold minTradesSymbolPass
  simp only []
  split_ifs with h1 h2
  · exact h
  · exact minTradesSell_NN _ _ _ _ h
  · refine minTradesBuy_NN _ _ _ _ _ _ h ?_
    intro sh hsh
    rw [List.mem_mergeSort] at hsh
    obtain ⟨h0, hh0, rfl⟩ := List.mem_map.mp hsh
    have hf := List.of_mem_filter hh0
    simp only [decide_eq_true_eq] at hf
    exact le_of_lt hf.2

/-- The reconciliation pass clamps every write at zero. -/
theorem minTradesReconcile_NN (accountTotal : String → ℚ) (alloc : AllocMap)
    (account : String) (h : valsNN alloc) :
    valsNN (minTradesReconcile accountTotal alloc account) := by
  unfold minTradesReconcile
  simp only []
  split_ifs with h1 h2
  · exact h
  · exact h
  · refine foldl_inv (fun (al : AllocMap) => valsNN al) _ _ alloc h ?_
    intro al e he hal
    exact mapSet_valsNN _ _ _ hal (le_max_left 0 _)

/-- The new-symbol pass only writes positive amounts. -/
theorem minTradesNewSymbol_NN (allAccounts : List String) (accountTotal : String → ℚ)
    (alloc : AllocMap) (sv : String × ℚ) (h : valsNN alloc) :
    valsNN (minTradesNewSymbol allAccounts accountTotal alloc sv) := by
  unfold minTradesNewSymbol
  simp only []
  split_ifs with h1
  · refine foldl_inv (fun (st : AllocMap × ℚ) => valsNN st.1) _ _ (alloc, sv.2) h ?_
    intro st ac hac hst
    by_cases h2 : st.2 ≤ 0
    · rw [if_pos h2]
      exact hst
    · rw [if_neg h2]
      refine mapSet_valsNN _ _ _ hst ?_
      have hm : (1 : ℚ) < ac.2 := by
        rw [List.mem_mergeSort] at hac
        have hf := List.of_mem_filter hac
        simpa using hf
      exact le_min (by linarith) (by linarith)
  · exact h

/-- Minimize-Trades never produces a negative `targetAmount` and never
sets `targetShares`, given non-negative input amounts. -/
theorem calculateRebalanceMinTrades_NN (symbols : List Sym) (accounts : List Account)
    (holdings : List Holding) (hamt : ∀ h ∈ holdings, 0 ≤ h.amount) :
    ∀ r ∈ calculateRebalanceMinTrades symbols accounts holdings,
      r.targetShares = none ∧ ∃ x, r.targetAmount = some x ∧ 0 ≤ x := by
  intro r hr
  unfold calculateRebalanceMinTrades at hr
  simp only [] at hr
  obtain ⟨a, ha, hr2⟩ := List.mem_flatMap.mp hr
  refine resultRowsFor_NN _ _ _ _ _ ?_ r hr2
  refine foldl_inv (fun (al : AllocMap) => valsNN al) _ _ _ ?_
    (fun al sv hsv hal => minTradesNewSymbol_NN _ _ al sv hal)
  refine foldl_inv (fun (al : AllocMap) => valsNN al) _ _ _ ?_
    (fun al a2 ha2 hal => minTradesReconcile_NN _ al a2 hal)
  refine foldl_inv (fun (al : AllocMap) => valsNN al) _ _ _ ?_
    (fun al sd hsd hal =>
      minTradesSymbolPass_NN _ _ _ _ _ al (sd.1, sd.2.1) hal)
  refine foldl_inv (fun (al : AllocMap) => valsNN al) _ holdings _
    (fun e he => absurd he (List.not_mem_nil e)) ?_
  intro m h0 hh0 hm
  cases hfind : symbols.find? (fun s => decide (s.name = h0.symbol)) with
  | none => exact hm
  | some s =>
    show valsNN (match s.targetPercent with
      | some _ => mapSet m (h0.symbol, h0.account) h0.amount
      | none => m)
    cases htp : s.targetPercent with
    | none => exact hm
    | some p => exact mapSet_valsNN _ _ _ hm (hamt h0 hh0)

/-- Working-row invariant for the converter: non-negative share count,
non-negative target amount, non-negative price. -/
def rowOK (r : RRow) : Prop := 0 ≤ r.t ∧ 0 ≤ r.ta ∧ 0 ≤ r.base.price

theorem ratFloor_nonneg (q : ℚ) (h : 0 ≤ q) : 0 ≤ q.floor :=
  Rat.le_floor.mpr (by exact_mod_cast h)

theorem idealOf_nonneg (price : ℚ) (h : Holding) (hp : 0 ≤ price)
    (hs : 0 ≤ h.shares) (hta : 0 ≤ h.targetAmount.getD 0) : 0 ≤ idealOf price h := by
  unfold idealOf
  cases hm : h.targetAmount with
  | none => exact hs
  | some ta =>
    rw [hm] at hta
    exact div_nonneg hta hp

/-- Largest-remainder rounding of a group with non-negative data yields
rows satisfying the working-row invariant. -/
theorem convertGroup_rowOK (group : List Holding)
    (hall : ∀ h ∈ group, 0 ≤ h.shares ∧ 0 ≤ h.price ∧ 0 ≤ h.targetAmount.getD 0) :
    ∀ r ∈ convertGroup group, rowOK r := by
  intro r hr
  unfold convertGroup at hr
  cases group with
  | nil => cases hr
  | cons g0 gs =>
    simp only [] at hr
    obtain ⟨i, hi, rfl⟩ := List.mem_map.mp hr
    have hprice : 0 ≤ g0.price := (hall g0 (List.mem_cons_self g0 gs)).2.1
    have hideal : ∀ j ∈ ((g0 :: gs).map (fun h =>
        ({ holding := h, ideal := idealOf g0.price h, floored := (idealOf g0.price h).floor,
           remainder := idealOf g0.price h - ((idealOf g0.price h).floor : ℚ) }
          : IdealItem))),
        0 ≤ j.floored ∧ 0 ≤ j.holding.price := by
      intro j hj
      obtain ⟨h0, hh0, rfl⟩ := List.mem_map.mp hj
      obtain ⟨hs, hp, hta⟩ := hall h0 hh0
      exact ⟨ratFloor_nonneg _ (idealOf_nonneg g0.price h0 hprice hs hta), hp⟩
    rcases List.mem_append.mp hi with hity | hidr
    · obtain ⟨j, hj, rfl⟩ := List.mem_map.mp hity
      have hjs := List.take_subset _ _ hj
      have hji := List.mem_mergeSort.mp hjs
      obtain ⟨hjf, hjp⟩ := hideal j hji
      refine ⟨?_, ?_, hjp⟩
      · show (0 : ℤ) ≤ j.floored + 1
        omega
      · show (0 : ℚ) ≤ ((j.floored + 1 : ℤ) : ℚ) * g0.price
        refine mul_nonneg ?_ hprice
        exact_mod_cast (by omega : (0 : ℤ) ≤ j.floored + 1)
    · have hjs := List.drop_subset _ _ hidr
      have hji := List.mem_mergeSort.mp hjs
      obtain ⟨hjf, hjp⟩ := hideal i hji
      refine ⟨hjf, ?_, hjp⟩
      show (0 : ℚ) ≤ (i.floored : ℚ) * g0.price
      refine mul_nonneg ?_ hprice
      exact_mod_cast hjf

theorem roundedRows_rowOK (holdings : List Holding)
    (hall : ∀ h ∈ holdings, 0 ≤ h.shares ∧ 0 ≤ h.price ∧ 0 ≤ h.targetAmount.getD 0) :
    ∀ r ∈ roundedRows holdings, rowOK r := by
  intro r hr
  unfold roundedRows at hr
  obtain ⟨s, hs, hr2⟩ := List.mem_flatMap.mp hr
  refine convertGroup_rowOK _ ?_ r hr2
  intro h hh
  exact hall h (List.mem_of_mem_filter hh)

theorem decAt_rowOK (rows : List RRow) (i : ℕ) (r : RRow)
    (hget : rows.get? i = some r) (hpos : 0 < r.t)
    (hall : ∀ r2 ∈ rows, rowOK r2) :
    ∀ r2 ∈ decAt rows i, rowOK r2 := by
  unfold decAt
  rw [hget]
  intro r2 hr2
  rcases List.mem_or_eq_of_mem_set hr2 with hmem | heq
  · exact hall r2 hmem
  · subst heq
    have hrOK := hall r (List.get?_mem hget)
    refine ⟨?_, ?_, hrOK.2.2⟩
    · show (0 : ℤ) ≤ r.t - 1
      omega
    · show (0 : ℚ) ≤ ((r.t - 1 : ℤ) : ℚ) * r.base.price
      refine mul_nonneg ?_ hrOK.2.2
      exact_mod_cast (by omega : (0 : ℤ) ≤ r.t - 1)

theorem onePass_rowOK (accounts : List String) (budget pre : String → ℚ)
    (rows : List RRow) (hall : ∀ r ∈ rows, rowOK r) :
    ∀ r ∈ (onePass accounts budget pre rows).1, rowOK r := by
  have main := foldl_inv
    (fun (st : List RRow × Bool) => ∀ r ∈ st.1, rowOK r)
    (fun (st : List RRow × Bool) a =>
      if pre a > budget a + 1 / 100 then st
      else if accountTargetOf rows a > budget a + 1 / 100 then
        match findBest st.1 a with
        | some i => (decAt st.1 i, true)
        | none => st
      else st)
    accounts (rows, false) hall ?step
  case step =>
    intro st a ha hst
    simp only []
    by_cases h1 : pre a > budget a + 1 / 100
    · rw [if_pos h1]
      exact hst
    · rw [if_neg h1]
      by_cases h2 : accountTargetOf rows a > budget a + 1 / 100
      · rw [if_pos h2]
        cases hfb : findBest st.1 a with
        | none => exact hst
        | some i =>
          obtain ⟨r, hget, _, hpos⟩ := findBest_some st.1 a hfb
          exact decAt_rowOK st.1 i r hget hpos hst
      · rw [if_neg h2]
        exact hst
  · exact main

theorem repairLoop_rowOK (accounts : List String) (budget pre : String → ℚ) :
    ∀ (fuel : ℕ) (rows : List RRow), (∀ r ∈ rows, rowOK r) →
      ∀ r ∈ repairLoop accounts budget pre fuel rows, rowOK r := by
  intro fuel
  induction fuel with
  | zero => intro rows h; exact h
  | succ n ih =>
    intro rows h
    show ∀ r ∈ (if (onePass accounts budget pre rows).2 = true then
        repairLoop accounts budget pre n (onePass accounts budget pre rows).1
      else (onePass accounts budget pre rows).1), rowOK r
    by_cases hc : (onePass accounts budget pre rows).2 = true
    · rw [if_pos hc]
      exact ih _ (onePass_rowOK accounts budget pre rows h)
    · rw [if_neg hc]
      exact onePass_rowOK accounts budget pre rows h

/-- The whole-share converter yields non-negative `targetShares` and
`targetAmount` on non-negative inputs. -/
theorem convertToWholeShares_NN (holdings : List Holding)
    (hall : ∀ h ∈ holdings, 0 ≤ h.shares ∧ 0 ≤ h.price ∧ 0 ≤ h.targetAmount.getD 0) :
    ∀ r ∈ convertToWholeShares holdings,
      ∃ s a, r.targetShares = some s ∧ r.targetAmount = some a ∧ 0 ≤ s ∧ 0 ≤ a := by
  intro r hr
  unfold convertToWholeShares at hr
  simp only [] at hr
  obtain ⟨w, hw, rfl⟩ := List.mem_map.mp hr
  have hwOK : rowOK w := repairLoop_rowOK _ _ _ _ _ (roundedRows_rowOK holdings hall) w hw
  exact ⟨(w.t : ℚ), w.ta, rfl, rfl, by exact_mod_cast hwOK.1, hwOK.2.1⟩

/-- C9: non-negativity.  Consolidate rows always carry a non-negative
`targetAmount` and no `targetShares`; Minimize-Trades rows do too, given
non-negative input amounts; and the whole-share converter yields
non-negative `targetShares` and `targetAmount` given non-negative input
shares, prices and target amounts. -/
theorem C9_nonnegativity (symbols : List Sym) (accounts : List Account)
    (holdings : List Holding) :
    (∀ r ∈ calculateRebalance symbols accounts holdings,
        r.targetShares = none ∧ ∃ x, r.targetAmount = some x ∧ 0 ≤ x)
    ∧ ((∀ h ∈ holdings, 0 ≤ h.amount) →
        ∀ r ∈ calculateRebalanceMinTrades symbols accounts holdings,
          r.targetShares = none ∧ ∃ x, r.targetAmount = some x ∧ 0 ≤ x)
    ∧ ((∀ h ∈ holdings, 0 ≤ h.shares ∧ 0 ≤ h.price ∧ 0 ≤ h.targetAmount.getD 0) →
        ∀ r ∈ convertToWholeShares holdings,
          ∃ s a, r.targetShares = some s ∧ r.targetAmount = some a ∧ 0 ≤ s ∧ 0 ≤ a) :=
  ⟨calculateRebalance_NN symbols accounts holdings,
   fun hamt => calculateRebalanceMinTrades_NN symbols accounts holdings hamt,
   fun hall => convertToWholeShares_NN holdings hall⟩

/-- Concrete two-symbol, one-account input for the C9 witness. -/
def cxSyms9 : List Sym :=
  [{ name := "A", price := 10, targetPercent := some 60 },
   { name := "B", price := 20, targetPercent := some 40 }]

/-- Holdings for the C9 witness. -/
def cxHolds9 : List Holding :=
  [{ account := "a1", symbol := "A", shares := 5, price := 10, amount := 50 },
   { account := "a1", symbol := "B", shares := 5, price := 20, amount := 100 }]

/-- Witness for C9: the non-negativity theorem applies at a concrete
portfolio. -/
theorem C9_nonnegativity_witness :
    (∀ r ∈ calculateRebalance cxSyms9 [] cxHolds9,
        r.targetShares = none ∧ ∃ x, r.targetAmount = some x ∧ 0 ≤ x)
    ∧ (∀ r ∈ calculateRebalanceMinTrades cxSyms9 [] cxHolds9,
        r.targetShares = none ∧ ∃ x, r.targetAmount = some x ∧ 0 ≤ x)
    ∧ (∀ r ∈ convertToWholeShares cxHolds9,
        ∃ s a, r.targetShares = some s ∧ r.targetAmount = some a ∧ 0 ≤ s ∧ 0 ≤ a) := by
  obtain ⟨h1, h2, h3⟩ := C9_nonnegativity cxSyms9 [] cxHolds9
  exact ⟨h1, h2 (by decide), h3 (by decide)⟩

/-! ## C2: post-rounding budget non-violation -/

/-- One account step of the budget-repair pass, as a named function
(definitionally the body of `onePass`). -/
def passStep (budget pre : String → ℚ) (rows : List RRow)
    (st : List RRow × Bool) (a : String) : List RRow × Bool :=
  if pre a > budget a + 1 / 100 then st
  else if accountTargetOf rows a > budget a + 1 / 100 then
    match findBest st.1 a with
    | some i => (decAt st.1 i, true)
    | none => st
  else st

theorem onePass_eq_foldl (accounts : List String) (budget pre : String → ℚ)
    (rows : List RRow) :
    onePass accounts budget pre rows
      = accounts.foldl (passStep budget pre rows) (rows, false) := rfl

theorem passStep_true_absorb (budget pre : String → ℚ) (rows : List RRow)
    (l : List String) (st : List RRow × Bool) (h : st.2 = true) :
    (l.foldl (passStep budget pre rows) st).2 = true := by
  refine foldl_inv (fun (s2 : List RRow × Bool) => s2.2 = true) _ l st h ?_
  intro s2 a ha hs2
  unfold passStep
  split_ifs with h1 h2
  · exact hs2
  · cases hfb : findBest s2.1 a with
    | some i => rfl
    | none => exact hs2
  · exact hs2

/-- If a full repair pass reports no change, it changed nothing and every
account was either skipped (pre-rounding over budget), already within
budget, or had no decrementable row. -/
theorem passStep_foldl_false (budget pre : String → ℚ) (rows : List RRow) :
    ∀ (l : List String) (st : List RRow × Bool),
      (l.foldl (passStep budget pre rows) st).2 = false →
      l.foldl (passStep budget pre rows) st = st
      ∧ ∀ a ∈ l, pre a > budget a + 1 / 100
          ∨ accountTargetOf rows a ≤ budget a + 1 / 100
          ∨ findBest st.1 a = none := by
  intro l
  induction l with
  | nil =>
    intro st h
    exact ⟨rfl, fun a ha => absurd ha (List.not_mem_nil a)⟩
  | cons a0 rest ih =>
    intro st h
    rw [List.foldl_cons] at h ⊢
    by_cases h1 : pre a0 > budget a0 + 1 / 100
    · have he : passStep budget pre rows st a0 = st := by
        unfold passStep
        rw [if_pos h1]
      rw [he] at h ⊢
      obtain ⟨hfix, hrest⟩ := ih st h
      refine ⟨hfix, ?_⟩
      intro a ha
      rcases List.mem_cons.mp ha with rfl | hmem
      · exact Or.inl h1
      · exact hrest a hmem
    · by_cases h2 : accountTargetOf rows a0 > budget a0 + 1 / 100
      · cases hfb : findBest st.1 a0 with
        | some i =>
          have he : passStep budget pre rows st a0 = (decAt st.1 i, true) := by
            unfold passStep
            rw [if_neg h1, if_pos h2, hfb]
          rw [he] at h
          have habs := passStep_true_absorb budget pre rows rest (decAt st.1 i, true) rfl
          rw [h] at habs
          cases habs
        | none =>
          have he : passStep budget pre rows st a0 = st := by
            unfold passStep
            rw [if_neg h1, if_pos h2, hfb]
          rw [he] at h ⊢
          obtain ⟨hfix, hrest⟩ := ih st h
          refine ⟨hfix, ?_⟩
          intro a ha
          rcases List.mem_cons.mp ha with rfl | hmem
          · exact Or.inr (Or.inr hfb)
          · exact hrest a hmem
      · have he : passStep budget pre rows st a0 = st := by
          unfold passStep
          rw [if_neg h1, if_neg h2]
        rw [he] at h ⊢
        obtain ⟨hfix, hrest⟩ := ih st h
        refine ⟨hfix, ?_⟩
        intro a ha
        rcases List.mem_cons.mp ha with rfl | hmem
        · exact Or.inr (Or.inl (le_of_not_lt h2))
        · exact hrest a hmem

theorem onePass_false_eq (accounts : List String) (budget pre : String → ℚ)
    (rows : List RRow) (h : (onePass accounts budget pre rows).2 = false) :
    (onePass accounts budget pre rows).1 = rows := by
  rw [onePass_eq_foldl] at h ⊢
  rw [(passStep_foldl_false budget pre rows accounts (rows, false) h).1]

theorem onePass_false_accounts (accounts : List String) (budget pre : String → ℚ)
    (rows : List RRow) (h : (onePass accounts budget pre rows).2 = false) :
    ∀ a ∈ accounts, pre a > budget a + 1 / 100
      ∨ accountTargetOf rows a ≤ budget a + 1 / 100
      ∨ findBest rows a = none := by
  rw [onePass_eq_foldl] at h
  exact (passStep_foldl_false budget pre rows accounts (rows, false) h).2

/-- Once the fuel exceeds the shares measure, the repair loop's result is
a fixpoint: one more pass reports no change. -/
theorem repairLoop_fixpoint (accounts : List String) (budget pre : String → ℚ) :
    ∀ (fuel : ℕ) (rows : List RRow), sharesMeasure rows < fuel →
      (onePass accounts budget pre (repairLoop accounts budget pre fuel rows)).2
        = false := by
  intro fuel
  induction fuel with
  | zero => intro rows h; omega
  | succ n ih =>
    intro rows h
    have hshow : repairLoop accounts budget pre (n + 1) rows
        = (if (onePass accounts budget pre rows).2 = true then
            repairLoop accounts budget pre n (onePass accounts budget pre rows).1
          else (onePass accounts budget pre rows).1) := rfl
    rw [hshow]
    by_cases hc : (onePass accounts budget pre rows).2 = true
    · rw [if_pos hc]
      have hlt := (onePass_measure accounts budget pre rows).2 hc
      exact ih _ (by omega)
    · rw [if_neg hc]
      have hc2 : (onePass accounts budget pre rows).2 = false := by
        revert hc
        cases (onePass accounts budget pre rows).2 <;> simp
      rw [onePass_false_eq accounts budget pre rows hc2]
      exact hc2

/-- One row step of the repair pass's best-row search, as a named
function (definitionally the body of `findBest`). -/
def findBestStep (a : String) (best : Option (ℕ × ℚ × Bool)) (ir : ℕ × RRow) :
    Option (ℕ × ℚ × Bool) :=
  if ¬(ir.2.base.account = a) ∨ ir.2.t ≤ 0 then best
  else
    let wasUp := decide (ir.2.fl < ir.2.t)
    match best with
    | none => some (ir.1, ir.2.base.price, wasUp)
    | some (bi, bp, bup) =>
      if wasUp = true ∧ bup = false then some (ir.1, ir.2.base.price, wasUp)
      else if wasUp = bup ∧ ir.2.base.price < bp then some (ir.1, ir.2.base.price, wasUp)
      else some (bi, bp, bup)

theorem findBest_eq (rows : List RRow) (a : String) :
    findBest rows a = (rows.enum.foldl (findBestStep a) none).map (·.1) := rfl

theorem findBestStep_isSome (a : String) (best : Option (ℕ × ℚ × Bool)) (ir : ℕ × RRow)
    (h : best.isSome = true) : (findBestStep a best ir).isSome = true := by
  unfold findBestStep
  split_ifs with h1
  · exact h
  · cases best with
    | none => exact rfl
    | some b =>
      obtain ⟨bi, bp, bup⟩ := b
      show (if decide (ir.2.fl < ir.2.t) = true ∧ bup = false then
          some (ir.1, ir.2.base.price, decide (ir.2.fl < ir.2.t))
        else if decide (ir.2.fl < ir.2.t) = bup ∧ ir.2.base.price < bp then
          some (ir.1, ir.2.base.price, decide (ir.2.fl < ir.2.t))
        else some (bi, bp, bup)).isSome = true
      split_ifs <;> rfl

theorem findBestStep_eligible (a : String) (best : Option (ℕ × ℚ × Bool)) (ir : ℕ × RRow)
    (hacc : ir.2.base.account = a) (hpos : 0 < ir.2.t) :
    (findBestStep a best ir).isSome = true := by
  unfold findBestStep
  rw [if_neg (by push_neg; exact ⟨hacc, hpos⟩)]
  cases best with
  | none => rfl
  | some b =>
    obtain ⟨bi, bp, bup⟩ := b
    show (if decide (ir.2.fl < ir.2.t) = true ∧ bup = false then
        some (ir.1, ir.2.base.price, decide (ir.2.fl < ir.2.t))
      else if decide (ir.2.fl < ir.2.t) = bup ∧ ir.2.base.price < bp then
        some (ir.1, ir.2.base.price, decide (ir.2.fl < ir.2.t))
      else some (bi, bp, bup)).isSome = true
    split_ifs <;> rfl

theorem findBestFold_isSome (a : String) :
    ∀ (l : List (ℕ × RRow)) (init : Option (ℕ × ℚ × Bool)),
      init.isSome = true → (l.foldl (findBestStep a) init).isSome = true := by
  intro l
  induction l with
  | nil => intro init h; exact h
  | cons x xs ih =>
    intro init h
    rw [List.foldl_cons]
    exact ih _ (findBestStep_isSome a init x h)

theorem findBestFold_eligible (a : String) :
    ∀ (l : List (ℕ × RRow)) (init : Option (ℕ × ℚ × Bool)),
      (∃ p ∈ l, p.2.base.account = a ∧ 0 < p.2.t) →
      (l.foldl (findBestStep a) init).isSome = true := by
  intro l
  induction l with
  | nil =>
    intro init h
    obtain ⟨p, hp, _⟩ := h
    exact absurd hp (List.not_mem_nil p)
  | cons x xs ih =>
    intro init h
    rw [List.foldl_cons]
    obtain ⟨p, hp, hel⟩ := h
    rcases List.mem_cons.mp hp with rfl | hmem
    · exact findBestFold_isSome a xs _ (findBestStep_eligible a init p hel.1 hel.2)
    · exact ih _ ⟨p, hmem, hel⟩

/-- If the search finds no row, every row of the account has
non-positive working shares. -/
theorem findBest_none (rows : List RRow) (a : String)
    (h : findBest rows a = none) :
    ∀ r ∈ rows, r.base.account = a → r.t ≤ 0 := by
  intro r hr hacc
  by_contra hpos
  push_neg at hpos
  obtain ⟨n, hn⟩ := List.get_of_mem hr
  have henum : ((n : ℕ), r) ∈ rows.enum := by
    rw [List.mk_mem_enum_iff_getElem?, List.getElem?_eq_getElem n.isLt]
    exact congrArg some hn
  have hsome := findBestFold_eligible a rows.enum none ⟨((n : ℕ), r), henum, hacc, hpos⟩
  rw [findBest_eq, Option.map_eq_none'] at h
  rw [h] at hsome
  simp at hsome

theorem qsum_nonpos {l : List ℚ} (h : ∀ x ∈ l, x ≤ 0) : qsum l ≤ 0 := by
  induction l with
  | nil => exact le_refl 0
  | cons x xs ih =>
    rw [qsum_cons]
    have h1 := h x (List.mem_cons_self x xs)
    have h2 := ih (fun y hy => h y (List.mem_cons_of_mem x hy))
    linarith

/-- Every working row carries a holding of the input group. -/
theorem convertGroup_base_mem (group : List Holding) :
    ∀ r ∈ convertGroup group, r.base ∈ group := by
  intro r hr
  unfold convertGroup at hr
  cases group with
  | nil => cases hr
  | cons g0 gs =>
    simp only [] at hr
    obtain ⟨i, hi, rfl⟩ := List.mem_map.mp hr
    show i.holding ∈ g0 :: gs
    have hmem : ∀ j ∈ ((g0 :: gs).map (fun h =>
        ({ holding := h, ideal := idealOf g0.price h, floored := (idealOf g0.price h).floor,
           remainder := idealOf g0.price h - ((idealOf g0.price h).floor : ℚ) }
          : IdealItem))), j.holding ∈ g0 :: gs := by
      intro j hj
      obtain ⟨h0, hh0, rfl⟩ := List.mem_map.mp hj
      exact hh0
    rcases List.mem_append.mp hi with hity | hidr
    · obtain ⟨j, hj, rfl⟩ := List.mem_map.mp hity
      exact hmem j (List.mem_mergeSort.mp (List.take_subset _ _ hj))
    · exact hmem i (List.mem_mergeSort.mp (List.drop_subset _ _ hidr))

theorem roundedRows_basePrice (holdings : List Holding)
    (hpr : ∀ h ∈ holdings, 0 ≤ h.price) :
    ∀ r ∈ roundedRows holdings, 0 ≤ r.base.price := by
  intro r hr
  unfold roundedRows at hr
  obtain ⟨s, hs, hr2⟩ := List.mem_flatMap.mp hr
  exact hpr _ (List.mem_of_mem_filter (convertGroup_base_mem _ r hr2))

theorem decAt_basePrice (rows : List RRow) (i : ℕ)
    (hall : ∀ r ∈ rows, 0 ≤ r.base.price) :
    ∀ r2 ∈ decAt rows i, 0 ≤ r2.base.price := by
  unfold decAt
  cases hget : rows.get? i with
  | none => exact hall
  | some r =>
    intro r2 hr2
    rcases List.mem_or_eq_of_mem_set hr2 with hmem | heq
    · exact hall r2 hmem
    · subst heq
      exact hall r (List.get?_mem hget)

theorem onePass_basePrice (accounts : List String) (budget pre : String → ℚ)
    (rows : List RRow) (hall : ∀ r ∈ rows, 0 ≤ r.base.price) :
    ∀ r ∈ (onePass accounts budget pre rows).1, 0 ≤ r.base.price := by
  have main := foldl_inv
    (fun (st : List RRow × Bool) => ∀ r ∈ st.1, 0 ≤ r.base.price)
    (passStep budget pre rows) accounts (rows, false) hall ?step
  case step =>
    intro st a ha hst
    unfold passStep
    split_ifs with h1 h2
    · exact hst
    · cases hfb : findBest st.1 a with
      | none => exact hst
      | some i => exact decAt_basePrice st.1 i hst
    · exact hst
  · rw [onePass_eq_foldl]
    exact main

theorem repairLoop_basePrice (accounts : List String) (budget pre : String → ℚ) :
    ∀ (fuel : ℕ) (rows : List RRow), (∀ r ∈ rows, 0 ≤ r.base.price) →
      ∀ r ∈ repairLoop accounts budget pre fuel rows, 0 ≤ r.base.price := by
  intro fuel
  induction fuel with
  | zero => intro rows h; exact h
  | succ n ih =>
    intro rows h
    show ∀ r ∈ (if (onePass accounts budget pre rows).2 = true then
        repairLoop accounts budget pre n (onePass accounts budget pre rows).1
      else (onePass accounts budget pre rows).1), 0 ≤ r.base.price
    by_cases hc : (onePass accounts budget pre rows).2 = true
    · rw [if_pos hc]
      exact ih _ (onePass_basePrice accounts budget pre rows h)
    · rw [if_neg hc]
      exact onePass_basePrice accounts budget pre rows h

/-- Rendering working rows back to holdings turns the working target
total into the `targetShares × price` total. -/
theorem outShareValueSum_map_out (rows : List RRow) (a : String) :
    outShareValueSum (rows.map RRow.out) a = accountTargetOf rows a := by
  unfold outShareValueSum accountTargetOf
  rw [List.filter_map, List.map_map]
  congr 1

theorem accountTargetOf_nonpos (rows : List RRow) (a : String)
    (hall : ∀ r ∈ rows, r.base.account = a → r.t ≤ 0)
    (hpr : ∀ r ∈ rows, 0 ≤ r.base.price) :
    accountTargetOf rows a ≤ 0 := by
  unfold accountTargetOf
  refine qsum_nonpos ?_
  intro x hx
  obtain ⟨r, hrf, rfl⟩ := List.mem_map.mp hx
  have hr := List.mem_of_mem_filter hrf
  have hacc := List.of_mem_filter hrf
  simp only [decide_eq_true_eq] at hacc
  have ht : ((r.t : ℚ)) ≤ 0 := by exact_mod_cast hall r hr hacc
  have h2 := mul_le_mul_of_nonneg_right ht (hpr r hr)
  simpa using h2

theorem accountBudgetOf_nonneg (holdings : List Holding) (a : String)
    (hamt : ∀ h ∈ holdings, 0 ≤ h.amount) : 0 ≤ accountBudgetOf holdings a := by
  unfold accountBudgetOf
  refine qsum_nonneg ?_
  intro x hx
  obtain ⟨h0, hf, rfl⟩ := List.mem_map.mp hx
  exact hamt h0 (List.mem_of_mem_filter hf)

/-- Holdings of the C2 counterexample: a negative price makes downward
rounding increase an account's target value past its budget, and the
repair loop cannot fix it (no positive share count to decrement). -/
def cxHolds2c : List Holding :=
  [{ account := "a", symbol := "S", shares := 0, price := -100, amount := 60,
     targetAmount := some 60 }]

/-- C2 counterexample: as stated — for every holdings input — the claim
fails.  With a single holding of price −100 and target amount 60 the
ideal is −0.6 shares, rounded to −1, worth 100 dollars against a
60-dollar budget; the repair loop finds no row with positive shares and
leaves the violation in place. -/
theorem C2_counterexample_negative_price :
    "a" ∈ allAccountsOf cxHolds2c
    ∧ accountPreRoundingOf cxHolds2c "a" ≤ accountBudgetOf cxHolds2c "a" + 1 / 100
    ∧ ¬(outShareValueSum (convertToWholeShares cxHolds2c) "a"
        ≤ accountBudgetOf cxHolds2c "a" + 1 / 100) :=
  ⟨by decide, by decide, by decide⟩

/-- C2 (amended): with non-negative prices and amounts, after whole-share
conversion every account of the portfolio whose pre-rounding target total
was within budget + 0.01 has `Σ targetShares × price` within
budget + 0.01.  At the repair loop's fixpoint each such account either
already satisfies the bound or has no positive share count left, in which
case its target total is non-positive and the bound holds trivially. -/
theorem C2_budget_non_violation (holdings : List Holding)
    (hpr : ∀ h ∈ holdings, 0 ≤ h.price) (hamt : ∀ h ∈ holdings, 0 ≤ h.amount) :
    ∀ a ∈ allAccountsOf holdings,
      accountPreRoundingOf holdings a ≤ accountBudgetOf holdings a + 1 / 100 →
      outShareValueSum (convertToWholeShares holdings) a
        ≤ accountBudgetOf holdings a + 1 / 100 := by
  intro a ha hpre
  have hres : convertToWholeShares holdings
      = ((repairLoop (allAccountsOf holdings) (accountBudgetOf holdings)
          (accountPreRoundingOf holdings) (sharesMeasure (roundedRows holdings) + 1)
          (roundedRows holdings)).map RRow.out) := rfl
  rw [hres, outShareValueSum_map_out]
  have hfix := repairLoop_fixpoint (allAccountsOf holdings) (accountBudgetOf holdings)
    (accountPreRoundingOf holdings) (sharesMeasure (roundedRows holdings) + 1)
    (roundedRows holdings) (by omega)
  have htri := onePass_false_accounts _ _ _ _ hfix a ha
  rcases htri with h1 | h2 | h3
  · exact absurd hpre (not_le.mpr h1)
  · exact h2
  · have hall := findBest_none _ a h3
    have hbp := repairLoop_basePrice (allAccountsOf holdings) (accountBudgetOf holdings)
      (accountPreRoundingOf holdings) (sharesMeasure (roundedRows holdings) + 1)
      (roundedRows holdings) (roundedRows_basePrice holdings hpr)
    have hnp := accountTargetOf_nonpos _ a hall hbp
    have hb := accountBudgetOf_nonneg holdings a hamt
    linarith

/-- Witness for the amended C2: the theorem applies at the concrete
repair example (prices 100, amounts 250). -/
theorem C2_budget_non_violation_witness :
    "a1" ∈ allAccountsOf cxHolds10
    ∧ outShareValueSum (convertToWholeShares cxHolds10) "a1"
        ≤ accountBudgetOf cxHolds10 "a1" + 1 / 100 :=
  ⟨by decide, C2_budget_non_violation cxHolds10 (by decide) (by decide) "a1"
    (by decide) (by decide)⟩

/-! ## C1/C4: Consolidate conservation — utilities -/

theorem qsum_zero {l : List ℚ} (h : ∀ x ∈ l, x = 0) : qsum l = 0 := by
  induction l with
  | nil => rfl
  | cons x xs ih =>
    rw [qsum_cons, h x (List.mem_cons_self x xs),
      ih (fun y hy => h y (List.mem_cons_of_mem x hy)), add_zero]

theorem qsum_map_zero {α : Type} (l : List α) : qsum (l.map (fun _ => (0 : ℚ))) = 0 :=
  qsum_zero (by intro x hx; obtain ⟨y, hy, rfl⟩ := List.mem_map.mp hx; rfl)

theorem qsum_flatMap {α : Type} (l : List α) (f : α → List ℚ) :
    qsum (l.flatMap f) = qsum (l.map (fun x => qsum (f x))) := by
  induction l with
  | nil => rfl
  | cons x xs ih => rw [List.flatMap_cons, qsum_append, List.map_cons, qsum_cons, ih]

theorem qsum_eq_zero_of_nonneg {l : List ℚ} (hpos : ∀ x ∈ l, 0 ≤ x)
    (hz : qsum l = 0) : ∀ x ∈ l, x = 0 := by
  induction l with
  | nil => intro x hx; cases hx
  | cons y ys ih =>
    rw [qsum_cons] at hz
    have hy := hpos y (List.mem_cons_self y ys)
    have hys : ∀ x ∈ ys, 0 ≤ x := fun x hx => hpos x (List.mem_cons_of_mem y hx)
    have hsum := qsum_nonneg hys
    intro x hx
    rcases List.mem_cons.mp hx with rfl | hmem
    · linarith
    · exact ih hys (by linarith) x hmem

theorem qsum_filter_eq {α : Type} (l : List α) (p : α → Bool) (f : α → ℚ)
    (h : ∀ x ∈ l, p x = false → f x = 0) :
    qsum ((l.filter p).map f) = qsum (l.map f) := by
  induction l with
  | nil => rfl
  | cons x xs ih =>
    rw [List.filter_cons]
    have hih := ih (fun y hy => h y (List.mem_cons_of_mem x hy))
    cases hp : p x with
    | true =>
      rw [if_pos rfl]
      rw [List.map_cons, List.map_cons, qsum_cons, qsum_cons, hih]
    | false =>
      rw [if_neg (by simp)]
      rw [List.map_cons, qsum_cons, h x (List.mem_cons_self x xs) hp, hih, zero_add]

theorem nodup_append_singleton {α : Type} {l : List α} {x : α}
    (hl : l.Nodup) (hx : x ∉ l) : (l ++ [x]).Nodup := by
  rw [List.nodup_append]
  exact ⟨hl, List.nodup_singleton x,
    fun a ha hax => hx (by rwa [List.mem_singleton.mp hax] at ha)⟩

theorem mapGet_graph {β : Type} (l : List String) (f : String → β) (a : String)
    (hnd : l.Nodup) (ha : a ∈ l) :
    mapGet (l.map (fun x => (x, f x))) a = some (f a) := by
  induction l with
  | nil => cases ha
  | cons x xs ih =>
    rw [List.nodup_cons] at hnd
    rw [List.map_cons, mapGet_cons]
    rcases List.mem_cons.mp ha with rfl | hmem
    · rw [if_pos rfl]
    · by_cases hax : x = a
      · subst hax
        exact absurd hmem hnd.1
      · rw [if_neg hax]
        exact ih hnd.2 hmem

theorem mapSet_graph {β : Type} (l : List String) (f : String → β) (a0 : String) (v : β)
    (hnd : l.Nodup) (ha : a0 ∈ l) :
    mapSet (l.map (fun x => (x, f x))) a0 v
      = l.map (fun x => (x, if x = a0 then v else f x)) := by
  induction l with
  | nil => cases ha
  | cons x xs ih =>
    rw [List.nodup_cons] at hnd
    rw [List.map_cons, mapSet_cons, List.map_cons]
    rcases List.mem_cons.mp ha with rfl | hmem
    · rw [if_pos rfl, if_pos rfl]
      congr 1
      refine (List.map_congr_left ?_).symm
      intro b hb
      rw [if_neg (by intro hba; exact hnd.1 (hba ▸ hb))]
    · by_cases hx0 : x = a0
      · subst hx0
        exact absurd hmem hnd.1
      · rw [if_neg hx0, if_neg hx0, ih hnd.2 hmem]

theorem qsum_graph_values (l : List String) (f : String → ℚ) :
    qsum ((l.map (fun x => (x, f x))).map (fun e => e.2)) = qsum (l.map f) := by
  rw [List.map_map]
  exact congrArg qsum (List.map_congr_left (fun x hx => rfl))

theorem qsum_map_update {α : Type} [DecidableEq α] :
    ∀ (keys : List α), keys.Nodup → ∀ (k0 : α), k0 ∈ keys → ∀ (v : ℚ) (g : α → ℚ),
      qsum (keys.map (fun k => if k = k0 then v else g k))
        = qsum (keys.map g) - g k0 + v := by
  intro keys
  induction keys with
  | nil => intro _ k0 hk; cases hk
  | cons x xs ih =>
    intro hnd k0 hk v g
    rw [List.nodup_cons] at hnd
    rw [List.map_cons, List.map_cons, qsum_cons, qsum_cons]
    rcases List.mem_cons.mp hk with rfl | hmem
    · rw [if_pos rfl]
      have hxs : xs.map (fun k => if k = k0 then v else g k) = xs.map g := by
        refine List.map_congr_left ?_
        intro b hb
        rw [if_neg (by intro h2; exact hnd.1 (h2 ▸ hb))]
      rw [hxs]
      ring
    · have hx : ¬ (x = k0) := fun h => hnd.1 (h ▸ hmem)
      rw [if_neg hx, ih hnd.2 k0 hmem v g]
      ring

/-- Summing unique-key lookups over a covering set of keys gives the sum
of the map's values. -/
theorem qsum_lookup {α : Type} [DecidableEq α] :
    ∀ (m : List (α × ℚ)) (keys : List α), keys.Nodup → (m.map (·.1)).Nodup →
      (∀ e ∈ m, e.1 ∈ keys) →
      qsum (keys.map (fun k => (mapGet m k).getD 0)) = qsum (m.map (·.2)) := by
  intro m
  induction m with
  | nil =>
    intro keys _ _ _
    rw [show keys.map (fun k => (mapGet ([] : List (α × ℚ)) k).getD 0)
        = keys.map (fun _ => (0 : ℚ)) from List.map_congr_left (fun k hk => rfl)]
    rw [qsum_map_zero]
    rfl
  | cons e m2 ih =>
    intro keys hknd hmnd hcov
    have he1 : e.1 ∈ keys := hcov e (List.mem_cons_self e m2)
    rw [List.map_cons] at hmnd
    have hnotin : e.1 ∉ m2.map (·.1) := (List.nodup_cons.mp hmnd).1
    have hget2 : (mapGet m2 e.1).getD 0 = 0 := by
      have hfind : m2.find? (fun x => decide (x.1 = e.1)) = none := by
        rw [List.find?_eq_none]
        intro x hx
        simp only [decide_eq_true_eq]
        exact fun hxe => hnotin (hxe ▸ List.mem_map_of_mem (·.1) hx)
      unfold mapGet
      rw [hfind]
      rfl
    have hterms : keys.map (fun k => (mapGet (e :: m2) k).getD 0)
        = keys.map (fun k => if k = e.1 then e.2 else (mapGet m2 k).getD 0) := by
      refine List.map_congr_left ?_
      intro k hk
      rw [mapGet_cons]
      by_cases hek : e.1 = k
      · rw [if_pos hek, if_pos hek.symm]
        rfl
      · rw [if_neg hek, if_neg (fun h => hek h.symm)]
    rw [hterms,
      qsum_map_update keys hknd e.1 he1 e.2 (fun k => (mapGet m2 k).getD 0),
      ih keys hknd (List.nodup_cons.mp hmnd).2
        (fun e2 he2 => hcov e2 (List.mem_cons_of_mem e he2)),
      List.map_cons, qsum_cons, hget2]
    ring

theorem find?_filter {α : Type} (l : List α) (p q : α → Bool)
    (h : ∀ e, p e = true → q e = true) :
    (l.filter q).find? p = l.find? p := by
  induction l with
  | nil => rfl
  | cons x xs ih =>
    rw [List.filter_cons]
    cases hq : q x with
    | true =>
      rw [if_pos rfl, List.find?_cons, List.find?_cons]
      cases hp : p x with
      | true => rfl
      | false => exact ih
    | false =>
      rw [if_neg (by simp), List.find?_cons]
      cases hp : p x with
      | true =>
        rw [h x hp] at hq
        cases hq
      | false => exact ih

theorem usedOf_append_single (m : AllocMap) (k : String × String) (v : ℚ) (a : String) :
    usedOf (m ++ [(k, v)]) a = usedOf m a + (if k.2 = a then v else 0) := by
  unfold usedOf
  rw [List.filter_append, List.map_append, qsum_append]
  congr 1
  rw [List.filter_cons]
  by_cases hk : k.2 = a
  · rw [if_pos (by simpa using hk)]
    show qsum [v] = if k.2 = a then v else 0
    rw [if_pos hk]
    show (0 : ℚ) + v = v
    ring
  · rw [if_neg (by simpa using hk)]
    show (0 : ℚ) = if k.2 = a then v else 0
    rw [if_neg hk]

theorem symTotalOf_append_single (m : AllocMap) (k : String × String) (v : ℚ)
    (s : String) :
    symTotalOf (m ++ [(k, v)]) s = symTotalOf m s + (if k.1 = s then v else 0) := by
  unfold symTotalOf
  rw [List.filter_append, List.map_append, qsum_append]
  congr 1
  rw [List.filter_cons]
  by_cases hk : k.1 = s
  · rw [if_pos (by simpa using hk)]
    show qsum [v] = if k.1 = s then v else 0
    rw [if_pos hk]
    show (0 : ℚ) + v = v
    ring
  · rw [if_neg (by simpa using hk)]
    show (0 : ℚ) = if k.1 = s then v else 0
    rw [if_neg hk]

theorem usedOf_nil (a : String) : usedOf [] a = 0 := rfl

theorem symTotalOf_nil (s : String) : symTotalOf [] s = 0 := rfl

/-- The total original capacity equals the total portfolio value. -/
theorem accountBudget_total (holdings : List Holding) :
    qsum ((allAccountsOf holdings).map (fun a => accountBudgetOf holdings a))
      = qsum (holdings.map (fun h => h.amount)) := by
  have hperm := (perm_groupBy (fun h : Holding => h.account) holdings).map
    (fun h : Holding => h.amount)
  have hq := qsum_perm hperm
  rw [List.map_flatMap] at hq
  rw [qsum_flatMap] at hq
  rw [← hq]
  rfl

/-- One account step of the Consolidate greedy inner loop, as a named
function (definitionally the body of `consolidateSymbol`'s fold). -/
def consStep (sv : String × ℚ)
    (st2 : AllocMap × List (String × ℚ) × ℚ) (ac : String × ℚ) :
    AllocMap × List (String × ℚ) × ℚ :=
  if st2.2.2 ≤ 0 then st2
  else
    if 0 < min st2.2.2 ac.2 then
      (mapSet st2.1 (sv.1, ac.1) (min st2.2.2 ac.2),
       mapSet st2.2.1 ac.1 (ac.2 - min st2.2.2 ac.2), st2.2.2 - min st2.2.2 ac.2)
    else st2

theorem consolidateSymbol_eq (allAccounts : List String) (alloc : AllocMap)
    (cap : List (String × ℚ)) (sv : String × ℚ) :
    consolidateSymbol allAccounts (alloc, cap) sv
      = (((((allAccounts.map (fun n => (n, (mapGet cap n).getD 0))).filter
            (fun x => decide (0 < x.2))).mergeSort
            (fun x y => decide (y.2 ≤ x.2))).foldl (consStep sv) (alloc, cap, sv.2)).1,
         ((((allAccounts.map (fun n => (n, (mapGet cap n).getD 0))).filter
            (fun x => decide (0 < x.2))).mergeSort
            (fun x y => decide (y.2 ≤ x.2))).foldl (consStep sv) (alloc, cap, sv.2)).2.1)
      := rfl

theorem consStep_skip (sv : String × ℚ) (st2 : AllocMap × List (String × ℚ) × ℚ)
    (ac : String × ℚ) (h : st2.2.2 ≤ 0) : consStep sv st2 ac = st2 := by
  unfold consStep
  rw [if_pos h]

theorem consStep_take (sv : String × ℚ) (st2 : AllocMap × List (String × ℚ) × ℚ)
    (ac : String × ℚ) (h1 : ¬ st2.2.2 ≤ 0) (h2 : 0 < min st2.2.2 ac.2) :
    consStep sv st2 ac
      = (mapSet st2.1 (sv.1, ac.1) (min st2.2.2 ac.2),
         mapSet st2.2.1 ac.1 (ac.2 - min st2.2.2 ac.2), st2.2.2 - min st2.2.2 ac.2) := by
  unfold consStep
  rw [if_neg h1, if_pos h2]

/-- Master invariant of the Consolidate greedy inner loop: walking a
duplicate-free snapshot of positively-capacitated accounts, the loop
allocates exactly `min(rem, total snapshot capacity)` to the symbol,
conserves each account's `used + capacity`, touches no other symbol, and
keeps capacities non-negative. -/
theorem consFold_master (sv : String × ℚ) (allAccounts : List String)
    (hndA : allAccounts.Nodup) :
    ∀ (l : List (String × ℚ)) (alloc : AllocMap) (capF : String → ℚ) (rem : ℚ),
      (l.map (·.1)).Nodup →
      (∀ x ∈ l, x.1 ∈ allAccounts ∧ capF x.1 = x.2 ∧ 0 < x.2) →
      (∀ e ∈ alloc, e.1.1 = sv.1 → e.1.2 ∉ l.map (·.1)) →
      0 ≤ rem →
      ∃ (alloc2 : AllocMap) (capF2 : String → ℚ) (rem2 : ℚ),
        l.foldl (consStep sv) (alloc, allAccounts.map (fun a => (a, capF a)), rem)
            = (alloc2, allAccounts.map (fun a => (a, capF2 a)), rem2)
        ∧ rem2 = max 0 (rem - qsum (l.map (·.2)))
        ∧ (∀ a ∈ allAccounts, usedOf alloc2 a + capF2 a = usedOf alloc a + capF a)
        ∧ symTotalOf alloc2 sv.1 = symTotalOf alloc sv.1 + (rem - rem2)
        ∧ (∀ s, ¬ s = sv.1 → symTotalOf alloc2 s = symTotalOf alloc s)
        ∧ (∀ e ∈ alloc2, e ∈ alloc ∨ (e.1.1 = sv.1 ∧ e.1.2 ∈ l.map (·.1)))
        ∧ ((alloc.map (·.1)).Nodup → (alloc2.map (·.1)).Nodup)
        ∧ (∀ a, 0 ≤ capF a → 0 ≤ capF2 a)
        ∧ 0 ≤ rem2
        ∧ qsum (allAccounts.map capF2)
            = qsum (allAccounts.map capF) - (rem - rem2) := by
  intro l
  induction l with
  | nil =>
    intro alloc capF rem hnd hl hfresh hrem
    refine ⟨alloc, capF, rem, rfl, ?_, fun a ha => rfl, by ring, fun s hs => rfl,
      fun e he => Or.inl he, fun h => h, fun a h => h, hrem, by ring⟩
    show rem = max 0 (rem - qsum ([] : List ℚ))
    rw [show qsum ([] : List ℚ) = 0 from rfl, sub_zero]
    exact (max_eq_right hrem).symm
  | cons x l2 ih =>
    intro alloc capF rem hnd hl hfresh hrem
    have hx := hl x (List.mem_cons_self x l2)
    rw [List.map_cons] at hnd
    have hndl2 : (l2.map (·.1)).Nodup := (List.nodup_cons.mp hnd).2
    have hx1notin : x.1 ∉ l2.map (·.1) := (List.nodup_cons.mp hnd).1
    have hq2 : 0 ≤ qsum (l2.map (·.2)) := qsum_nonneg (by
      intro y hy
      obtain ⟨z, hz, rfl⟩ := List.mem_map.mp hy
      exact le_of_lt (hl z (List.mem_cons_of_mem x hz)).2.2)
    rw [List.foldl_cons]
    by_cases hrem0 : rem ≤ 0
    · have hrz : rem = 0 := le_antisymm hrem0 hrem
      rw [consStep_skip sv _ x hrem0]
      obtain ⟨alloc2, capF2, rem2, h1, h2, h3, h4, h5, h6, h7, h8, h9, h10⟩ :=
        ih alloc capF rem hndl2
          (fun y hy => hl y (List.mem_cons_of_mem x hy))
          (fun e he hes hmem => hfresh e he hes
            (by rw [List.map_cons]; exact List.mem_cons_of_mem _ hmem))
          hrem
      refine ⟨alloc2, capF2, rem2, h1, ?_, h3, h4, h5,
        fun e he => (h6 e he).imp_right
          (fun hh => ⟨hh.1, by rw [List.map_cons]; exact List.mem_cons_of_mem _ hh.2⟩),
        h7, h8, h9, h10⟩
      rw [h2, List.map_cons, qsum_cons, hrz]
      rw [max_eq_left (by linarith), max_eq_left (by linarith [hx.2.2])]
    · push_neg at hrem0
      have hcan : 0 < min rem x.2 := lt_min hrem0 hx.2.2
      rw [consStep_take sv (alloc, allAccounts.map (fun a => (a, capF a)), rem) x
        (not_le.mpr hrem0) hcan]
      have hkey : ((sv.1, x.1) : String × String) ∉ alloc.map (·.1) := by
        intro hmem
        obtain ⟨e, he, heq⟩ := List.mem_map.mp hmem
        have h11 : e.1.1 = sv.1 := by rw [heq]
        have h12 : e.1.2 = x.1 := by rw [heq]
        refine hfresh e he h11 ?_
        rw [h12, List.map_cons]
        exact List.mem_cons_self _ _
      rw [show mapSet alloc (sv.1, x.1) (min rem x.2)
          = alloc ++ [((sv.1, x.1), min rem x.2)] from
          mapSet_eq_append alloc (sv.1, x.1) (min rem x.2) hkey]
      rw [mapSet_graph allAccounts capF x.1 (x.2 - min rem x.2) hndA hx.1]
      obtain ⟨alloc2, capF2, rem2, h1, h2, h3, h4, h5, h6, h7, h8, h9, h10⟩ :=
        ih (alloc ++ [((sv.1, x.1), min rem x.2)])
          (fun b => if b = x.1 then x.2 - min rem x.2 else capF b)
          (rem - min rem x.2)
          hndl2
          (by
            intro y hy
            have hy2 := hl y (List.mem_cons_of_mem x hy)
            have hyne : ¬ (y.1 = x.1) := fun heq =>
              hx1notin (heq ▸ List.mem_map_of_mem (fun z => z.1) hy)
            refine ⟨hy2.1, ?_, hy2.2.2⟩
            show (if y.1 = x.1 then x.2 - min rem x.2 else capF y.1) = y.2
            rw [if_neg hyne]
            exact hy2.2.1)
          (by
            intro e he hes
            rcases List.mem_append.mp he with hold | hnew
            · intro hmem
              exact hfresh e hold hes
                (by rw [List.map_cons]; exact List.mem_cons_of_mem _ hmem)
            · rw [List.mem_singleton.mp hnew]
              exact hx1notin)
          (by
            have := min_le_left rem x.2
            linarith)
      refine ⟨alloc2, capF2, rem2, h1, ?g2, ?g3, ?g4, ?g5, ?g6, ?g7, ?g8, h9, ?g10⟩
      case g2 =>
        rw [h2, List.map_cons, qsum_cons]
        rcases le_total rem x.2 with hle | hle
        · rw [min_eq_left hle]
          rw [max_eq_left (by linarith), max_eq_left (by linarith)]
        · rw [min_eq_right hle]
          congr 1
          ring
      case g3 =>
        intro a ha
        have h3a := h3 a ha
        rw [usedOf_append_single] at h3a
        by_cases hax : a = x.1
        · rw [if_pos (show ((sv.1, x.1) : String × String).2 = a from hax.symm)] at h3a
          rw [if_pos hax] at h3a
          rw [h3a, hax, hx.2.1]
          ring
        · rw [if_neg (show ¬ ((sv.1, x.1) : String × String).2 = a from
            fun heq => hax heq.symm)] at h3a
          rw [if_neg hax] at h3a
          rw [add_zero] at h3a
          exact h3a
      case g4 =>
        rw [h4, symTotalOf_append_single,
          if_pos (show ((sv.1, x.1) : String × String).1 = sv.1 from rfl)]
        ring
      case g5 =>
        intro s hs
        rw [h5 s hs, symTotalOf_append_single,
          if_neg (show ¬ ((sv.1, x.1) : String × String).1 = s from
            fun heq => hs heq.symm), add_zero]
      case g6 =>
        intro e he
        rcases h6 e he with hold | hnew
        · rcases List.mem_append.mp hold with ho1 | ho2
          · exact Or.inl ho1
          · rw [List.mem_singleton.mp ho2]
            exact Or.inr ⟨rfl, by rw [List.map_cons]; exact List.mem_cons_self _ _⟩
        · exact Or.inr ⟨hnew.1, by rw [List.map_cons]; exact List.mem_cons_of_mem _ hnew.2⟩
      case g7 =>
        intro hnd0
        refine h7 ?_
        rw [List.map_append]
        exact nodup_append_singleton hnd0 hkey
      case g8 =>
        intro a h0a
        refine h8 a ?_
        by_cases hax : a = x.1
        · rw [if_pos hax]
          have := min_le_right rem x.2
          linarith
        · rw [if_neg hax]
          exact h0a
      case g10 =>
        rw [h10, qsum_map_update allAccounts hndA x.1 hx.1 (x.2 - min rem x.2) capF,
          hx.2.1]
        ring

theorem map_fst_graph {β : Type} (l : List String) (f : String → β) :
    (l.map (fun x => (x, f x))).map (fun e => e.1) = l := by
  rw [List.map_map]
  exact (List.map_congr_left (fun a ha => rfl)).trans (List.map_id l)

/-- Master invariant of the Consolidate symbol loop: with duplicate-free
symbols, non-negative needs, needs summing exactly to the total capacity,
and non-negative capacities, every symbol is fully allocated and every
account's capacity is fully drained. -/
theorem consolidate_master (allAccounts : List String) (hndA : allAccounts.Nodup) :
    ∀ (svs : List (String × ℚ)) (alloc : AllocMap) (capF : String → ℚ),
      (svs.map (·.1)).Nodup →
      (∀ sv ∈ svs, 0 ≤ sv.2) →
      (∀ a ∈ allAccounts, 0 ≤ capF a) →
      (∀ e ∈ alloc, e.1.2 ∈ allAccounts ∧ e.1.1 ∉ svs.map (·.1)) →
      (alloc.map (·.1)).Nodup →
      qsum (svs.map (·.2)) = qsum (allAccounts.map capF) →
      ∃ (alloc2 : AllocMap) (capF2 : String → ℚ),
        svs.foldl (consolidateSymbol allAccounts)
            (alloc, allAccounts.map (fun a => (a, capF a)))
          = (alloc2, allAccounts.map (fun a => (a, capF2 a)))
        ∧ (∀ a ∈ allAccounts, usedOf alloc2 a + capF2 a = usedOf alloc a + capF a)
        ∧ (∀ a ∈ allAccounts, 0 ≤ capF2 a)
        ∧ qsum (allAccounts.map capF2) = 0
        ∧ (∀ sv ∈ svs, symTotalOf alloc2 sv.1 = symTotalOf alloc sv.1 + sv.2)
        ∧ (∀ s, s ∉ svs.map (·.1) → symTotalOf alloc2 s = symTotalOf alloc s)
        ∧ (∀ e ∈ alloc2, e.1.2 ∈ allAccounts ∧ (e ∈ alloc ∨ e.1.1 ∈ svs.map (·.1)))
        ∧ (alloc2.map (·.1)).Nodup := by
  intro svs
  induction svs with
  | nil =>
    intro alloc capF hnd hvals hcap hallo hndal hfill
    refine ⟨alloc, capF, rfl, fun a ha => rfl, hcap, ?_,
      fun sv hsv => absurd hsv (List.not_mem_nil sv),
      fun s hs => rfl, fun e he => ⟨(hallo e he).1, Or.inl he⟩, hndal⟩
    rw [← hfill]
    rfl
  | cons sv0 rest ih =>
    intro alloc capF hnd hvals hcap hallo hndal hfill
    rw [List.map_cons] at hnd
    have hndr : (rest.map (·.1)).Nodup := (List.nodup_cons.mp hnd).2
    have hsv0notin : sv0.1 ∉ rest.map (·.1) := (List.nodup_cons.mp hnd).1
    have hv0 : 0 ≤ sv0.2 := hvals sv0 (List.mem_cons_self sv0 rest)
    have hrestsum : 0 ≤ qsum (rest.map (·.2)) := qsum_nonneg (by
      intro y hy
      obtain ⟨z, hz, rfl⟩ := List.mem_map.mp hy
      exact hvals z (List.mem_cons_of_mem sv0 hz))
    rw [List.map_cons, qsum_cons] at hfill
    rw [List.foldl_cons,
      consolidateSymbol_eq allAccounts alloc (allAccounts.map (fun a => (a, capF a))) sv0]
    have habc1 : allAccounts.map (fun n =>
          (n, (mapGet (allAccounts.map (fun a => (a, capF a))) n).getD 0))
        = allAccounts.map (fun n => (n, capF n)) := by
      refine List.map_congr_left ?_
      intro n hn
      rw [mapGet_graph allAccounts capF n hndA hn]
      rfl
    rw [habc1]
    set L := ((allAccounts.map (fun n => (n, capF n))).filter
      (fun x => decide (0 < x.2))).mergeSort (fun x y => decide (y.2 ≤ x.2)) with hLdef
    have hLmem : ∀ x ∈ L, x ∈ allAccounts.map (fun n => (n, capF n)) ∧ 0 < x.2 := by
      intro x hx
      rw [hLdef, List.mem_mergeSort] at hx
      refine ⟨List.mem_of_mem_filter hx, ?_⟩
      have hf := List.of_mem_filter hx
      simpa using hf
    have hLnd : (L.map (·.1)).Nodup := by
      rw [hLdef]
      have hperm : (((((allAccounts.map (fun n => (n, capF n))).filter
            (fun x => decide (0 < x.2))).mergeSort (fun x y => decide (y.2 ≤ x.2))).map
            (·.1))).Perm (((allAccounts.map (fun n => (n, capF n))).filter
            (fun x => decide (0 < x.2))).map (·.1)) :=
        (List.mergeSort_perm _ _).map _
      refine hperm.nodup_iff.mpr ?_
      have hsub : ((((allAccounts.map (fun n => (n, capF n))).filter
            (fun x => decide (0 < x.2))).map (·.1))).Sublist
          ((allAccounts.map (fun n => (n, capF n))).map (fun e => e.1)) :=
        (List.filter_sublist _).map _
      rw [map_fst_graph] at hsub
      exact hndA.sublist hsub
    have hLprops : ∀ x ∈ L, x.1 ∈ allAccounts ∧ capF x.1 = x.2 ∧ 0 < x.2 := by
      intro x hx
      obtain ⟨hg, hpos⟩ := hLmem x hx
      obtain ⟨n, hn, heq⟩ := List.mem_map.mp hg
      rcases heq with rfl
      exact ⟨hn, rfl, hpos⟩
    have hLsum : qsum (L.map (·.2)) = qsum (allAccounts.map capF) := by
      rw [hLdef]
      have hperm2 : ((((allAccounts.map (fun n => (n, capF n))).filter
            (fun x => decide (0 < x.2))).mergeSort (fun x y => decide (y.2 ≤ x.2))).map
            (·.2)).Perm (((allAccounts.map (fun n => (n, capF n))).filter
            (fun x => decide (0 < x.2))).map (·.2)) :=
        (List.mergeSort_perm _ _).map _
      rw [qsum_perm hperm2]
      rw [qsum_filter_eq (allAccounts.map (fun n => (n, capF n)))
        (fun x => decide (0 < x.2)) (fun e => e.2) ?_]
      · exact qsum_graph_values allAccounts capF
      · intro x hxg hfalse
        obtain ⟨n, hn, rfl⟩ := List.mem_map.mp hxg
        have hnpos : ¬ (0 < capF n) := by simpa using hfalse
        have h0 := hcap n hn
        show capF n = 0
        linarith
    have hfreshL : ∀ e ∈ alloc, e.1.1 = sv0.1 → e.1.2 ∉ L.map (·.1) := by
      intro e he hes
      intro _
      have h2 := (hallo e he).2
      rw [List.map_cons] at h2
      exact h2 (by rw [hes]; exact List.mem_cons_self _ _)
    obtain ⟨alloc1, capF1, rem1, i1, i2, i3, i4, i5, i6, i7, i8, i9, i10⟩ :=
      consFold_master sv0 allAccounts hndA L alloc capF sv0.2 hLnd hLprops hfreshL hv0
    have hrem1 : rem1 = 0 := by
      rw [i2, hLsum, ← hfill]
      rw [max_eq_left (by linarith)]
    rw [i1]
    rw [show (((alloc1, allAccounts.map (fun a => (a, capF1 a)), rem1) :
          AllocMap × List (String × ℚ) × ℚ).1,
        ((alloc1, allAccounts.map (fun a => (a, capF1 a)), rem1) :
          AllocMap × List (String × ℚ) × ℚ).2.1)
        = ((alloc1 : AllocMap), allAccounts.map (fun a => (a, capF1 a))) from rfl]
    have hallo1 : ∀ e ∈ alloc1, e.1.2 ∈ allAccounts ∧ e.1.1 ∉ rest.map (·.1) := by
      intro e he
      rcases i6 e he with hold | hnew
      · have h2 := hallo e hold
        refine ⟨h2.1, ?_⟩
        rw [List.map_cons] at h2
        intro hmem
        exact h2.2 (List.mem_cons_of_mem _ hmem)
      · constructor
        · obtain ⟨x, hx2, heq⟩ := List.mem_map.mp hnew.2
          rw [← heq]
          exact (hLprops x hx2).1
        · rw [hnew.1]
          exact hsv0notin
    have hndal1 : (alloc1.map (·.1)).Nodup := i7 hndal
    have hfill1 : qsum (rest.map (·.2)) = qsum (allAccounts.map capF1) := by
      rw [i10, hrem1]
      linarith
    obtain ⟨alloc2, capF2, o1, o2, o3, o4, o5, o6, o7, o8⟩ :=
      ih alloc1 capF1 hndr
        (fun z hz => hvals z (List.mem_cons_of_mem sv0 hz))
        (fun a ha => i8 a (hcap a ha))
        hallo1 hndal1 hfill1
    refine ⟨alloc2, capF2, o1, ?f2, o3, o4, ?f5, ?f6, ?f7, o8⟩
    case f2 =>
      intro a ha
      rw [o2 a ha, i3 a ha]
    case f5 =>
      intro sv hsv
      rcases List.mem_cons.mp hsv with rfl | hmem
      · rw [o6 sv.1 hsv0notin, i4, hrem1]
        ring
      · rw [o5 sv hmem,
          i5 sv.1 (fun heq => hsv0notin (heq ▸ List.mem_map_of_mem (fun z => z.1) hmem))]
    case f6 =>
      intro s hs
      rw [List.map_cons] at hs
      have hs1 : ¬ s = sv0.1 := fun heq => hs (heq ▸ List.mem_cons_self _ _)
      have hs2 : s ∉ rest.map (·.1) := fun hmem => hs (List.mem_cons_of_mem _ hmem)
      rw [o6 s hs2, i5 s hs1]
    case f7 =>
      intro e he
      obtain ⟨hacc2, hor⟩ := o7 e he
      refine ⟨hacc2, ?_⟩
      rcases hor with ho1 | ho2
      · rcases i6 e ho1 with hold | hnew
        · exact Or.inl hold
        · refine Or.inr ?_
          rw [List.map_cons, hnew.1]
          exact List.mem_cons_self _ _
      · refine Or.inr ?_
        rw [List.map_cons]
        exact List.mem_cons_of_mem _ ho2

/-- With duplicate-free symbol names, the `symbolTargets` map is the
list of `(name, totalValue*(percent/100))` pairs over the symbols with
defined positive percent, in order. -/
theorem symbolTargets_eq (symbols : List Sym) (tv : ℚ)
    (hnames : (symbols.map (·.name)).Nodup) :
    symbols.foldl (fun m s => match s.targetPercent with
      | some p => if 0 < p then mapSet m s.name (tv * (p / 100)) else m
      | none => m) ([] : List (String × ℚ))
    = (symbols.filter (fun s => match s.targetPercent with
        | some p => decide (0 < p)
        | none => false)).map (fun s => (s.name, tv * (s.targetPercent.getD 0 / 100))) := by
  suffices hgen : ∀ (syms : List Sym) (m : List (String × ℚ)),
      (∀ e ∈ m, e.1 ∉ syms.map (·.name)) → (syms.map (·.name)).Nodup →
      syms.foldl (fun m s => match s.targetPercent with
        | some p => if 0 < p then mapSet m s.name (tv * (p / 100)) else m
        | none => m) m
      = m ++ (syms.filter (fun s => match s.targetPercent with
          | some p => decide (0 < p)
          | none => false)).map (fun s => (s.name, tv * (s.targetPercent.getD 0 / 100))) by
    have h := hgen symbols [] (fun e he => absurd he (List.not_mem_nil e)) hnames
    rw [List.nil_append] at h
    exact h
  intro syms
  induction syms with
  | nil =>
    intro m hm hnd
    rw [List.foldl_nil, List.filter_nil, List.map_nil, List.append_nil]
  | cons s ss ih =>
    intro m hm hnd
    rw [List.map_cons, List.nodup_cons] at hnd
    rw [List.foldl_cons, List.filter_cons]
    cases htp : s.targetPercent with
    | none =>
      rw [if_neg (fun h => Bool.noConfusion h)]
      exact ih m (fun e he hmem => hm e he
        (by rw [List.map_cons]; exact List.mem_cons_of_mem _ hmem)) hnd.2
    | some p =>
      rw [show (match (some p : Option ℚ) with
          | some q => if 0 < q then mapSet m s.name (tv * (q / 100)) else m
          | none => m) = if 0 < p then mapSet m s.name (tv * (p / 100)) else m from rfl]
      by_cases hpp : 0 < p
      · rw [if_pos hpp]
        rw [if_pos (show (match (some p : Option ℚ) with
            | some q => decide (0 < q)
            | none => false) = true by simpa using hpp)]
        have hfresh : s.name ∉ m.map (·.1) := by
          intro hmem
          obtain ⟨e, he, heq⟩ := List.mem_map.mp hmem
          exact hm e he (by rw [heq, List.map_cons]; exact List.mem_cons_self _ _)
        rw [mapSet_eq_append m s.name (tv * (p / 100)) hfresh]
        rw [ih (m ++ [(s.name, tv * (p / 100))]) ?_ hnd.2]
        · rw [List.map_cons, List.append_assoc, List.singleton_append, htp,
            Option.getD_some]
        · intro e he
          rcases List.mem_append.mp he with h1 | h2
          · intro hmem
            exact hm e h1 (by rw [List.map_cons]; exact List.mem_cons_of_mem _ hmem)
          · rw [List.mem_singleton.mp h2]
            exact hnd.1
      · rw [if_neg hpp]
        rw [if_neg (show ¬ ((match (some p : Option ℚ) with
            | some q => decide (0 < q)
            | none => false) = true) by simpa using hpp)]
        exact ih m (fun e he hmem => hm e he
          (by rw [List.map_cons]; exact List.mem_cons_of_mem _ hmem)) hnd.2

theorem calculateTargetPercentSum_eq (symbols : List Sym) :
    calculateTargetPercentSum symbols
      = qsum (symbols.map (fun s => s.targetPercent.getD 0)) := by
  unfold calculateTargetPercentSum qsum
  rw [List.foldl_map]

/-- With non-negative percents, the symbol targets sum to
`totalValue * percentSum / 100`. -/
theorem symbolTargets_sum (symbols : List Sym) (tv : ℚ)
    (hp : ∀ s ∈ symbols, 0 ≤ s.targetPercent.getD 0) :
    qsum (((symbols.filter (fun s => match s.targetPercent with
        | some p => decide (0 < p)
        | none => false)).map (fun s => (s.name, tv * (s.targetPercent.getD 0 / 100)))).map
        (fun e => e.2))
      = tv * (calculateTargetPercentSum symbols / 100) := by
  rw [calculateTargetPercentSum_eq]
  induction symbols with
  | nil =>
    rw [List.filter_nil, List.map_nil, List.map_nil, List.map_nil]
    show (0 : ℚ) = tv * (0 / 100)
    ring
  | cons s ss ih =>
    have hihs := ih (fun z hz => hp z (List.mem_cons_of_mem s hz))
    have hps := hp s (List.mem_cons_self s ss)
    rw [List.filter_cons, List.map_cons, qsum_cons]
    cases htp : s.targetPercent with
    | none =>
      rw [if_neg (fun h => Bool.noConfusion h)]
      rw [hihs]
      show tv * (qsum (List.map (fun s2 => s2.targetPercent.getD 0) ss) / 100)
        = tv * ((0 + qsum (List.map (fun s2 => s2.targetPercent.getD 0) ss)) / 100)
      ring
    | some p =>
      by_cases hpp : 0 < p
      · rw [if_pos (show (match (some p : Option ℚ) with
            | some q => decide (0 < q)
            | none => false) = true by simpa using hpp)]
        rw [List.map_cons, List.map_cons, qsum_cons, hihs, htp, Option.getD_some]
        show tv * (p / 100)
            + tv * (qsum (ss.map (fun s2 => s2.targetPercent.getD 0)) / 100)
          = tv * ((p + qsum (ss.map (fun s2 => s2.targetPercent.getD 0))) / 100)
        ring
      · have hpz : p = 0 := by
          rw [htp] at hps
          have h0p : (0 : ℚ) ≤ p := hps
          linarith [not_lt.mp hpp]
        rw [if_neg (show ¬ ((match (some p : Option ℚ) with
            | some q => decide (0 < q)
            | none => false) = true) by simpa using hpp)]
        rw [hihs]
        show tv * (qsum (List.map (fun s2 => s2.targetPercent.getD 0) ss) / 100)
          = tv * ((p + qsum (List.map (fun s2 => s2.targetPercent.getD 0) ss)) / 100)
        rw [hpz]
        ring

/-! ### Output-row sums -/

theorem outAccountSum_append (l1 l2 : List Holding) (a : String) :
    outAccountSum (l1 ++ l2) a = outAccountSum l1 a + outAccountSum l2 a := by
  unfold outAccountSum
  rw [List.filter_append, List.map_append, qsum_append]

theorem outSymbolSum_append (l1 l2 : List Holding) (s : String) :
    outSymbolSum (l1 ++ l2) s = outSymbolSum l1 s + outSymbolSum l2 s := by
  unfold outSymbolSum
  rw [List.filter_append, List.map_append, qsum_append]

theorem outAccountSum_of_all (rows : List Holding) (a : String)
    (h : ∀ r ∈ rows, r.account = a) :
    outAccountSum rows a = qsum (rows.map (fun r => r.targetAmount.getD 0)) := by
  unfold outAccountSum
  rw [List.filter_eq_self.mpr (fun r hr => by simpa using h r hr)]

theorem outAccountSum_of_none (rows : List Holding) (a : String)
    (h : ∀ r ∈ rows, ¬ r.account = a) :
    outAccountSum rows a = 0 := by
  unfold outAccountSum
  rw [List.filter_eq_nil.mpr (fun r hr => by simpa using h r hr)]
  rfl

theorem outAccountSum_flatMap (accounts : List String) (F : String → List Holding)
    (a : String) :
    outAccountSum (accounts.flatMap F) a
      = qsum (accounts.map (fun a2 => outAccountSum (F a2) a)) := by
  induction accounts with
  | nil => rfl
  | cons a0 rest ih =>
    rw [List.flatMap_cons, outAccountSum_append, List.map_cons, qsum_cons, ih]

theorem outSymbolSum_flatMap (accounts : List String) (F : String → List Holding)
    (s : String) :
    outSymbolSum (accounts.flatMap F) s
      = qsum (accounts.map (fun a2 => outSymbolSum (F a2) s)) := by
  induction accounts with
  | nil => rfl
  | cons a0 rest ih =>
    rw [List.flatMap_cons, outSymbolSum_append, List.map_cons, qsum_cons, ih]

/-- Every output row of an account's section carries that account. -/
theorem resultRowsFor_account (symbols : List Sym) (holdings : List Holding)
    (priceMap : List (String × ℚ)) (alloc : AllocMap) (aName : String) :
    ∀ r ∈ resultRowsFor symbols holdings priceMap alloc aName, r.account = aName := by
  intro r hr
  unfold resultRowsFor at hr
  rcases List.mem_append.mp hr with hr1 | hr2
  · obtain ⟨sym, hsym, hmap⟩ := List.mem_filterMap.mp hr1
    cases htp : sym.targetPercent with
    | none =>
      rw [htp] at hmap
      cases hmap
    | some p =>
      rw [htp] at hmap
      obtain rfl := Option.some.inj hmap
      rfl
  · obtain ⟨h0, hh0, hmap⟩ := List.mem_filterMap.mp hr2
    by_cases hacc : h0.account = aName
    · rw [if_pos hacc] at hmap
      cases hfind : symbols.find? (fun s => decide (s.name = h0.symbol)) with
      | none =>
        rw [hfind] at hmap
        obtain rfl := Option.some.inj hmap
        rfl
      | some sym =>
        rw [hfind] at hmap
        have hmap2 : (match sym.targetPercent with
            | some _ => (none : Option Holding)
            | none => some { symbol := h0.symbol, account := aName, shares := h0.shares,
                             price := h0.price, amount := h0.amount,
                             targetAmount := some 0 }) = some r := hmap
        cases htp : sym.targetPercent with
        | none =>
          rw [htp] at hmap2
          obtain rfl := Option.some.inj hmap2
          rfl
        | some p =>
          rw [htp] at hmap2
          cases hmap2
    · rw [if_neg hacc] at hmap
      cases hmap

/-- The target-amount sum of one account's output rows is the sum of the
allocation lookups over the symbols with defined target percent. -/
theorem resultRowsFor_taSum (symbols : List Sym) (holdings : List Holding)
    (priceMap : List (String × ℚ)) (alloc : AllocMap) (aName : String) :
    qsum ((resultRowsFor symbols holdings priceMap alloc aName).map
        (fun r => r.targetAmount.getD 0))
      = qsum ((symbols.filter (fun s => s.targetPercent.isSome)).map
          (fun sym => (mapGet alloc (sym.name, aName)).getD 0)) := by
  rw [resultRowsFor_eq, List.map_append, qsum_append]
  have h2 : qsum (((holdings.filter
      (fun h => decide (h.account = aName) && liqB symbols h)).map
      (liqRowOf aName)).map (fun r => r.targetAmount.getD 0)) = 0 := by
    refine qsum_zero ?_
    intro v hv
    obtain ⟨r, hr, rfl⟩ := List.mem_map.mp hv
    obtain ⟨h0, hh0, rfl⟩ := List.mem_map.mp hr
    rfl
  rw [h2, add_zero, List.map_map]
  exact congrArg qsum (List.map_congr_left (fun sym hs => rfl))

/-- One account section contributes exactly its allocation lookup to a
target symbol's total. -/
theorem resultRowsFor_symSum (symbols : List Sym) (holdings : List Holding)
    (priceMap : List (String × ℚ)) (alloc : AllocMap) (a2 : String) (sym0 : Sym)
    (hmem : sym0 ∈ symbols) (hdef : sym0.targetPercent.isSome = true)
    (hnames : (symbols.map (·.name)).Nodup) :
    outSymbolSum (resultRowsFor symbols holdings priceMap alloc a2) sym0.name
      = (mapGet alloc (sym0.name, a2)).getD 0 := by
  rw [resultRowsFor_eq, outSymbolSum_append]
  have h2 : outSymbolSum ((holdings.filter
      (fun h => decide (h.account = a2) && liqB symbols h)).map (liqRowOf a2))
      sym0.name = 0 := by
    unfold outSymbolSum
    rw [List.filter_eq_nil.mpr ?_]
    · rfl
    · intro r hr
      obtain ⟨h0, hh0, rfl⟩ := List.mem_map.mp hr
      simp only [liqRowOf, decide_eq_true_eq]
      intro heq
      have hliq := List.of_mem_filter hh0
      have hliqB : liqB symbols h0 = true := by
        simp only [Bool.and_eq_true] at hliq
        exact hliq.2
      unfold liqB at hliqB
      rw [show symbols.find? (fun s => decide (s.name = h0.symbol)) = some sym0 from by
        rw [heq]
        exact find?_name_eq hmem hnames] at hliqB
      rw [Option.isNone_iff_eq_none] at hliqB
      rw [hliqB] at hdef
      cases hdef
  rw [h2, add_zero]
  unfold outSymbolSum
  rw [List.filter_map]
  have hfc : (symbols.filter (fun s => s.targetPercent.isSome)).filter
        ((fun r => decide (r.symbol = sym0.name)) ∘ targetRowOf symbols holdings priceMap alloc a2)
      = (symbols.filter (fun s => s.targetPercent.isSome)).filter
        (fun x => decide (x.name = sym0.name)) :=
    List.filter_congr (fun x hx => rfl)
  rw [hfc]
  rw [filter_key_eq_singleton (fun s => s.name)
    (List.mem_filter.mpr ⟨hmem, hdef⟩)
    (hnames.sublist ((List.filter_sublist symbols).map (fun s => s.name)))]
  show (0 : ℚ) + (mapGet alloc (sym0.name, a2)).getD 0
    = (mapGet alloc (sym0.name, a2)).getD 0
  ring

theorem mapGet_filter_acct (alloc : AllocMap) (n a : String) :
    mapGet (alloc.filter (fun e => decide (e.1.2 = a))) (n, a) = mapGet alloc (n, a) := by
  unfold mapGet
  rw [find?_filter alloc (fun e => decide (e.1 = ((n, a) : String × String)))
    (fun e => decide (e.1.2 = a)) ?_]
  intro e he
  simp only [decide_eq_true_eq] at he ⊢
  rw [he]

theorem mapGet_filter_sym (alloc : AllocMap) (s a : String) :
    mapGet (alloc.filter (fun e => decide (e.1.1 = s))) (s, a) = mapGet alloc (s, a) := by
  unfold mapGet
  rw [find?_filter alloc (fun e => decide (e.1 = ((s, a) : String × String)))
    (fun e => decide (e.1.1 = s)) ?_]
  intro e he
  simp only [decide_eq_true_eq] at he ⊢
  rw [he]

theorem qsum_lookup_names (m : List ((String × String) × ℚ)) (names : List String)
    (a : String) (hknd : names.Nodup) (hmnd : (m.map (·.1)).Nodup)
    (hcov : ∀ e ∈ m, e.1.2 = a ∧ e.1.1 ∈ names) :
    qsum (names.map (fun n => (mapGet m (n, a)).getD 0)) = qsum (m.map (·.2)) := by
  have hkeys : (names.map (fun n => ((n, a) : String × String))).Nodup :=
    List.Nodup.map (fun x y hxy => congrArg Prod.fst hxy) hknd
  have h := qsum_lookup m (names.map (fun n => (n, a))) hkeys hmnd ?_
  · rw [List.map_map] at h
    exact h
  · intro e he
    obtain ⟨h1, h2⟩ := hcov e he
    refine List.mem_map.mpr ⟨e.1.1, h2, ?_⟩
    rw [← h1]

theorem qsum_lookup_accounts (m : List ((String × String) × ℚ)) (accounts : List String)
    (s : String) (hknd : accounts.Nodup) (hmnd : (m.map (·.1)).Nodup)
    (hcov : ∀ e ∈ m, e.1.1 = s ∧ e.1.2 ∈ accounts) :
    qsum (accounts.map (fun a => (mapGet m (s, a)).getD 0)) = qsum (m.map (·.2)) := by
  have hkeys : (accounts.map (fun a => ((s, a) : String × String))).Nodup :=
    List.Nodup.map (fun x y hxy => congrArg Prod.snd hxy) hknd
  have h := qsum_lookup m (accounts.map (fun a => (s, a))) hkeys hmnd ?_
  · rw [List.map_map] at h
    exact h
  · intro e he
    obtain ⟨h1, h2⟩ := hcov e he
    refine List.mem_map.mpr ⟨e.1.2, h2, ?_⟩
    rw [← h1]

/-- The Consolidate allocation map: every account keeps exactly its
budget, every positive-target symbol gets exactly its dollar target, the
keys are unique, and the keys range over defined-target symbols and
portfolio accounts. -/
theorem calculateRebalance_alloc (symbols : List Sym) (accounts : List Account)
    (holdings : List Holding)
    (hnames : (symbols.map (·.name)).Nodup)
    (hp : ∀ s ∈ symbols, 0 ≤ s.targetPercent.getD 0)
    (hsum : calculateTargetPercentSum symbols = 100)
    (hamt : ∀ h ∈ holdings, 0 ≤ h.amount) :
    ∃ alloc : AllocMap,
      calculateRebalance symbols accounts holdings
        = (allAccountsOf holdings).flatMap
            (resultRowsFor symbols holdings (priceMapOf symbols) alloc)
      ∧ (∀ a ∈ allAccountsOf holdings, usedOf alloc a = accountBudgetOf holdings a)
      ∧ (∀ sym ∈ symbols, ∀ p, sym.targetPercent = some p → 0 < p →
          symTotalOf alloc sym.name
            = qsum (holdings.map (fun h => h.amount)) * (p / 100))
      ∧ (alloc.map (·.1)).Nodup
      ∧ (∀ e ∈ alloc, e.1.2 ∈ allAccountsOf holdings
          ∧ e.1.1 ∈ (symbols.filter (fun s => s.targetPercent.isSome)).map (·.name)) := by
  have hndA : (allAccountsOf holdings).Nodup := dedupFirst_nodup _
  have htv0 : 0 ≤ qsum (holdings.map (fun h => h.amount)) := qsum_nonneg (by
    intro x hx
    obtain ⟨h0, hh0, rfl⟩ := List.mem_map.mp hx
    exact hamt h0 hh0)
  have hst := symbolTargets_eq symbols (qsum (holdings.map (fun h => h.amount))) hnames
  have hvalsSVS : ∀ sv ∈ (((symbols.filter (fun s => match s.targetPercent with
        | some p => decide (0 < p)
        | none => false)).map (fun s => (s.name,
          qsum (holdings.map (fun h => h.amount)) * (s.targetPercent.getD 0 / 100)))).mergeSort
        (fun x y => decide (y.2 ≤ x.2))), 0 ≤ sv.2 := by
    intro sv hsv
    rw [List.mem_mergeSort] at hsv
    obtain ⟨s2, hs2, rfl⟩ := List.mem_map.mp hsv
    have hps := hp s2 (List.mem_of_mem_filter hs2)
    exact mul_nonneg htv0 (div_nonneg hps (by norm_num))
  have hndSVS : ((((symbols.filter (fun s => match s.targetPercent with
        | some p => decide (0 < p)
        | none => false)).map (fun s => (s.name,
          qsum (holdings.map (fun h => h.amount)) * (s.targetPercent.getD 0 / 100)))).mergeSort
        (fun x y => decide (y.2 ≤ x.2))).map (·.1)).Nodup := by
    have hperm := ((List.mergeSort_perm ((symbols.filter (fun s => match s.targetPercent with
        | some p => decide (0 < p)
        | none => false)).map (fun s => (s.name,
          qsum (holdings.map (fun h => h.amount)) * (s.targetPercent.getD 0 / 100))))
        (fun x y => decide (y.2 ≤ x.2))).map (fun e : String × ℚ => e.1))
    refine hperm.nodup_iff.mpr ?_
    rw [List.map_map]
    have hcomp : ((symbols.filter (fun s => match s.targetPercent with
        | some p => decide (0 < p)
        | none => false)).map ((fun e : String × ℚ => e.1) ∘ (fun s => (s.name,
          qsum (holdings.map (fun h => h.amount)) * (s.targetPercent.getD 0 / 100)))))
        = (symbols.filter (fun s => match s.targetPercent with
        | some p => decide (0 < p)
        | none => false)).map (fun s => s.name) :=
      List.map_congr_left (fun s hs => rfl)
    rw [hcomp]
    exact hnames.sublist ((List.filter_sublist symbols).map (fun s => s.name))
  have hfill : qsum (((((symbols.filter (fun s => match s.targetPercent with
        | some p => decide (0 < p)
        | none => false)).map (fun s => (s.name,
          qsum (holdings.map (fun h => h.amount)) * (s.targetPercent.getD 0 / 100)))).mergeSort
        (fun x y => decide (y.2 ≤ x.2))).map (·.2)))
      = qsum ((allAccountsOf holdings).map
          (fun a => accountBudgetOf holdings a)) := by
    have hperm := ((List.mergeSort_perm ((symbols.filter (fun s => match s.targetPercent with
        | some p => decide (0 < p)
        | none => false)).map (fun s => (s.name,
          qsum (holdings.map (fun h => h.amount)) * (s.targetPercent.getD 0 / 100))))
        (fun x y => decide (y.2 ≤ x.2))).map (fun e : String × ℚ => e.2))
    rw [qsum_perm hperm]
    rw [symbolTargets_sum symbols (qsum (holdings.map (fun h => h.amount))) hp, hsum]
    rw [accountBudget_total]
    norm_num
  obtain ⟨alloc2, capF2, m1, m2, m3, m4, m5, m6, m7, m8⟩ :=
    consolidate_master (allAccountsOf holdings) hndA
      (((symbols.filter (fun s => match s.targetPercent with
        | some p => decide (0 < p)
        | none => false)).map (fun s => (s.name,
          qsum (holdings.map (fun h => h.amount)) * (s.targetPercent.getD 0 / 100)))).mergeSort
        (fun x y => decide (y.2 ≤ x.2)))
      [] (fun a => accountBudgetOf holdings a)
      hndSVS hvalsSVS (fun a ha => accountBudgetOf_nonneg holdings a hamt)
      (fun e he => absurd he (List.not_mem_nil e)) List.nodup_nil hfill
  refine ⟨alloc2, ?e1, ?e2, ?e3, m8, ?e5⟩
  case e1 =>
    have hcr : calculateRebalance symbols accounts holdings
        = (allAccountsOf holdings).flatMap
            (resultRowsFor symbols holdings (priceMapOf symbols)
              (((symbols.foldl (fun m s => match s.targetPercent with
                  | some p => if 0 < p then mapSet m s.name
                      (qsum (holdings.map (fun h => h.amount)) * (p / 100)) else m
                  | none => m) ([] : List (String × ℚ))).mergeSort
                  (fun x y => decide (y.2 ≤ x.2))).foldl
                  (consolidateSymbol (allAccountsOf holdings))
                  (([] : AllocMap),
                    (allAccountsOf holdings).map
                      (fun a => (a, accountBudgetOf holdings a)))).1) := rfl
    rw [hcr, hst, m1]
  case e2 =>
    intro a ha
    have hcap0 : capF2 a = 0 := by
      refine qsum_eq_zero_of_nonneg ?_ m4 (capF2 a) (List.mem_map_of_mem capF2 ha)
      intro x hx
      obtain ⟨b, hb, rfl⟩ := List.mem_map.mp hx
      exact m3 b hb
    have h := m2 a ha
    rw [hcap0, usedOf_nil] at h
    linarith
  case e3 =>
    intro sym hsym p htp hpp
    have hmemSVS : (sym.name, qsum (holdings.map (fun h => h.amount)) * (p / 100))
        ∈ (((symbols.filter (fun s => match s.targetPercent with
          | some p => decide (0 < p)
          | none => false)).map (fun s => (s.name,
            qsum (holdings.map (fun h => h.amount)) * (s.targetPercent.getD 0 / 100)))).mergeSort
          (fun x y => decide (y.2 ≤ x.2))) := by
      rw [List.mem_mergeSort]
      refine List.mem_map.mpr ⟨sym, ?_, ?_⟩
      · refine List.mem_filter.mpr ⟨hsym, ?_⟩
        rw [htp]
        simpa using hpp
      · rw [htp, Option.getD_some]
    have h5 := m5 _ hmemSVS
    rw [symTotalOf_nil, zero_add] at h5
    exact h5
  case e5 =>
    intro e he
    obtain ⟨hacc, hor⟩ := m7 e he
    refine ⟨hacc, ?_⟩
    rcases hor with h0 | h1
    · exact absurd h0 (List.not_mem_nil e)
    · obtain ⟨sv, hsv, heq⟩ := List.mem_map.mp h1
      rw [List.mem_mergeSort] at hsv
      obtain ⟨s2, hs2, rfl⟩ := List.mem_map.mp hsv
      refine List.mem_map.mpr ⟨s2, ?_, heq⟩
      have hs2f := List.mem_filter.mp hs2
      refine List.mem_filter.mpr ⟨hs2f.1, ?_⟩
      have hs2c := hs2f.2
      cases htp2 : s2.targetPercent with
      | none =>
        rw [htp2] at hs2c
        cases hs2c
      | some q => rfl

/-- C1 (amended): for the Consolidate strategy, with duplicate-free
symbol names, non-negative target percents summing to exactly 100, and
non-negative amounts, every portfolio account's output `targetAmount`
total equals its input `amount` total exactly — in particular within the
0.01 tolerance.  (For Minimize-Trades the claim fails; see the
counterexample.) -/
theorem C1_account_conservation (symbols : List Sym) (accounts : List Account)
    (holdings : List Holding)
    (hnames : (symbols.map (·.name)).Nodup)
    (hp : ∀ s ∈ symbols, 0 ≤ s.targetPercent.getD 0)
    (hsum : calculateTargetPercentSum symbols = 100)
    (hamt : ∀ h ∈ holdings, 0 ≤ h.amount) :
    ∀ a ∈ allAccountsOf holdings,
      outAccountSum (calculateRebalance symbols accounts holdings) a
          = accountBudgetOf holdings a
      ∧ |outAccountSum (calculateRebalance symbols accounts holdings) a
          - accountBudgetOf holdings a| ≤ 1 / 100 := by
  obtain ⟨alloc, e1, e2, e3, e4, e5⟩ :=
    calculateRebalance_alloc symbols accounts holdings hnames hp hsum hamt
  intro a ha
  have hndA : (allAccountsOf holdings).Nodup := dedupFirst_nodup _
  have hlk : qsum ((symbols.filter (fun s => s.targetPercent.isSome)).map
      (fun sym => (mapGet alloc (sym.name, a)).getD 0)) = usedOf alloc a := by
    have hsw : ∀ sym ∈ symbols.filter (fun s => s.targetPercent.isSome),
        (mapGet alloc (sym.name, a)).getD 0
          = (mapGet (alloc.filter (fun e => decide (e.1.2 = a))) (sym.name, a)).getD 0 := by
      intro sym _
      rw [mapGet_filter_acct]
    rw [List.map_congr_left hsw]
    rw [show (symbols.filter (fun s => s.targetPercent.isSome)).map
        (fun sym => (mapGet (alloc.filter (fun e => decide (e.1.2 = a)))
          (sym.name, a)).getD 0)
        = ((symbols.filter (fun s => s.targetPercent.isSome)).map (fun s => s.name)).map
          (fun n => (mapGet (alloc.filter (fun e => decide (e.1.2 = a))) (n, a)).getD 0)
        from by
          rw [List.map_map]
          exact List.map_congr_left (fun s hs => rfl)]
    refine qsum_lookup_names _ _ a
      (hnames.sublist ((List.filter_sublist symbols).map (fun s => s.name)))
      (e4.sublist ((List.filter_sublist alloc).map (fun e => e.1))) ?_
    intro e he
    have h1 := List.of_mem_filter he
    have h2 := List.mem_of_mem_filter he
    exact ⟨by simpa using h1, (e5 e h2).2⟩
  have heq : outAccountSum (calculateRebalance symbols accounts holdings) a
      = accountBudgetOf holdings a := by
    rw [e1, outAccountSum_flatMap]
    have hsec : (allAccountsOf holdings).map
        (fun a2 => outAccountSum
          (resultRowsFor symbols holdings (priceMapOf symbols) alloc a2) a)
        = (allAccountsOf holdings).map (fun a2 => if a2 = a then
            qsum ((resultRowsFor symbols holdings (priceMapOf symbols) alloc a).map
              (fun r => r.targetAmount.getD 0)) else 0) := by
      refine List.map_congr_left ?_
      intro a2 ha2
      by_cases haa : a2 = a
      · rw [if_pos haa, haa]
        exact outAccountSum_of_all _ _ (resultRowsFor_account _ _ _ _ _)
      · rw [if_neg haa]
        refine outAccountSum_of_none _ _ ?_
        intro r hr
        rw [resultRowsFor_account symbols holdings (priceMapOf symbols) alloc a2 r hr]
        exact haa
    rw [hsec, qsum_map_update (allAccountsOf holdings) hndA a ha _ (fun _ => 0),
      qsum_map_zero, resultRowsFor_taSum, hlk, e2 a ha]
    show (0 : ℚ) - 0 + accountBudgetOf holdings a = accountBudgetOf holdings a
    ring
  refine ⟨heq, ?_⟩
  rw [heq, sub_self, abs_zero]
  norm_num

/-- Witness for the amended C1: the Consolidate conservation theorem
applies at the concrete two-symbol portfolio. -/
theorem C1_account_conservation_witness :
    "a1" ∈ allAccountsOf cxHolds9
    ∧ outAccountSum (calculateRebalance cxSyms9 [] cxHolds9) "a1"
        = accountBudgetOf cxHolds9 "a1" := by
  have h := C1_account_conservation cxSyms9 [] cxHolds9 (by decide) (by decide)
    (by decide) (by decide) "a1" (by decide)
  exact ⟨by decide, h.1⟩

/-- C4 (amended): for the Consolidate strategy, with duplicate-free
symbol names, non-negative target percents summing to exactly 100, and
non-negative amounts, every symbol with defined positive target percent
receives exactly `totalValue * percent / 100` across accounts — in
particular within the 0.01 tolerance.  (For Minimize-Trades the claim
fails; see the counterexample.) -/
theorem C4_symbol_conservation (symbols : List Sym) (accounts : List Account)
    (holdings : List Holding)
    (hnames : (symbols.map (·.name)).Nodup)
    (hp : ∀ s ∈ symbols, 0 ≤ s.targetPercent.getD 0)
    (hsum : calculateTargetPercentSum symbols = 100)
    (hamt : ∀ h ∈ holdings, 0 ≤ h.amount) :
    ∀ sym ∈ symbols, ∀ p, sym.targetPercent = some p → 0 < p →
      outSymbolSum (calculateRebalance symbols accounts holdings) sym.name
          = qsum (holdings.map (fun h => h.amount)) * (p / 100)
      ∧ |outSymbolSum (calculateRebalance symbols accounts holdings) sym.name
          - qsum (holdings.map (fun h => h.amount)) * (p / 100)| ≤ 1 / 100 := by
  obtain ⟨alloc, e1, e2, e3, e4, e5⟩ :=
    calculateRebalance_alloc symbols accounts holdings hnames hp hsum hamt
  intro sym hsym p htp hpp
  have hndA : (allAccountsOf holdings).Nodup := dedupFirst_nodup _
  have heq : outSymbolSum (calculateRebalance symbols accounts holdings) sym.name
      = qsum (holdings.map (fun h => h.amount)) * (p / 100) := by
    rw [e1, outSymbolSum_flatMap]
    have hsec : (allAccountsOf holdings).map
        (fun a2 => outSymbolSum
          (resultRowsFor symbols holdings (priceMapOf symbols) alloc a2) sym.name)
        = (allAccountsOf holdings).map
          (fun a2 => (mapGet alloc (sym.name, a2)).getD 0) :=
      List.map_congr_left (fun a2 _ =>
        resultRowsFor_symSum symbols holdings (priceMapOf symbols) alloc a2 sym hsym
          (by rw [htp]; rfl) hnames)
    rw [hsec]
    have hsw : ∀ a2 ∈ allAccountsOf holdings,
        (mapGet alloc (sym.name, a2)).getD 0
          = (mapGet (alloc.filter (fun e => decide (e.1.1 = sym.name)))
              (sym.name, a2)).getD 0 := by
      intro a2 _
      rw [mapGet_filter_sym]
    rw [List.map_congr_left hsw]
    have hlka := qsum_lookup_accounts
      (alloc.filter (fun e => decide (e.1.1 = sym.name))) (allAccountsOf holdings)
      sym.name hndA
      (e4.sublist ((List.filter_sublist alloc).map (fun e => e.1))) ?_
    · rw [hlka]
      exact e3 sym hsym p htp hpp
    · intro e he
      have h1 := List.of_mem_filter he
      have h2 := List.mem_of_mem_filter he
      exact ⟨by simpa using h1, (e5 e h2).1⟩
  refine ⟨heq, ?_⟩
  rw [heq, sub_self, abs_zero]
  norm_num

/-- Witness for the amended C4: the Consolidate symbol-conservation
theorem applies at the concrete two-symbol portfolio. -/
theorem C4_symbol_conservation_witness :
    outSymbolSum (calculateRebalance cxSyms9 [] cxHolds9) "A"
      = qsum (cxHolds9.map (fun h => h.amount)) * (60 / 100) := by
  have h := C4_symbol_conservation cxSyms9 [] cxHolds9 (by decide) (by decide)
    (by decide) (by decide)
    { name := "A", price := 10, targetPercent := some 60 } (by decide) 60 rfl (by decide)
  exact h.1

end Rebalancer
